import Mathlib

/-!
Verification development for the semadb shard core.

The Go sources are shallowly embedded:
* UUIDs are modelled as natural numbers (`Id`); distinct uuids are distinct numbers.
* float32 vectors are modelled as lists of integers; the float arithmetic of the
  distance functions is modelled by exact arithmetic, and the float prune factor
  alpha by an exact ratio of two integers.
* the bbolt buckets are modelled as association lists with distinct keys;
  a write transaction is modelled by running the transaction body as a pure
  state-passing function and committing its result only when the body returns
  without error (bbolt rolls the transaction back on error).
* the per-transaction point cache (spec section 4.3) is modelled as an association
  list holding the mutated points; clean read-through loads, which the Go cache
  also memoises, are not observable after commit because flush only writes
  dirty entries, so `getPoint` falls through to the bucket for unmutated points.
* `rand`-generated data (the entry point vector and uuid) are passed in as
  explicit arguments.
-/

namespace SemaDB

/-- Point / node identifier, modelling a uuid. -/
abbrev Id := Nat

/-- A vector of float32 components. Float arithmetic does not admit an exact
shallow embedding; the components are modelled as integers, which keeps the
distance arithmetic exact and kernel-computable. None of the claims depends on
the numeric domain beyond a totally ordered carrier with exact arithmetic. -/
abbrev Vec := List Int

/-- models.Point: the external point representation (id, vector, optional metadata bytes). -/
structure Point where
  id : Id
  vector : Vec
  metadata : Option (List Nat)
deriving DecidableEq, Repr

/-- ShardPoint (shard package): a point in its persistent form, together with its edge list. -/
structure ShardPoint where
  id : Id
  vector : Vec
  metadata : Option (List Nat)
  edges : List Id
deriving DecidableEq, Repr

/-- shard.go InsertPoints builds `ShardPoint{Point: point}`: the edge list starts empty. -/
def ShardPoint.ofPoint (p : Point) : ShardPoint :=
  ⟨p.id, p.vector, p.metadata, []⟩

/-- Association-list lookup used for both the points bucket and the point cache. -/
def aget {α : Type} : List (Id × α) → Id → Option α
  | [], _ => none
  | (j, v) :: rest, i => if j = i then some v else aget rest i

/-- Association-list overwrite-or-append, modelling a bucket / map put. -/
def aput {α : Type} : List (Id × α) → Id → α → List (Id × α)
  | [], i, v => [(i, v)]
  | (j, w) :: rest, i, v => if j = i then (i, v) :: rest else (j, w) :: aput rest i v

/-- Association-list removal, modelling deletePoint removing every sub-key of an id. -/
def aerase {α : Type} : List (Id × α) → Id → List (Id × α)
  | [], _ => []
  | (j, w) :: rest, i => if j = i then aerase rest i else (j, w) :: aerase rest i

/-- The points bucket: id keyed shard points. -/
abbrev Bucket := List (Id × ShardPoint)

/-- CachePoint: a shard point held by the transaction cache together with its dirty flags. -/
structure CachePoint where
  sp : ShardPoint
  isDirty : Bool
  isEdgeDirty : Bool
  isDeleted : Bool
deriving DecidableEq, Repr

/-- The per-transaction point cache; it holds the points mutated by the transaction. -/
abbrev Cache := List (Id × CachePoint)

/-- PointCache.GetPoint: a cached (possibly mutated) entry wins, otherwise the point is
read from the bucket. In Go the metadata sub-key is loaded lazily; carrying it here is
unobservable because flush never writes metadata for edge-dirty-only points and the
search path reads metadata directly from the bucket. -/
def getPoint (b : Bucket) (c : Cache) (i : Id) : Option CachePoint :=
  match aget c i with
  | some cp => some cp
  | none => (aget b i).map (fun sp => ⟨sp, false, false, false⟩)

/-- Errors surfaced by the embedded shard operations. `fuelOut` is the modelling
device for the greedy-search loop: the loop is defined on explicit fuel, and
termination is expressed as the existence of enough fuel. -/
inductive SErr where
  | badSearchSize : SErr
  | notFound : Id → SErr
  | alreadyExists : Id → SErr
  | fuelOut : SErr
deriving DecidableEq, Repr

/-- GetPoint as used inside transactions, turning a missing point into an error. -/
def getPointE (b : Bucket) (c : Cache) (i : Id) : Except SErr CachePoint :=
  match getPoint b c i with
  | some cp => Except.ok cp
  | none => Except.error (SErr.notFound i)

/-- PointCache.GetPointNeighbours: resolve each edge id of a point through the cache. -/
def getNeighbours (b : Bucket) (c : Cache) (sp : ShardPoint) : Except SErr (List CachePoint) :=
  sp.edges.mapM (getPointE b c)

/-- Write only the edges sub-key of a point (cache flush of an edge-dirty point). -/
def bputEdges (b : Bucket) (i : Id) (es : List Id) : Bucket :=
  match aget b i with
  | some sp => aput b i { sp with edges := es }
  | none => aput b i ⟨i, [], none, es⟩

/-- One step of PointCache.Flush, for one cache entry: a deleted point is removed
from the bucket, a dirty point is written whole, an edge-dirty point has only its
edge list written, a clean point is skipped. -/
def flushStep (acc : Bucket) (e : Id × CachePoint) : Bucket :=
  if e.2.isDeleted then aerase acc e.1
  else if e.2.isDirty then aput acc e.1 e.2.sp
  else if e.2.isEdgeDirty then bputEdges acc e.1 e.2.sp.edges
  else acc

/-- PointCache.Flush: apply the flush step for every cache entry. -/
def flush (c : Cache) (b : Bucket) : Bucket :=
  c.foldl flushStep b

/-- A distance function, such as the squared euclidean distance. The float
prune factor alpha of robustPrune is modelled as the exact ratio
alphaN / alphaD (alphaD positive), and the one comparison involving it is
expressed by cross-multiplication, which is exact rational arithmetic. -/
abbrev DistFn := Vec → Vec → Int

/-- eucDist from the source: sum of squared componentwise differences. (Go iterates
over the indices of the first vector and would panic on a shorter second vector;
vectors of one collection share vectorSize, and the claims never depend on
mismatched lengths.) -/
def eucDist (x y : Vec) : Int :=
  ((x.zip y).map (fun p => (p.1 - p.2) * (p.1 - p.2))).sum

/-- DistSetElem: an element of the working set; part_001 elements carry the visited mark. -/
structure DistSetElem where
  point : ShardPoint
  distance : Int
  visited : Bool
deriving DecidableEq, Repr

/-- DistSet: the ordered item array plus set-semantics membership on point ids.
The Go struct also stores the distance function; here it is passed to the
operations that need it. -/
structure DistSet where
  query : Vec
  items : List DistSetElem
  pset : Finset Id
deriving DecidableEq

/-- NewDistSet (capacity is irrelevant to the semantics). -/
def DistSet.empty (q : Vec) : DistSet := ⟨q, [], ∅⟩

/-- DistSet.AddPoint for a single point: skip if the id is present, otherwise compute
the distance against the fixed query vector and append. -/
def DistSet.addOne (d : DistFn) (ds : DistSet) (p : ShardPoint) : DistSet :=
  if p.id ∈ ds.pset then ds
  else { ds with
         items := ds.items ++ [⟨p, d p.vector ds.query, false⟩],
         pset := insert p.id ds.pset }

/-- DistSet.AddPoint over a list of points. -/
def DistSet.addPoints (d : DistFn) (ds : DistSet) (ps : List ShardPoint) : DistSet :=
  ps.foldl (DistSet.addOne d) ds

/-- DistSet.Add: insert an element that already carries its distance, with set semantics. -/
def DistSet.addElem (ds : DistSet) (e : DistSetElem) : DistSet :=
  if e.point.id ∈ ds.pset then ds
  else { ds with items := ds.items ++ [e], pset := insert e.point.id ds.pset }

/-- Comparison used by DistSet.Sort: ascending distance. -/
def elemLE (a b : DistSetElem) : Prop := a.distance ≤ b.distance

instance : DecidableRel elemLE :=
  fun a b => inferInstanceAs (Decidable (a.distance ≤ b.distance))

instance : IsTotal DistSetElem elemLE :=
  ⟨fun a b => le_total a.distance b.distance⟩

instance : IsTrans DistSetElem elemLE :=
  ⟨fun _ _ _ hab hbc => le_trans hab hbc⟩

/-- DistSet.Sort: sort of the item array by ascending distance. The specification
(section 4.4.1) fixes a stable ascending order; this is modelled by the stable,
structurally recursive insertion sort. -/
def DistSet.sortItems (ds : DistSet) : DistSet :=
  { ds with items := ds.items.insertionSort elemLE }

/-- DistSet.Len returns the size of the membership set. -/
def DistSet.len (ds : DistSet) : Nat := ds.pset.card

/-- DistSet.KeepFirstK: remove the ids of the elements beyond the first k from the
set and truncate the item array to k elements. -/
def DistSet.keepFirstK (ds : DistSet) (k : Nat) : DistSet :=
  { ds with
    pset := (ds.items.drop k).foldl (fun s e => s.erase e.point.id) ds.pset,
    items := ds.items.take k }

/-- DistSet.Remove: delete the id from set membership only. -/
def DistSet.removeId (ds : DistSet) (i : Id) : DistSet :=
  { ds with pset := ds.pset.erase i }

/-- Scan of the greedy-search loop: the first element not yet marked visited among
the first `Len()` items, together with its index. (The Go loop runs the index `i`
from 0 below `searchSet.Len()`, skipping visited elements and restarting from 0
after every expansion, which visits exactly the first unvisited element.) -/
def findUnvisitedAux : List DistSetElem → Nat → Option (Nat × DistSetElem)
  | [], _ => none
  | e :: rest, i => if e.visited then findUnvisitedAux rest (i + 1) else some (i, e)

/-- First unvisited element of the working set, scanning at most `Len()` items. -/
def DistSet.findUnvisited (ds : DistSet) : Option (Nat × DistSetElem) :=
  findUnvisitedAux (ds.items.take ds.pset.card) 0

/-- The greedy-search loop body (part_001 lines 38-56), on explicit fuel: pick the
first unvisited element; if none, stop and return both sets (the visited set
sorted). Otherwise mark it visited, add it to the visited set, load its
neighbours, add them to the search set, sort, and truncate to the search size. -/
def gsLoop (b : Bucket) (c : Cache) (d : DistFn) (S : Nat) :
    Nat → DistSet → DistSet → Except SErr (DistSet × DistSet)
  | 0, _, _ => Except.error SErr.fuelOut
  | fuel + 1, ss, vs =>
    match ss.findUnvisited with
    | none => Except.ok (ss, vs.sortItems)
    | some (i, e) => do
      let marked : DistSetElem := { e with visited := true }
      let ss₁ : DistSet := { ss with items := ss.items.set i marked }
      let vs₁ := vs.addElem marked
      let node ← getPointE b c e.point.id
      let nbrs ← getNeighbours b c node.sp
      let ss₂ := ss₁.addPoints d (nbrs.map (fun cp => cp.sp))
      let ss₃ := ss₂.sortItems
      let ss₄ := if S < ss₃.len then ss₃.keepFirstK S else ss₃
      gsLoop b c d S fuel ss₄ vs₁

/-- greedySearch (part_001 lines 16-60): reject searchSize below k, seed the search
set with the start point, and run the loop. Returns (searchSet, visitedSet). -/
def greedySearch (b : Bucket) (c : Cache) (d : DistFn) (startId : Id) (q : Vec)
    (k S fuel : Nat) : Except SErr (DistSet × DistSet) :=
  if S < k then Except.error SErr.badSearchSize
  else do
    let sp ← getPointE b c startId
    let ss := (DistSet.empty q).addPoints d [sp.sp]
    gsLoop b c d S fuel ss (DistSet.empty q)

/-- Inner removal pass of robustPrune: after popping the closest candidate `e`,
remove every remaining candidate x with alpha * eucDist(e, x) <= x.distance.
(part_001 hardcodes eucDist in this diversity check.) -/
def pruneFilter (alphaN alphaD : Int) (e : DistSetElem) (items : List DistSetElem)
    (s : Finset Id) : Finset Id :=
  items.foldl
    (fun acc x =>
      if x.point.id ∈ acc ∧ alphaN * eucDist e.point.vector x.point.vector ≤ alphaD * x.distance
      then acc.erase x.point.id else acc)
    s

/-- The robustPrune selection loop (part_001 lines 78-98), structurally recursive on
the item array: Pop scans the items for the first one still in the set, removes it
from the set and drops the scanned prefix; the popped id is appended to the new
edges; the loop stops when the degree bound is reached or the set is exhausted.
(When the set is non-empty but holds no item id the Go Pop would slice out of
range; that state is unreachable because the set only holds item ids.) -/
def pruneLoop (alphaN alphaD : Int) (R : Nat) :
    List DistSetElem → Finset Id → List Id → List Id
  | [], _, acc => acc
  | e :: rest, s, acc =>
    if e.point.id ∈ s then
      let acc₂ := acc ++ [e.point.id]
      if R ≤ acc₂.length then acc₂
      else pruneLoop alphaN alphaD R rest (pruneFilter alphaN alphaD e rest (s.erase e.point.id)) acc₂
    else pruneLoop alphaN alphaD R rest s acc

/-- robustPrune (part_001 lines 62-101): merge the node's current neighbours into
the candidate set, sort it ascending by distance to the node, remove the node's own
id from the set, then run the selection loop. Returns the new edge list; the
callers assign it to the point and mark it edge-dirty. -/
def robustPruneEdges (b : Bucket) (c : Cache) (d : DistFn) (alphaN alphaD : Int) (R : Nat)
    (nodeId : Id) (cand : DistSet) : Except SErr (List Id) := do
  let node ← getPointE b c nodeId
  let nbrs ← getNeighbours b c node.sp
  let cand₁ := cand.addPoints d (nbrs.map (fun cp => cp.sp))
  let cand₂ := cand₁.sortItems
  let cand₃ := cand₂.removeId nodeId
  Except.ok (pruneLoop alphaN alphaD R cand₃.items cand₃.pset [])

/-- Body of the bi-directional edge loop of insertSinglePoint (shard.go lines
176-198) for one neighbour id: a neighbour that would exceed the degree bound is
robust-pruned over its resolved neighbours plus the new point; otherwise
AddNeighbour appends the new point's id to its edge list. Either way the
neighbour is stored back edge-dirty. -/
def insertNeighbourStep (b : Bucket) (d : DistFn) (alphaN alphaD : Int) (R : Nat)
    (newPt : ShardPoint) (cc : Cache) (nId : Id) : Except SErr Cache := do
  let n ← getPointE b cc nId
  if R < n.sp.edges.length + 1 then
    let nn ← getNeighbours b cc n.sp
    let cand := ((DistSet.empty n.sp.vector).addPoints d
      (nn.map (fun cp => cp.sp))).addOne d newPt
    let cand₂ := cand.sortItems
    let nEdges ← robustPruneEdges b cc d alphaN alphaD R nId cand₂
    pure (aput cc nId { n with sp := { n.sp with edges := nEdges }, isEdgeDirty := true })
  else
    pure (aput cc nId
      { n with sp := { n.sp with edges := n.sp.edges ++ [newPt.id] }, isEdgeDirty := true })

/-- insertSinglePoint (shard.go lines 164-201): SetPoint the new point as dirty,
greedy-search from the start point with k = 1, robust-prune the visited set into
the new point's edges, then run the bi-directional edge loop over the new
point's edges. -/
def insertSinglePoint (b : Bucket) (d : DistFn) (alphaN alphaD : Int) (R S : Nat)
    (startId : Id) (c : Cache) (sp : ShardPoint) (fuel : Nat) : Except SErr Cache := do
  let c₁ := aput c sp.id ⟨sp, true, false, false⟩
  let r ← greedySearch b c₁ d startId sp.vector 1 S fuel
  let newEdges ← robustPruneEdges b c₁ d alphaN alphaD R sp.id r.2
  let newPt : ShardPoint := { sp with edges := newEdges }
  let c₂ := aput c₁ sp.id ⟨newPt, true, true, false⟩
  newEdges.foldlM (insertNeighbourStep b d alphaN alphaD R newPt) c₂

/-- The persistent shard state: the points bucket plus the internal bucket
(startId and the signed pointCount). -/
structure ShardState where
  bucket : Bucket
  pointCount : Int
  startId : Id
deriving DecidableEq, Repr

/-- One iteration of the InsertPoints loop (shard.go lines 222-240): error out
with "point already exists" if the input point is already present, otherwise
insertSinglePoint. -/
def insertStep (st : ShardState) (d : DistFn) (alphaN alphaD : Int) (R S fuel : Nat)
    (c : Cache) (p : Point) : Except SErr Cache :=
  match getPoint st.bucket c p.id with
  | some _ => Except.error (SErr.alreadyExists p.id)
  | none => insertSinglePoint st.bucket d alphaN alphaD R S st.startId c (ShardPoint.ofPoint p) fuel

/-- The body of the InsertPoints write transaction (shard.go lines 217-253). -/
def insertPointsBody (st : ShardState) (d : DistFn) (alphaN alphaD : Int) (R S : Nat)
    (points : List Point) (fuel : Nat) : Except SErr Cache :=
  points.foldlM (insertStep st d alphaN alphaD R S fuel) []

/-- InsertPoints: run the transaction body; on success add the input count to
pointCount and flush the cache; on error the transaction is rolled back and the
shard state is unchanged. -/
def insertPoints (st : ShardState) (d : DistFn) (alphaN alphaD : Int) (R S : Nat)
    (points : List Point) (fuel : Nat) : ShardState × Option SErr :=
  match insertPointsBody st d alphaN alphaD R S points fuel with
  | Except.error e => (st, some e)
  | Except.ok c =>
    ({ st with bucket := flush c st.bucket,
               pointCount := st.pointCount + points.length }, none)

/-- pruneDeleteNeighbour (shard.go lines 364-400): rebuild the candidate set of
`i` substituting the neighbours of doomed neighbours, sort, robust-prune, and
store the new edge list as edge-dirty. -/
def pruneDeleteNeighbour (b : Bucket) (d : DistFn) (alphaN alphaD : Int) (R : Nat)
    (c : Cache) (i : Id) (deleteSet : List Id) : Except SErr Cache := do
  let point ← getPointE b c i
  let nbrs ← getNeighbours b c point.sp
  let cand ← nbrs.foldlM
    (fun (ds : DistSet) n => do
      if n.sp.id ∈ deleteSet then
        let dp ← getPointE b c n.sp.id
        let dns ← getNeighbours b c dp.sp
        pure (ds.addPoints d (dns.map (fun cp => cp.sp)))
      else
        pure (ds.addOne d n.sp))
    (DistSet.empty point.sp.vector)
  let cand₂ := cand.sortItems
  let newEdges ← robustPruneEdges b c d alphaN alphaD R i cand₂
  pure (aput c i { point with sp := { point.sp with edges := newEdges }, isEdgeDirty := true })

/-- One iteration of the UpdatePoints loop (shard.go lines 276-295): skip an
input point that is not present; for a present one prune each current neighbour
against the point being replaced, re-insert it, and record its id. -/
def updateStep (st : ShardState) (d : DistFn) (alphaN alphaD : Int) (R S fuel : Nat)
    (acc : Cache × List Id) (p : Point) : Except SErr (Cache × List Id) :=
  match getPoint st.bucket acc.1 p.id with
  | none => pure acc
  | some cached => do
    let c₁ ← cached.sp.edges.foldlM
      (fun cc eId => pruneDeleteNeighbour st.bucket d alphaN alphaD R cc eId [p.id]) acc.1
    let c₂ ← insertSinglePoint st.bucket d alphaN alphaD R S st.startId c₁ (ShardPoint.ofPoint p) fuel
    pure (c₂, acc.2 ++ [p.id])

/-- The body of the UpdatePoints write transaction (shard.go lines 271-297). -/
def updatePointsBody (st : ShardState) (d : DistFn) (alphaN alphaD : Int) (R S : Nat)
    (points : List Point) (fuel : Nat) : Except SErr (Cache × List Id) :=
  points.foldlM (updateStep st d alphaN alphaD R S fuel) ([], [])

/-- UpdatePoints: run the body; on success flush (pointCount is not touched) and
return the updated ids; on error roll back. -/
def updatePoints (st : ShardState) (d : DistFn) (alphaN alphaD : Int) (R S : Nat)
    (points : List Point) (fuel : Nat) : (ShardState × List Id) × Option SErr :=
  match updatePointsBody st d alphaN alphaD R S points fuel with
  | Except.error e => ((st, []), some e)
  | Except.ok (c, ids) => (({ st with bucket := flush c st.bucket }, ids), none)

/-- First pass of DeletePoints (shard.go lines 416-430): look up each id of the
delete set (skipping missing ones), mark it deleted, record it, and collect the
edges that leave the delete set into toPrune (a set; modelled as an ordered
deduplicated list). -/
def deleteCollect (b : Bucket) (deleteSet : List Id) : Cache × List Id × List Id :=
  deleteSet.foldl
    (fun acc i =>
      match getPoint b acc.1 i with
      | none => acc
      | some p =>
        (aput acc.1 i { p with isDeleted := true },
         acc.2.1 ++ [i],
         p.sp.edges.foldl
           (fun tp e => if e ∈ deleteSet ∨ e ∈ tp then tp else tp ++ [e]) acc.2.2))
    ([], [], [])

/-- DeletePoints (shard.go lines 404-451): mark the found points deleted, prune
every surviving neighbour against the delete set, subtract the number of deleted
points from pointCount, flush; on error roll back. -/
def deletePoints (st : ShardState) (d : DistFn) (alphaN alphaD : Int) (R : Nat)
    (deleteSet : List Id) : (ShardState × List Id) × Option SErr :=
  match deleteCollect st.bucket deleteSet with
  | (c₁, deletedIds, toPrune) =>
    match toPrune.foldlM (fun cc i => pruneDeleteNeighbour st.bucket d alphaN alphaD R cc i deleteSet) c₁ with
    | Except.error e => ((st, []), some e)
    | Except.ok c₂ =>
      (({ st with bucket := flush c₂ st.bucket,
                  pointCount := st.pointCount - deletedIds.length }, deletedIds), none)

/-- SearchPoint: a result of SearchPoints. -/
structure SearchPoint where
  point : Point
  distance : Int
deriving DecidableEq, Repr

/-- getPointMetadata: read the metadata sub-key straight from the bucket. -/
def getPointMetadataB (b : Bucket) (i : Id) : Option (List Nat) :=
  (aget b i).bind (fun sp => sp.metadata)

/-- Result collection loop of SearchPoints (shard.go lines 329-352): iterate the
kept items in order, skip the start point, stop once k results are collected,
and back-fill each result's metadata from the bucket. -/
def collectResults (b : Bucket) (startId : Id) (k : Nat) :
    List DistSetElem → List SearchPoint → List SearchPoint
  | [], acc => acc
  | e :: rest, acc =>
    if e.point.id = startId then collectResults b startId k rest acc
    else if k ≤ acc.length then acc
    else collectResults b startId k rest
      (acc ++ [⟨⟨e.point.id, e.point.vector, getPointMetadataB b e.point.id⟩, e.distance⟩])

/-- SearchPoints (shard.go lines 313-360): greedy-search in a read transaction
with a fresh cache, truncate the search set with KeepFirstK(k) (shard.go line
328), then collect up to k results skipping the start point. -/
def searchPoints (st : ShardState) (d : DistFn) (S : Nat) (q : Vec) (k : Nat)
    (fuel : Nat) : Except SErr (List SearchPoint) := do
  let r ← greedySearch st.bucket [] d st.startId q k S fuel
  let ss := r.1.keepFirstK k
  Except.ok (collectResults st.bucket st.startId k ss.items [])

/-- The distance function selected at shard open. -/
inductive DistKind where
  | euclidean : DistKind
  | cosine : DistKind
deriving DecidableEq, Repr

/-- Distance-function selection of NewShard (shard.go lines 95-98): euclidean by
default, cosine only when the collection metric is the string "cosine". No other
metric value is inspected and no error is raised. -/
def selectDistKind (metric : String) : DistKind :=
  if metric = "cosine" then DistKind.cosine else DistKind.euclidean

/-- NewShard (shard.go lines 28-106) with the I/O paths abstracted: opening an
existing shard keeps its state; opening a fresh one materialises the entry point
from the supplied random uuid and random unit vector with an empty edge list and
pointCount 0 (an absent pointCount key reads as 0). The only Go error paths are
file/bucket I/O failures and an unparseable stored start id; none depend on the
metric, so open always yields a usable shard here. -/
def newShard (prior : Option ShardState) (randId : Id) (randVec : Vec)
    (metric : String) : ShardState × DistKind :=
  match prior with
  | some st => (st, selectDistKind metric)
  | none =>
    ({ bucket := aput [] randId ⟨randId, randVec, none, []⟩,
       pointCount := 0,
       startId := randId }, selectDistKind metric)

/-- A committed shard mutation, for stating invariants over all three write
operations at once. -/
inductive ShardOp where
  | insert : List Point → ShardOp
  | update : List Point → ShardOp
  | delete : List Id → ShardOp

/-- Run one write transaction and return the committed state (the input state if
the transaction rolled back) plus the error, if any. -/
def applyOp (st : ShardState) (d : DistFn) (alphaN alphaD : Int) (R S fuel : Nat) :
    ShardOp → ShardState × Option SErr
  | ShardOp.insert ps => insertPoints st d alphaN alphaD R S ps fuel
  | ShardOp.update ps =>
    let r := updatePoints st d alphaN alphaD R S ps fuel
    (r.1.1, r.2)
  | ShardOp.delete ids =>
    let r := deletePoints st d alphaN alphaD R ids
    (r.1.1, r.2)

/-- Outcome of one replica write inside ClusterWrite, as classified by
placement.go lines 66-78: success, a stale-data conflict, a timeout, or any
other failure. -/
inductive WriteOutcome where
  | success : WriteOutcome
  | staleData : WriteOutcome
  | timeout : WriteOutcome
  | otherFailure : WriteOutcome
deriving DecidableEq, Repr

/-- Result of ClusterWrite as seen by the caller. -/
inductive WriteResult where
  | ok : WriteResult
  | conflict : WriteResult
  | timeout : WriteResult
  | noSuccess : WriteResult
  | partialSuccess : WriteResult
deriving DecidableEq, Repr

/-- Outcome classification of ClusterWrite (placement.go lines 63-97): count the
per-replica outcomes, then: any conflict wins, else all-timeout, else
no-success, else all-success, else partial success. -/
def clusterWrite (rs : List WriteOutcome) : WriteResult :=
  let successCount := rs.count WriteOutcome.success
  let conflictCount := rs.count WriteOutcome.staleData
  let timeoutCount := rs.count WriteOutcome.timeout
  if 0 < conflictCount then WriteResult.conflict
  else if timeoutCount = rs.length then WriteResult.timeout
  else if successCount = 0 then WriteResult.noSuccess
  else if successCount = rs.length then WriteResult.ok
  else WriteResult.partialSuccess

/-- Order-preserving deduplication, modelling the construction of the Go
deleteSet map from the request ids (rpchandlers.go lines 300-303). -/
def dedupFirst (ids : List Id) : List Id :=
  ids.foldl (fun acc i => if i ∈ acc then acc else acc ++ [i]) []

/-- RPCDeletePoints (rpchandlers.go lines 294-309): build the delete set from the
request ids, set the response Count to the size of that set, and run the shard
deletion. Returns (Count, shard deletion result). -/
def rpcDeletePoints (st : ShardState) (d : DistFn) (alphaN alphaD : Int) (R : Nat)
    (ids : List Id) : Nat × ((ShardState × List Id) × Option SErr) :=
  let deleteSet := dedupFirst ids
  (deleteSet.length, deletePoints st d alphaN alphaD R deleteSet)

/-- ClusterWrite outcome classification transcribed from the words of the
specification (claim C9): any stale replica gives Conflict; otherwise all
replicas timing out gives Timeout; otherwise no replica succeeding gives
NoSuccess; every replica succeeding is success; the remaining cases are
PartialSuccess. Stated separately from `clusterWrite` so the code can be
compared against it. -/
def clusterWriteSpec (rs : List WriteOutcome) : WriteResult :=
  if WriteOutcome.staleData ∈ rs then WriteResult.conflict
  else if ∀ r ∈ rs, r = WriteOutcome.timeout then WriteResult.timeout
  else if ∀ r ∈ rs, r ≠ WriteOutcome.success then WriteResult.noSuccess
  else if ∀ r ∈ rs, r = WriteOutcome.success then WriteResult.ok
  else WriteResult.partialSuccess

/-- A shard holding only its entry point (id 0 at the origin), as produced by a
fresh open. -/
def freshShard : ShardState :=
  { bucket := [(0, ⟨0, [0, 0], none, []⟩)], pointCount := 0, startId := 0 }

/-- A shard with the entry point (id 0 at the origin) and one user point (id 1)
linked bidirectionally, as produced by inserting one point. -/
def twoPointShard : ShardState :=
  { bucket := [(0, ⟨0, [0, 0], none, [1]⟩), (1, ⟨1, [10, 0], none, [0]⟩)],
    pointCount := 1, startId := 0 }

/-- A candidate set for robustPrune holding one point with id 1 at distance 9
from the query vector of the node with id 0. -/
def pruneCand : DistSet :=
  (DistSet.empty [0]).addOne eucDist ⟨1, [3], none, []⟩

/-- A bucket with two isolated points for exercising robustPrune directly. -/
def pruneBucket : Bucket :=
  [(0, ⟨0, [0], none, []⟩), (1, ⟨1, [3], none, []⟩)]

/-- Keys of an association list. -/
def akeys {α : Type} (l : List (Id × α)) : List Id := l.map Prod.fst

/-- Presence of a point: GetPoint succeeds on the cache or the bucket. -/
def present (b : Bucket) (c : Cache) (i : Id) : Prop := (getPoint b c i).isSome = true

/-- No cache entry is marked deleted (holds throughout insert and update
transactions, which never delete). -/
def NoDeleted (c : Cache) : Prop := ∀ e ∈ c, e.2.isDeleted = false

/-- Deleted marks only occur on ids of the delete set (holds throughout a
delete transaction). -/
def DeletedIn (ids : List Id) (c : Cache) : Prop :=
  ∀ e ∈ c, e.2.isDeleted = true → e.1 ∈ ids

/-- Every cache entry carries at least one dirty flag; the shard code only ever
places mutated points in the cache. -/
def Flagged (c : Cache) : Prop :=
  ∀ e ∈ c, e.2.isDirty = true ∨ e.2.isEdgeDirty = true ∨ e.2.isDeleted = true

/-- The cache keys are distinct (the cache models a Go map). -/
def CKNodup (c : Cache) : Prop := (akeys c).Nodup

/-- The bucket keys are distinct (the bucket models a bbolt B+tree). -/
def BKNodup (b : Bucket) : Prop := (akeys b).Nodup

/-- Every cache entry key denotes a point present in the bucket (holds for
update and delete transactions, which create no new points). -/
def KeysInBucket (b : Bucket) (c : Cache) : Prop :=
  ∀ e ∈ c, (aget b e.1).isSome = true

/-- Every point stored in the bucket or the cache has an edge list of length at
most R (spec section 3, invariant 3). -/
def EdgesBoundedC (R : Nat) (c : Cache) : Prop :=
  ∀ e ∈ c, e.2.sp.edges.length ≤ R

/-- Every bucket point has an edge list of length at most R. -/
def EdgesBoundedB (R : Nat) (b : Bucket) : Prop :=
  ∀ e ∈ b, e.2.edges.length ≤ R

instance (R : Nat) (b : Bucket) : Decidable (EdgesBoundedB R b) :=
  inferInstanceAs (Decidable (∀ e ∈ b, e.2.edges.length ≤ R))

/-- Number of bucket entries whose key differs from `start`. -/
def ucount (start : Id) (b : Bucket) : Nat :=
  (b.filter (fun e => decide (e.1 ≠ start))).length

/-- Number of user points stored in a shard: bucket entries other than the entry
point (spec section 3, invariant 5). -/
def userPointCount (st : ShardState) : Nat :=
  ucount st.startId st.bucket

/-- Number of cache keys absent from the points bucket: the points created by
the transaction that built the cache. -/
def freshCount (b : Bucket) (c : Cache) : Nat :=
  ((akeys c).filter (fun k => (aget b k).isNone)).length

/-- Invariant of the first pass of DeletePoints: every cached point is marked
deleted and exists in the bucket, the cache holds exactly one entry per
recorded deleted id, and every recorded id comes from the delete set. -/
def DCInv (b : Bucket) (deleteSet : List Id) (acc : Cache × List Id × List Id) : Prop :=
  (∀ e ∈ acc.1, e.2.isDeleted = true ∧ (aget b e.1).isSome = true) ∧
  acc.1.length = acc.2.1.length ∧
  (∀ i ∈ acc.2.1, i ∈ deleteSet)

/-- Ids of the elements of a working-set item array. -/
def idsOf (items : List DistSetElem) : List Id := items.map (fun e => e.point.id)

/-- Every bucket value is stored under its own id: the shard code only ever
writes a point under the key equal to the point's id. -/
def WellKeyedB (b : Bucket) : Prop := ∀ e ∈ b, e.2.id = e.1

/-- Every cached point is stored under its own id. -/
def WellKeyedC (c : Cache) : Prop := ∀ e ∈ c, e.2.sp.id = e.1

/-- An element of a distance set is linked to the store: its point is the one
GetPoint resolves for its id and its distance is the distance from that point's
vector to the query. -/
def Linked (b : Bucket) (c : Cache) (d : DistFn) (q : Vec) (elem : DistSetElem) : Prop :=
  ∃ cp, getPoint b c elem.point.id = some cp ∧ cp.sp = elem.point ∧
    elem.distance = d elem.point.vector q

/-- The ids GetPoint can ever resolve: the bucket and cache keys. -/
def gsUniverse (b : Bucket) (c : Cache) : Finset Id := (akeys b ++ akeys c).toFinset

/-- Loop invariant of the greedy search (part_001 lines 38-56): the working set
has distinct ids matching its membership set and is sorted; every element of
either set is linked to the store; an element of the working set is marked
visited exactly when its id was recorded in the visited set; and once a visited
element has dropped out of the working set, the working set is full with every
distance at most the dropped element's distance. -/
structure GsInv (b : Bucket) (c : Cache) (d : DistFn) (q : Vec) (S : Nat)
    (ss vs : DistSet) : Prop where
  hsq : ss.query = q
  hvq : vs.query = q
  hnd : (idsOf ss.items).Nodup
  hpc : ss.pset = (idsOf ss.items).toFinset
  hvc : vs.pset = (idsOf vs.items).toFinset
  hsl : ∀ elem ∈ ss.items, Linked b c d q elem
  hvl : ∀ elem ∈ vs.items, Linked b c d q elem
  hvis : ∀ elem ∈ ss.items, elem.visited = true ↔ elem.point.id ∈ vs.pset
  hhist : ∀ ve ∈ vs.items, ve.point.id ∉ idsOf ss.items →
    S ≤ ss.items.length ∧ ∀ x ∈ ss.items, x.distance ≤ ve.distance
  hsorted : ss.items.Sorted elemLE

/-! ## Lemmas -/

theorem aget_aput_self {α : Type} (l : List (Id × α)) (i : Id) (v : α) :
    aget (aput l i v) i = some v := by
  induction l with
  | nil => simp [aput, aget]
  | cons e rest ih =>
    by_cases h : e.1 = i
    · simp [aput, h, aget]
    · simp [aput, aget, h, ih]

theorem aget_aput_ne {α : Type} (l : List (Id × α)) (i j : Id) (v : α) (h : i ≠ j) :
    aget (aput l i v) j = aget l j := by
  induction l with
  | nil => simp [aput, aget, h]
  | cons e rest ih =>
    by_cases he : e.1 = i
    · subst he
      simp [aput, aget, h]
    · simp only [aput, if_neg he]
      by_cases hej : e.1 = j
      · simp [aget, hej]
      · simp [aget, hej, ih]

theorem aget_aerase_self {α : Type} (l : List (Id × α)) (i : Id) :
    aget (aerase l i) i = none := by
  induction l with
  | nil => simp [aerase, aget]
  | cons e rest ih =>
    by_cases h : e.1 = i
    · simp [aerase, h, ih]
    · simp [aerase, aget, h, ih]

theorem aget_aerase_ne {α : Type} (l : List (Id × α)) (i j : Id) (h : i ≠ j) :
    aget (aerase l i) j = aget l j := by
  induction l with
  | nil => simp [aerase]
  | cons e rest ih =>
    by_cases he : e.1 = i
    · simp only [aerase, if_pos he, ih]
      rw [aget]
      rw [if_neg (by rw [he]; exact h)]
    · simp only [aerase, if_neg he]
      by_cases hej : e.1 = j
      · simp [aget, hej]
      · simp [aget, hej, ih]

theorem aget_isSome_iff_mem_akeys {α : Type} (l : List (Id × α)) (i : Id) :
    (aget l i).isSome = true ↔ i ∈ akeys l := by
  induction l with
  | nil => simp [aget, akeys]
  | cons e rest ih =>
    by_cases h : e.1 = i
    · simp [aget, akeys, h]
    · simp only [aget, if_neg h, akeys, List.map_cons, List.mem_cons]
      rw [ih]
      constructor
      · intro hm; exact Or.inr hm
      · rintro (hm | hm)
        · exact absurd hm.symm h
        · exact hm

theorem akeys_cons {α : Type} (e : Id × α) (l : List (Id × α)) :
    akeys (e :: l) = e.1 :: akeys l := rfl

theorem akeys_aput {α : Type} (l : List (Id × α)) (i : Id) (v : α) :
    akeys (aput l i v) = if i ∈ akeys l then akeys l else akeys l ++ [i] := by
  induction l with
  | nil => simp [aput, akeys]
  | cons e rest ih =>
    by_cases h : e.1 = i
    · subst h
      simp [aput, akeys]
    · have hne : ¬ i = e.1 := fun hc => h hc.symm
      have hstep : aput (e :: rest) i v = e :: aput rest i v := by
        simp [aput, h]
      rw [hstep, akeys_cons, ih, akeys_cons]
      by_cases hm : i ∈ akeys rest
      · rw [if_pos hm, if_pos (List.mem_cons.mpr (Or.inr hm))]
      · rw [if_neg hm, if_neg (by
          rw [List.mem_cons]
          rintro (hc | hc)
          · exact hne hc
          · exact hm hc)]
        rw [List.cons_append]

theorem akeys_aput_nodup {α : Type} (l : List (Id × α)) (i : Id) (v : α)
    (h : (akeys l).Nodup) : (akeys (aput l i v)).Nodup := by
  rw [akeys_aput]
  by_cases hm : i ∈ akeys l
  · rw [if_pos hm]; exact h
  · rw [if_neg hm]
    rw [List.nodup_append]
    exact ⟨h, List.nodup_singleton i, by
      intro x hx hxi
      rw [List.mem_singleton] at hxi
      subst hxi
      exact hm hx⟩

theorem akeys_aerase_sublist {α : Type} (l : List (Id × α)) (i : Id) :
    List.Sublist (akeys (aerase l i)) (akeys l) := by
  induction l with
  | nil => simp [aerase, akeys]
  | cons e rest ih =>
    by_cases h : e.1 = i
    · rw [show aerase (e :: rest) i = aerase rest i from by simp [aerase, h], akeys_cons]
      exact ih.trans (List.sublist_cons_self _ _)
    · rw [show aerase (e :: rest) i = e :: aerase rest i from by simp [aerase, h],
        akeys_cons, akeys_cons]
      exact ih.cons₂ _

theorem akeys_aerase_nodup {α : Type} (l : List (Id × α)) (i : Id)
    (h : (akeys l).Nodup) : (akeys (aerase l i)).Nodup :=
  (akeys_aerase_sublist l i).nodup h

theorem mem_aput {α : Type} {l : List (Id × α)} {i : Id} {v : α} {e : Id × α}
    (h : e ∈ aput l i v) : e = (i, v) ∨ e ∈ l := by
  induction l with
  | nil => simpa [aput] using h
  | cons f rest ih =>
    by_cases hf : f.1 = i
    · rw [show aput (f :: rest) i v = (i, v) :: rest from by simp [aput, hf]] at h
      rcases List.mem_cons.mp h with h1 | h1
      · exact Or.inl h1
      · exact Or.inr (List.mem_cons.mpr (Or.inr h1))
    · rw [show aput (f :: rest) i v = f :: aput rest i v from by simp [aput, hf]] at h
      rcases List.mem_cons.mp h with h1 | h1
      · exact Or.inr (List.mem_cons.mpr (Or.inl h1))
      · rcases ih h1 with h2 | h2
        · exact Or.inl h2
        · exact Or.inr (List.mem_cons.mpr (Or.inr h2))

theorem aget_eq_some_mem {α : Type} {l : List (Id × α)} {i : Id} {v : α}
    (h : aget l i = some v) : (i, v) ∈ l := by
  induction l with
  | nil => simp [aget] at h
  | cons f rest ih =>
    obtain ⟨a, w⟩ := f
    by_cases hf : a = i
    · rw [aget, if_pos hf] at h
      cases h
      subst hf
      exact List.mem_cons_self _ _
    · rw [aget, if_neg hf] at h
      exact List.mem_cons.mpr (Or.inr (ih h))

theorem mem_akeys_of_mem {α : Type} {l : List (Id × α)} {e : Id × α}
    (h : e ∈ l) : e.1 ∈ akeys l :=
  List.mem_map.mpr ⟨e, h, rfl⟩

theorem mem_aget_nodup {α : Type} {l : List (Id × α)} {i : Id} {v : α}
    (hnodup : (akeys l).Nodup) (h : (i, v) ∈ l) : aget l i = some v := by
  induction l with
  | nil => simp at h
  | cons f rest ih =>
    obtain ⟨a, w⟩ := f
    rw [akeys_cons] at hnodup
    rcases List.mem_cons.mp h with h1 | h1
    · cases h1
      rw [aget, if_pos rfl]
    · have hne : a ≠ i := by
        intro hc
        subst hc
        have hm := mem_akeys_of_mem h1
        exact (List.nodup_cons.mp hnodup).1 hm
      rw [aget, if_neg hne]
      exact ih (List.nodup_cons.mp hnodup).2 h1

theorem getPoint_aput (b : Bucket) (c : Cache) (i j : Id) (v : CachePoint) :
    getPoint b (aput c i v) j = if i = j then some v else getPoint b c j := by
  by_cases h : i = j
  · rw [if_pos h, ← h]
    unfold getPoint
    rw [aget_aput_self]
  · rw [if_neg h]
    unfold getPoint
    rw [aget_aput_ne c i j v h]

theorem present_aput (b : Bucket) (c : Cache) (i j : Id) (v : CachePoint) :
    present b (aput c i v) j ↔ j = i ∨ present b c j := by
  unfold present
  rw [getPoint_aput]
  by_cases h : i = j
  · simp [h]
  · rw [if_neg h]
    constructor
    · exact Or.inr
    · rintro (h1 | h1)
      · exact absurd h1.symm h
      · exact h1

theorem getPointE_ok_present {b : Bucket} {c : Cache} {i : Id} {cp : CachePoint}
    (h : getPointE b c i = Except.ok cp) : getPoint b c i = some cp := by
  unfold getPointE at h
  cases hg : getPoint b c i with
  | none => rw [hg] at h; cases h
  | some cp2 => rw [hg] at h; cases h; rfl

theorem getPoint_cases {b : Bucket} {c : Cache} {i : Id} {cp : CachePoint}
    (h : getPoint b c i = some cp) :
    (i, cp) ∈ c ∨ (aget c i = none ∧ aget b i = some cp.sp ∧ cp.isDirty = false ∧
      cp.isEdgeDirty = false ∧ cp.isDeleted = false) := by
  unfold getPoint at h
  cases hc : aget c i with
  | some cp2 =>
    rw [hc] at h
    cases h
    exact Or.inl (aget_eq_some_mem hc)
  | none =>
    rw [hc] at h
    cases hb : aget b i with
    | none => rw [hb] at h; cases h
    | some sp =>
      rw [hb] at h
      cases h
      exact Or.inr ⟨rfl, rfl, rfl, rfl, rfl⟩

/-- A property of the accumulator preserved by every successful step of a foldlM
over the Except monad is preserved by the whole fold. -/
theorem foldlM_invariant {σ β : Type} (P : σ → Prop) (f : σ → β → Except SErr σ)
    (hf : ∀ cc x cc₂, P cc → f cc x = Except.ok cc₂ → P cc₂) :
    ∀ (l : List β) (c : σ), P c → ∀ c₂, l.foldlM f c = Except.ok c₂ → P c₂ := by
  intro l
  induction l with
  | nil =>
    intro c hP c₂ h
    simp only [List.foldlM_nil] at h
    cases h
    exact hP
  | cons x rest ih =>
    intro c hP c₂ h
    simp only [List.foldlM_cons] at h
    cases hx : f c x with
    | error e => rw [hx] at h; cases h
    | ok cmid =>
      rw [hx] at h
      exact ih cmid (hf c x cmid hP hx) c₂ h

/-- A property of the accumulator preserved by every step of a pure foldl is
preserved by the whole fold. -/
theorem foldl_invariant {σ β : Type} (P : σ → Prop) (f : σ → β → σ)
    (hf : ∀ cc x, P cc → P (f cc x)) :
    ∀ (l : List β) (c : σ), P c → P (l.foldl f c) := by
  intro l
  induction l with
  | nil => intro c hP; exact hP
  | cons x rest ih =>
    intro c hP
    rw [List.foldl_cons]
    exact ih (f c x) (hf c x hP)

instance {ε α : Type} [DecidableEq ε] [DecidableEq α] : DecidableEq (Except ε α) :=
  fun a b =>
    match a, b with
    | Except.ok x, Except.ok y =>
      if h : x = y then isTrue (by rw [h]) else isFalse (by intro hc; cases hc; exact h rfl)
    | Except.error x, Except.error y =>
      if h : x = y then isTrue (by rw [h]) else isFalse (by intro hc; cases hc; exact h rfl)
    | Except.ok _, Except.error _ => isFalse (by intro hc; cases hc)
    | Except.error _, Except.ok _ => isFalse (by intro hc; cases hc)

theorem dedupFirst_go (ids : List Id) (acc : List Id) (hacc : acc.Nodup) :
    (ids.foldl (fun a i => if i ∈ a then a else a ++ [i]) acc).Nodup ∧
    ∀ j, j ∈ ids.foldl (fun a i => if i ∈ a then a else a ++ [i]) acc ↔ j ∈ ids ∨ j ∈ acc := by
  induction ids generalizing acc with
  | nil => exact ⟨hacc, fun j => by simp⟩
  | cons i rest ih =>
    simp only [List.foldl_cons]
    by_cases hmem : i ∈ acc
    · rw [if_pos hmem]
      obtain ⟨h1, h2⟩ := ih acc hacc
      refine ⟨h1, fun j => ?_⟩
      rw [h2 j, List.mem_cons]
      constructor
      · rintro (hj | hj)
        · exact Or.inl (Or.inr hj)
        · exact Or.inr hj
      · rintro ((rfl | hj) | hj)
        · exact Or.inr hmem
        · exact Or.inl hj
        · exact Or.inr hj
    · rw [if_neg hmem]
      have hacc₂ : (acc ++ [i]).Nodup := by
        rw [List.nodup_append]
        exact ⟨hacc, List.nodup_singleton i, by
          intro x hx hxi
          rw [List.mem_singleton] at hxi
          subst hxi
          exact hmem hx⟩
      obtain ⟨h1, h2⟩ := ih (acc ++ [i]) hacc₂
      refine ⟨h1, fun j => ?_⟩
      rw [h2 j, List.mem_cons]
      simp only [List.mem_append, List.mem_singleton]
      tauto

theorem dedupFirst_nodup (ids : List Id) : (dedupFirst ids).Nodup :=
  (dedupFirst_go ids [] List.nodup_nil).1

theorem mem_dedupFirst (ids : List Id) (j : Id) : j ∈ dedupFirst ids ↔ j ∈ ids := by
  have h := (dedupFirst_go ids [] List.nodup_nil).2 j
  simpa using h

theorem dedupFirst_length (ids : List Id) : (dedupFirst ids).length = ids.toFinset.card := by
  have h1 : (dedupFirst ids).toFinset = ids.toFinset := by
    apply Finset.ext
    intro j
    simp [List.mem_toFinset, mem_dedupFirst]
  calc (dedupFirst ids).length = (dedupFirst ids).toFinset.card :=
        (List.toFinset_card_of_nodup (dedupFirst_nodup ids)).symm
    _ = ids.toFinset.card := by rw [h1]

theorem except_bind_ok {α β : Type} {x : Except SErr α} {f : α → Except SErr β} {v : β}
    (h : (x >>= f) = Except.ok v) : ∃ a, x = Except.ok a ∧ f a = Except.ok v := by
  cases x with
  | error e =>
    rw [show (Except.error e >>= f : Except SErr β) = Except.error e from rfl] at h
    cases h
  | ok a =>
    rw [show (Except.ok a >>= f : Except SErr β) = f a from rfl] at h
    exact ⟨a, rfl, h⟩

theorem except_pure_ok {α : Type} {x v : α}
    (h : (pure x : Except SErr α) = Except.ok v) : x = v := by
  cases h
  rfl

theorem aget_flushStep_ne (b : Bucket) (e : Id × CachePoint) (j : Id) (h : e.1 ≠ j) :
    aget (flushStep b e) j = aget b j := by
  unfold flushStep
  by_cases h1 : e.2.isDeleted = true
  · rw [if_pos h1]
    exact aget_aerase_ne b e.1 j h
  · rw [if_neg h1]
    by_cases h2 : e.2.isDirty = true
    · rw [if_pos h2]
      exact aget_aput_ne b e.1 j _ h
    · rw [if_neg h2]
      by_cases h3 : e.2.isEdgeDirty = true
      · rw [if_pos h3]
        unfold bputEdges
        cases aget b e.1 with
        | some sp => exact aget_aput_ne b e.1 j _ h
        | none => exact aget_aput_ne b e.1 j _ h
      · rw [if_neg h3]

theorem aget_flush_notkey (c : Cache) (b : Bucket) (j : Id)
    (h : ∀ e ∈ c, e.1 ≠ j) : aget (flush c b) j = aget b j := by
  induction c generalizing b with
  | nil => rfl
  | cons e rest ih =>
    rw [show flush (e :: rest) b = flush rest (flushStep b e) from rfl]
    rw [ih (flushStep b e) (fun f hf => h f (List.mem_cons.mpr (Or.inr hf)))]
    exact aget_flushStep_ne b e j (h e (List.mem_cons_self e rest))

theorem aget_bputEdges_self (b : Bucket) (i : Id) (es : List Id) :
    aget (bputEdges b i es) i = some (match aget b i with
      | some sp => { sp with edges := es }
      | none => ⟨i, [], none, es⟩) := by
  unfold bputEdges
  cases aget b i with
  | some sp => exact aget_aput_self b i _
  | none => exact aget_aput_self b i _

theorem aget_flush_key (c : Cache) (b : Bucket) (i : Id) (cp : CachePoint)
    (hnodup : CKNodup c) (hmem : (i, cp) ∈ c) :
    aget (flush c b) i =
      if cp.isDeleted = true then none
      else if cp.isDirty = true then some cp.sp
      else if cp.isEdgeDirty = true then aget (bputEdges b i cp.sp.edges) i
      else aget b i := by
  induction c generalizing b with
  | nil => simp at hmem
  | cons e rest ih =>
    rw [show flush (e :: rest) b = flush rest (flushStep b e) from rfl]
    rcases List.mem_cons.mp hmem with h1 | h1
    · have he : e = (i, cp) := h1.symm
      subst he
      have hrest : ∀ f ∈ rest, f.1 ≠ i := by
        intro f hf hc
        have hmk := mem_akeys_of_mem hf
        rw [hc] at hmk
        unfold CKNodup at hnodup
        rw [akeys_cons] at hnodup
        exact (List.nodup_cons.mp hnodup).1 hmk
      rw [aget_flush_notkey rest (flushStep b (i, cp)) i hrest]
      unfold flushStep
      by_cases hd : cp.isDeleted = true
      · rw [if_pos hd, if_pos hd]
        exact aget_aerase_self b i
      · rw [if_neg hd, if_neg hd]
        by_cases h2 : cp.isDirty = true
        · rw [if_pos h2, if_pos h2]
          exact aget_aput_self b i _
        · rw [if_neg h2, if_neg h2]
          by_cases h3 : cp.isEdgeDirty = true
          · rw [if_pos h3, if_pos h3]
          · rw [if_neg h3, if_neg h3]
    · have hne : e.1 ≠ i := by
        intro hc
        unfold CKNodup at hnodup
        rw [akeys_cons] at hnodup
        have hmk := mem_akeys_of_mem h1
        rw [← hc] at hmk
        exact (List.nodup_cons.mp hnodup).1 hmk
      have hnodup2 : CKNodup rest := by
        unfold CKNodup at hnodup ⊢
        rw [akeys_cons] at hnodup
        exact (List.nodup_cons.mp hnodup).2
      rw [ih (flushStep b e) hnodup2 h1]
      have hb1 : aget (flushStep b e) i = aget b i := aget_flushStep_ne b e i hne
      by_cases hd : cp.isDeleted = true
      · rw [if_pos hd, if_pos hd]
      · rw [if_neg hd, if_neg hd]
        by_cases h2 : cp.isDirty = true
        · rw [if_pos h2, if_pos h2]
        · rw [if_neg h2, if_neg h2]
          by_cases h3 : cp.isEdgeDirty = true
          · rw [if_pos h3, if_pos h3]
            unfold bputEdges
            rw [hb1]
            cases aget b i with
            | some sp =>
              rw [aget_aput_self, aget_aput_self]
            | none =>
              rw [aget_aput_self, aget_aput_self]
          · rw [if_neg h3, if_neg h3]
            exact hb1

theorem isSome_aget_flush_of_bucket {c : Cache} {b : Bucket} {j : Id}
    (hnodup : CKNodup c) (hnd : NoDeleted c) (hb : (aget b j).isSome = true) :
    (aget (flush c b) j).isSome = true := by
  by_cases hk : j ∈ akeys c
  · obtain ⟨e, he, hej⟩ := List.mem_map.mp hk
    have hmem : (j, e.2) ∈ c := by
      rw [← hej]
      exact he
    rw [aget_flush_key c b j e.2 hnodup hmem]
    rw [if_neg (by rw [hnd e he]; exact Bool.false_ne_true)]
    by_cases h2 : e.2.isDirty = true
    · rw [if_pos h2]
      rfl
    · rw [if_neg h2]
      by_cases h3 : e.2.isEdgeDirty = true
      · rw [if_pos h3, aget_bputEdges_self]
        rfl
      · rw [if_neg h3]
        exact hb
  · rw [aget_flush_notkey c b j (fun e he hc => hk (by rw [← hc]; exact mem_akeys_of_mem he))]
    exact hb

theorem getPoint_NoDeleted {b : Bucket} {c : Cache} {i : Id} {cp : CachePoint}
    (hnd : NoDeleted c) (h : getPoint b c i = some cp) : cp.isDeleted = false := by
  rcases getPoint_cases h with hm | ⟨_, _, _, _, hd⟩
  · exact hnd _ hm
  · exact hd

theorem NoDeleted_aput {c : Cache} {i : Id} {v : CachePoint}
    (hnd : NoDeleted c) (hv : v.isDeleted = false) : NoDeleted (aput c i v) := by
  intro e he
  rcases mem_aput he with h1 | h1
  · rw [h1]
    exact hv
  · exact hnd e h1

theorem Flagged_aput {c : Cache} {i : Id} {v : CachePoint}
    (hf : Flagged c)
    (hv : v.isDirty = true ∨ v.isEdgeDirty = true ∨ v.isDeleted = true) :
    Flagged (aput c i v) := by
  intro e he
  rcases mem_aput he with h1 | h1
  · rw [h1]
    exact hv
  · exact hf e h1

theorem CKNodup_aput {c : Cache} {i : Id} {v : CachePoint}
    (h : CKNodup c) : CKNodup (aput c i v) :=
  akeys_aput_nodup c i v h

theorem KeysInBucket_aput {b : Bucket} {c : Cache} {i : Id} {v : CachePoint}
    (h : KeysInBucket b c) (hi : (aget b i).isSome = true) :
    KeysInBucket b (aput c i v) := by
  intro e he
  rcases mem_aput he with h1 | h1
  · rw [h1]
    exact hi
  · exact h e h1

theorem EdgesBoundedC_aput {R : Nat} {c : Cache} {i : Id} {v : CachePoint}
    (h : EdgesBoundedC R c) (hv : v.sp.edges.length ≤ R) :
    EdgesBoundedC R (aput c i v) := by
  intro e he
  rcases mem_aput he with h1 | h1
  · rw [h1]
    exact hv
  · exact h e h1

theorem KeysInBucket_present {b : Bucket} {c : Cache} {i : Id} {cp : CachePoint}
    (hk : KeysInBucket b c) (h : getPoint b c i = some cp) :
    (aget b i).isSome = true := by
  rcases getPoint_cases h with hm | ⟨_, hb, _, _, _⟩
  · have := hk _ hm
    exact this
  · rw [hb]
    rfl

/-- Destructured form of a successful insertNeighbourStep: the neighbour exists,
and it is stored back with a new edge list, either robust-pruned (degree bound
would be exceeded) or with the new point's id appended within the bound. -/
theorem insertNeighbourStep_ok {b : Bucket} {d : DistFn} {alphaN alphaD : Int} {R : Nat}
    {newPt : ShardPoint} {cc : Cache} {nId : Id} {cc₂ : Cache}
    (h : insertNeighbourStep b d alphaN alphaD R newPt cc nId = Except.ok cc₂) :
    ∃ n es, getPoint b cc nId = some n ∧
      cc₂ = aput cc nId { n with sp := { n.sp with edges := es }, isEdgeDirty := true } ∧
      ((∃ cand, robustPruneEdges b cc d alphaN alphaD R nId cand = Except.ok es) ∨
       (es = n.sp.edges ++ [newPt.id] ∧ n.sp.edges.length + 1 ≤ R)) := by
  unfold insertNeighbourStep at h
  obtain ⟨n, hn, h⟩ := except_bind_ok h
  by_cases hR : R < n.sp.edges.length + 1
  · rw [if_pos hR] at h
    obtain ⟨nn, hnn, h⟩ := except_bind_ok h
    obtain ⟨es, hes, h⟩ := except_bind_ok h
    have hcc := except_pure_ok h
    exact ⟨n, es, getPointE_ok_present hn, hcc.symm, Or.inl ⟨_, hes⟩⟩
  · rw [if_neg hR] at h
    have hcc := except_pure_ok h
    exact ⟨n, n.sp.edges ++ [newPt.id], getPointE_ok_present hn, hcc.symm,
      Or.inr ⟨rfl, by omega⟩⟩

/-- Destructured form of a successful pruneDeleteNeighbour: the point exists and
is stored back edge-dirty with a robust-pruned edge list. -/
theorem pruneDeleteNeighbour_ok {b : Bucket} {d : DistFn} {alphaN alphaD : Int} {R : Nat}
    {c : Cache} {i : Id} {deleteSet : List Id} {c₂ : Cache}
    (h : pruneDeleteNeighbour b d alphaN alphaD R c i deleteSet = Except.ok c₂) :
    ∃ point es, getPoint b c i = some point ∧
      c₂ = aput c i { point with sp := { point.sp with edges := es }, isEdgeDirty := true } ∧
      ∃ cand, robustPruneEdges b c d alphaN alphaD R i cand = Except.ok es := by
  unfold pruneDeleteNeighbour at h
  obtain ⟨point, hpt, h⟩ := except_bind_ok h
  obtain ⟨nbrs, hnb, h⟩ := except_bind_ok h
  obtain ⟨cand, hcand, h⟩ := except_bind_ok h
  obtain ⟨es, hes, h⟩ := except_bind_ok h
  have hcc := except_pure_ok h
  exact ⟨point, es, getPointE_ok_present hpt, hcc.symm, _, hes⟩

/-- Destructured form of a successful insertSinglePoint: the final cache is the
neighbour fold applied to the cache holding the new point with its robust-pruned
edges. -/
theorem insertSinglePoint_ok {b : Bucket} {d : DistFn} {alphaN alphaD : Int} {R S : Nat}
    {startId : Id} {c : Cache} {sp : ShardPoint} {fuel : Nat} {c₂ : Cache}
    (h : insertSinglePoint b d alphaN alphaD R S startId c sp fuel = Except.ok c₂) :
    ∃ r newEdges,
      greedySearch b (aput c sp.id ⟨sp, true, false, false⟩) d startId sp.vector 1 S fuel
        = Except.ok r ∧
      robustPruneEdges b (aput c sp.id ⟨sp, true, false, false⟩) d alphaN alphaD R sp.id r.2
        = Except.ok newEdges ∧
      newEdges.foldlM
        (insertNeighbourStep b d alphaN alphaD R { sp with edges := newEdges })
        (aput (aput c sp.id ⟨sp, true, false, false⟩) sp.id
          ⟨{ sp with edges := newEdges }, true, true, false⟩) = Except.ok c₂ := by
  unfold insertSinglePoint at h
  obtain ⟨r, hr, h⟩ := except_bind_ok h
  obtain ⟨newEdges, hne, h⟩ := except_bind_ok h
  exact ⟨r, newEdges, hr, hne, h⟩

theorem present_of_getPoint_some {b : Bucket} {c : Cache} {i : Id} {cp : CachePoint}
    (h : getPoint b c i = some cp) : present b c i := by
  unfold present
  rw [h]
  rfl

theorem insertNeighbourStep_NoDeleted {b : Bucket} {d : DistFn} {alphaN alphaD : Int}
    {R : Nat} {newPt : ShardPoint} (cc : Cache) (nId : Id) (cc₂ : Cache)
    (hnd : NoDeleted cc)
    (h : insertNeighbourStep b d alphaN alphaD R newPt cc nId = Except.ok cc₂) :
    NoDeleted cc₂ := by
  obtain ⟨n, es, hget, hcc, _⟩ := insertNeighbourStep_ok h
  rw [hcc]
  have hdel : n.isDeleted = false := getPoint_NoDeleted hnd hget
  exact NoDeleted_aput hnd hdel

theorem insertNeighbourStep_CKNodup {b : Bucket} {d : DistFn} {alphaN alphaD : Int}
    {R : Nat} {newPt : ShardPoint} (cc : Cache) (nId : Id) (cc₂ : Cache)
    (hck : CKNodup cc)
    (h : insertNeighbourStep b d alphaN alphaD R newPt cc nId = Except.ok cc₂) :
    CKNodup cc₂ := by
  obtain ⟨n, es, hget, hcc, _⟩ := insertNeighbourStep_ok h
  rw [hcc]
  exact CKNodup_aput hck

theorem insertNeighbourStep_Flagged {b : Bucket} {d : DistFn} {alphaN alphaD : Int}
    {R : Nat} {newPt : ShardPoint} (cc : Cache) (nId : Id) (cc₂ : Cache)
    (hfl : Flagged cc)
    (h : insertNeighbourStep b d alphaN alphaD R newPt cc nId = Except.ok cc₂) :
    Flagged cc₂ := by
  obtain ⟨n, es, hget, hcc, _⟩ := insertNeighbourStep_ok h
  rw [hcc]
  exact Flagged_aput hfl (Or.inr (Or.inl rfl))

theorem insertNeighbourStep_present {b : Bucket} {d : DistFn} {alphaN alphaD : Int}
    {R : Nat} {newPt : ShardPoint} {cc : Cache} {nId : Id} {cc₂ : Cache}
    (h : insertNeighbourStep b d alphaN alphaD R newPt cc nId = Except.ok cc₂) :
    ∀ j, present b cc₂ j ↔ present b cc j := by
  obtain ⟨n, es, hget, hcc, _⟩ := insertNeighbourStep_ok h
  intro j
  rw [hcc, present_aput]
  constructor
  · rintro (h1 | h1)
    · rw [h1]
      exact present_of_getPoint_some hget
    · exact h1
  · exact Or.inr

theorem insertNeighbourStep_KeysInBucket {b : Bucket} {d : DistFn} {alphaN alphaD : Int}
    {R : Nat} {newPt : ShardPoint} (cc : Cache) (nId : Id) (cc₂ : Cache)
    (hk : KeysInBucket b cc)
    (h : insertNeighbourStep b d alphaN alphaD R newPt cc nId = Except.ok cc₂) :
    KeysInBucket b cc₂ := by
  obtain ⟨n, es, hget, hcc, _⟩ := insertNeighbourStep_ok h
  rw [hcc]
  exact KeysInBucket_aput hk (KeysInBucket_present hk hget)

/-- Cache-shape properties of a successful insertSinglePoint: no deletions, key
distinctness, the flagged discipline and bucket-key coverage are preserved, and
the set of present points grows by exactly the inserted id. -/
theorem insertSinglePoint_props {b : Bucket} {d : DistFn} {alphaN alphaD : Int} {R S : Nat}
    {startId : Id} {c : Cache} {sp : ShardPoint} {fuel : Nat} {c₂ : Cache}
    (h : insertSinglePoint b d alphaN alphaD R S startId c sp fuel = Except.ok c₂) :
    (NoDeleted c → NoDeleted c₂) ∧ (CKNodup c → CKNodup c₂) ∧
    (Flagged c → Flagged c₂) ∧
    (∀ j, present b c₂ j ↔ j = sp.id ∨ present b c j) ∧
    (KeysInBucket b c → (aget b sp.id).isSome = true → KeysInBucket b c₂) := by
  obtain ⟨r, newEdges, hr, hne, hfold⟩ := insertSinglePoint_ok h
  refine ⟨?_, ?_, ?_, ?_, ?_⟩
  · intro hnd
    refine foldlM_invariant NoDeleted _ ?_ newEdges _ ?_ c₂ hfold
    · intro cc x cc₂ hP hs
      exact insertNeighbourStep_NoDeleted cc x cc₂ hP hs
    · exact NoDeleted_aput (NoDeleted_aput hnd rfl) rfl
  · intro hck
    refine foldlM_invariant CKNodup _ ?_ newEdges _ ?_ c₂ hfold
    · intro cc x cc₂ hP hs
      exact insertNeighbourStep_CKNodup cc x cc₂ hP hs
    · exact CKNodup_aput (CKNodup_aput hck)
  · intro hfl
    refine foldlM_invariant Flagged _ ?_ newEdges _ ?_ c₂ hfold
    · intro cc x cc₂ hP hs
      exact insertNeighbourStep_Flagged cc x cc₂ hP hs
    · exact Flagged_aput (Flagged_aput hfl (Or.inl rfl)) (Or.inl rfl)
  · refine foldlM_invariant (fun cc => ∀ j, present b cc j ↔ j = sp.id ∨ present b c j)
      _ ?_ newEdges _ ?_ c₂ hfold
    · intro cc x cc₂ hP hs j
      rw [insertNeighbourStep_present hs j]
      exact hP j
    · intro j
      rw [present_aput, present_aput]
      constructor
      · rintro (h1 | (h1 | h1))
        · exact Or.inl h1
        · exact Or.inl h1
        · exact Or.inr h1
      · rintro (h1 | h1)
        · exact Or.inl h1
        · exact Or.inr (Or.inr h1)
  · intro hk hsp
    refine foldlM_invariant (KeysInBucket b) _ ?_ newEdges _ ?_ c₂ hfold
    · intro cc x cc₂ hP hs
      exact insertNeighbourStep_KeysInBucket cc x cc₂ hP hs
    · exact KeysInBucket_aput (KeysInBucket_aput hk hsp) hsp

/-- Cache-shape properties of a successful pruneDeleteNeighbour: it rewrites one
existing point's edges in place, so every structural cache property and the set
of present points are preserved. -/
theorem pruneDeleteNeighbour_props {b : Bucket} {d : DistFn} {alphaN alphaD : Int}
    {R : Nat} {c : Cache} {i : Id} {deleteSet : List Id} {c₂ : Cache}
    (h : pruneDeleteNeighbour b d alphaN alphaD R c i deleteSet = Except.ok c₂) :
    (NoDeleted c → NoDeleted c₂) ∧ (CKNodup c → CKNodup c₂) ∧
    (Flagged c → Flagged c₂) ∧
    (∀ j, present b c₂ j ↔ present b c j) ∧
    (KeysInBucket b c → KeysInBucket b c₂) := by
  obtain ⟨point, es, hget, hcc, _⟩ := pruneDeleteNeighbour_ok h
  subst hcc
  refine ⟨?_, ?_, ?_, ?_, ?_⟩
  · intro hnd
    have hdel : point.isDeleted = false := getPoint_NoDeleted hnd hget
    exact NoDeleted_aput hnd hdel
  · intro hck
    exact CKNodup_aput hck
  · intro hfl
    exact Flagged_aput hfl (Or.inr (Or.inl rfl))
  · intro j
    rw [present_aput]
    constructor
    · rintro (h1 | h1)
      · rw [h1]
        exact present_of_getPoint_some hget
      · exact h1
    · exact Or.inr
  · intro hk
    exact KeysInBucket_aput hk (KeysInBucket_present hk hget)

theorem foldl_invariant_mem {σ β : Type} (P : σ → Prop) (f : σ → β → σ) :
    ∀ (l : List β), (∀ cc x, x ∈ l → P cc → P (f cc x)) → ∀ c, P c → P (l.foldl f c) := by
  intro l
  induction l with
  | nil => intro _ c hP; exact hP
  | cons x rest ih =>
    intro hf c hP
    rw [List.foldl_cons]
    exact ih (fun cc y hy hcc => hf cc y (List.mem_cons.mpr (Or.inr hy)) hcc) (f c x)
      (hf c x (List.mem_cons_self x rest) hP)

/-- Presence of the bucket point `j` survives a flush whose cache never marks
`j` deleted. -/
theorem isSome_aget_flush_at {c : Cache} {b : Bucket} {j : Id}
    (hnodup : CKNodup c) (hj : ∀ cp, (j, cp) ∈ c → cp.isDeleted = false)
    (hb : (aget b j).isSome = true) :
    (aget (flush c b) j).isSome = true := by
  by_cases hk : j ∈ akeys c
  · obtain ⟨e, he, hej⟩ := List.mem_map.mp hk
    have hmem : (j, e.2) ∈ c := by
      rw [← hej]
      exact he
    rw [aget_flush_key c b j e.2 hnodup hmem]
    rw [if_neg (by rw [hj e.2 hmem]; exact Bool.false_ne_true)]
    by_cases h2 : e.2.isDirty = true
    · rw [if_pos h2]
      rfl
    · rw [if_neg h2]
      by_cases h3 : e.2.isEdgeDirty = true
      · rw [if_pos h3, aget_bputEdges_self]
        rfl
      · rw [if_neg h3]
        exact hb
  · rw [aget_flush_notkey c b j (fun e he hc => hk (by rw [← hc]; exact mem_akeys_of_mem he))]
    exact hb

theorem pruneDeleteNeighbour_DeletedIn {b : Bucket} {d : DistFn} {alphaN alphaD : Int}
    {R : Nat} {c : Cache} {i : Id} {deleteSet : List Id} {c₂ : Cache}
    (h : pruneDeleteNeighbour b d alphaN alphaD R c i deleteSet = Except.ok c₂)
    (hdi : DeletedIn deleteSet c) : DeletedIn deleteSet c₂ := by
  obtain ⟨point, es, hget, hcc, _⟩ := pruneDeleteNeighbour_ok h
  subst hcc
  intro e he hdel
  rcases mem_aput he with h1 | h1
  · rw [h1] at hdel ⊢
    have hpd : point.isDeleted = true := hdel
    rcases getPoint_cases hget with hm | ⟨_, _, _, _, hd⟩
    · exact hdi (i, point) hm hpd
    · rw [hd] at hpd
      cases hpd
  · exact hdi e h1 hdel

/-- Properties preserved by the pruneDeleteNeighbour fold used by DeletePoints
and UpdatePoints. -/
theorem prunesFold_props {b : Bucket} {d : DistFn} {alphaN alphaD : Int} {R : Nat}
    {deleteSet : List Id} (l : List Id) (c c₂ : Cache)
    (h : l.foldlM (fun cc i => pruneDeleteNeighbour b d alphaN alphaD R cc i deleteSet) c
      = Except.ok c₂) :
    (NoDeleted c → NoDeleted c₂) ∧ (CKNodup c → CKNodup c₂) ∧
    (Flagged c → Flagged c₂) ∧
    (∀ j, present b c₂ j ↔ present b c j) ∧
    (KeysInBucket b c → KeysInBucket b c₂) ∧
    (DeletedIn deleteSet c → DeletedIn deleteSet c₂) := by
  refine ⟨?_, ?_, ?_, ?_, ?_, ?_⟩
  · intro hP
    refine foldlM_invariant NoDeleted _ ?_ l c hP c₂ h
    intro cc x cc₂ hp hs
    exact (pruneDeleteNeighbour_props hs).1 hp
  · intro hP
    refine foldlM_invariant CKNodup _ ?_ l c hP c₂ h
    intro cc x cc₂ hp hs
    exact (pruneDeleteNeighbour_props hs).2.1 hp
  · intro hP
    refine foldlM_invariant Flagged _ ?_ l c hP c₂ h
    intro cc x cc₂ hp hs
    exact (pruneDeleteNeighbour_props hs).2.2.1 hp
  · refine foldlM_invariant (fun cc => ∀ j, present b cc j ↔ present b c j) _ ?_ l c
      (fun j => Iff.rfl) c₂ h
    intro cc x cc₂ hp hs j
    rw [(pruneDeleteNeighbour_props hs).2.2.2.1 j]
    exact hp j
  · intro hP
    refine foldlM_invariant (KeysInBucket b) _ ?_ l c hP c₂ h
    intro cc x cc₂ hp hs
    exact (pruneDeleteNeighbour_props hs).2.2.2.2 hp
  · intro hP
    refine foldlM_invariant (DeletedIn deleteSet) _ ?_ l c hP c₂ h
    intro cc x cc₂ hp hs
    exact pruneDeleteNeighbour_DeletedIn hs hp

/-- Properties of the cache produced by a successful InsertPoints transaction
body: structurally clean, and the present points are the initial ones plus a
subset containing every input id. -/
theorem insertPointsBody_props {st : ShardState} {d : DistFn} {alphaN alphaD : Int}
    {R S : Nat} {points : List Point} {fuel : Nat} {c : Cache}
    (h : insertPointsBody st d alphaN alphaD R S points fuel = Except.ok c) :
    NoDeleted c ∧ CKNodup c ∧ Flagged c := by
  refine foldlM_invariant (fun cc => NoDeleted cc ∧ CKNodup cc ∧ Flagged cc) _ ?_ points []
    ⟨fun e he => absurd he (List.not_mem_nil e),
     List.nodup_nil,
     fun e he => absurd he (List.not_mem_nil e)⟩ c h
  intro cc p cc₂ hp hs
  unfold insertStep at hs
  cases hg : getPoint st.bucket cc p.id with
  | some cp =>
    rw [hg] at hs
    cases hs
  | none =>
    rw [hg] at hs
    obtain ⟨h1, h2, h3, _, _⟩ := insertSinglePoint_props hs
    exact ⟨h1 hp.1, h2 hp.2.1, h3 hp.2.2⟩

/-- Properties of the cache produced by a successful UpdatePoints transaction
body. -/
theorem updatePointsBody_props {st : ShardState} {d : DistFn} {alphaN alphaD : Int}
    {R S : Nat} {points : List Point} {fuel : Nat} {c : Cache} {ids : List Id}
    (h : updatePointsBody st d alphaN alphaD R S points fuel = Except.ok (c, ids)) :
    NoDeleted c ∧ CKNodup c ∧ Flagged c := by
  have hmain := foldlM_invariant
    (fun (acc : Cache × List Id) => NoDeleted acc.1 ∧ CKNodup acc.1 ∧ Flagged acc.1) _ ?_
    points ([], [])
    ⟨fun e he => absurd he (List.not_mem_nil e),
     List.nodup_nil,
     fun e he => absurd he (List.not_mem_nil e)⟩ (c, ids) h
  · exact hmain
  · intro acc p acc₂ hp hs
    unfold updateStep at hs
    cases hg : getPoint st.bucket acc.1 p.id with
    | none =>
      rw [hg] at hs
      cases hs
      exact hp
    | some cached =>
      rw [hg] at hs
      obtain ⟨c₁, hc₁, hs⟩ := except_bind_ok hs
      obtain ⟨c₂, hc₂, hs⟩ := except_bind_ok hs
      have hacc := except_pure_ok hs
      obtain ⟨hp1, hp2, hp3, _, _⟩ := prunesFold_props _ _ _ hc₁
      obtain ⟨hq1, hq2, hq3, _, _⟩ := insertSinglePoint_props hc₂
      rw [← hacc]
      exact ⟨hq1 (hp1 hp.1), hq2 (hp2 hp.2.1), hq3 (hp3 hp.2.2)⟩

/-- Properties of the first pass of DeletePoints: cache keys distinct, deleted
marks only on delete-set ids. -/
theorem deleteCollect_props (b : Bucket) (deleteSet : List Id) :
    CKNodup (deleteCollect b deleteSet).1 ∧ DeletedIn deleteSet (deleteCollect b deleteSet).1 := by
  unfold deleteCollect
  refine foldl_invariant_mem
    (fun (acc : Cache × List Id × List Id) => CKNodup acc.1 ∧ DeletedIn deleteSet acc.1)
    _ deleteSet ?_ ([], [], []) ⟨List.nodup_nil, fun e he => absurd he (List.not_mem_nil e)⟩
  intro acc i hi hp
  cases hg : getPoint b acc.1 i with
  | none =>
    exact hp
  | some p =>
    refine ⟨CKNodup_aput hp.1, ?_⟩
    intro e he hdel
    rcases mem_aput he with h1 | h1
    · rw [h1]
      exact hi
    · exact hp.2 e h1 hdel

theorem collectResults_no_start (b : Bucket) (startId : Id) (k : Nat) :
    ∀ (items : List DistSetElem) (acc : List SearchPoint),
      (∀ r ∈ acc, r.point.id ≠ startId) →
      ∀ r ∈ collectResults b startId k items acc, r.point.id ≠ startId := by
  intro items
  induction items with
  | nil => intro acc hacc r hr; exact hacc r hr
  | cons e rest ih =>
    intro acc hacc r hr
    unfold collectResults at hr
    by_cases h1 : e.point.id = startId
    · rw [if_pos h1] at hr
      exact ih acc hacc r hr
    · rw [if_neg h1] at hr
      by_cases h2 : k ≤ acc.length
      · rw [if_pos h2] at hr
        exact hacc r hr
      · rw [if_neg h2] at hr
        refine ih _ ?_ r hr
        intro r₂ hr₂
        rcases List.mem_append.mp hr₂ with h3 | h3
        · exact hacc r₂ h3
        · rw [List.mem_singleton.mp h3]
          exact h1

theorem present_nil (b : Bucket) (i : Id) : present b [] i ↔ (aget b i).isSome = true := by
  unfold present getPoint
  rw [show aget ([] : Cache) i = none from rfl]
  cases aget b i <;> simp

/-- The UpdatePoints loop returns exactly the ids of the present input points,
in input order, and preserves the set of present points. -/
theorem updateFold_ids (st : ShardState) (d : DistFn) (alphaN alphaD : Int)
    (R S fuel : Nat) :
    ∀ (pts : List Point) (acc : Cache × List Id),
      (∀ j, present st.bucket acc.1 j ↔ present st.bucket [] j) →
      ∀ c ids, pts.foldlM (updateStep st d alphaN alphaD R S fuel) acc = Except.ok (c, ids) →
        ids = acc.2 ++ (pts.filter (fun p => (aget st.bucket p.id).isSome)).map Point.id ∧
        (∀ j, present st.bucket c j ↔ present st.bucket [] j) := by
  intro pts
  induction pts with
  | nil =>
    intro acc hinv c ids h
    simp only [List.foldlM_nil] at h
    cases h
    exact ⟨by simp, hinv⟩
  | cons p rest ih =>
    intro acc hinv c ids h
    simp only [List.foldlM_cons] at h
    cases hstep : updateStep st d alphaN alphaD R S fuel acc p with
    | error e =>
      rw [hstep] at h
      cases h
    | ok acc₂ =>
      rw [hstep] at h
      unfold updateStep at hstep
      cases hg : getPoint st.bucket acc.1 p.id with
      | none =>
        rw [hg] at hstep
        cases hstep
        have habs : ¬ present st.bucket [] p.id := by
          rw [← hinv p.id]
          unfold present
          rw [hg]
          simp
        have haget : ¬ ((aget st.bucket p.id).isSome = true) := by
          rw [← present_nil]
          exact habs
        obtain ⟨h1, h2⟩ := ih acc hinv c ids h
        refine ⟨?_, h2⟩
        rw [h1, List.filter_cons, if_neg (by simpa using haget)]
      | some cached =>
        rw [hg] at hstep
        obtain ⟨c₁, hc₁, hstep⟩ := except_bind_ok hstep
        obtain ⟨c₂, hc₂, hstep⟩ := except_bind_ok hstep
        have hacc₂ := except_pure_ok hstep
        have hpid : present st.bucket acc.1 p.id := present_of_getPoint_some hg
        have hpres1 := (prunesFold_props _ _ _ hc₁).2.2.2.1
        have hpres2 : ∀ j, present st.bucket c₂ j ↔ j = p.id ∨ present st.bucket c₁ j :=
          (insertSinglePoint_props hc₂).2.2.2.1
        have hinv₂ : ∀ j, present st.bucket c₂ j ↔ present st.bucket [] j := by
          intro j
          rw [hpres2 j]
          constructor
          · rintro (hj | hj)
            · subst hj
              rw [← hinv p.id]
              exact hpid
            · rw [← hinv j, ← hpres1 j]
              exact hj
          · intro hj
            refine Or.inr ?_
            rw [hpres1 j, hinv j]
            exact hj
        rw [← hacc₂] at h
        obtain ⟨h1, h2⟩ := ih (c₂, acc.2 ++ [p.id]) hinv₂ c ids h
        refine ⟨?_, h2⟩
        rw [h1, List.filter_cons, if_pos (by
          have hm : (aget st.bucket p.id).isSome = true := by
            rw [← present_nil, ← hinv p.id]
            exact hpid
          simpa using hm)]
        rw [List.map_cons, List.append_assoc]
        rfl

/-- If some input point is already present when the InsertPoints loop reaches
its prefix, the loop cannot succeed: presence only grows, so the duplicate check
fires (or some earlier step fails), and the fold never returns ok. -/
theorem insertFold_error (st : ShardState) (d : DistFn) (alphaN alphaD : Int)
    (R S fuel : Nat) :
    ∀ (pts : List Point) (c : Cache) (p : Point), p ∈ pts → present st.bucket c p.id →
      ∀ c₂, ¬ (pts.foldlM (insertStep st d alphaN alphaD R S fuel) c = Except.ok c₂) := by
  intro pts
  induction pts with
  | nil =>
    intro c p hp
    exact absurd hp (List.not_mem_nil p)
  | cons q rest ih =>
    intro c p hp hpres c₂ h
    simp only [List.foldlM_cons] at h
    cases hstep : insertStep st d alphaN alphaD R S fuel c q with
    | error e =>
      rw [hstep] at h
      cases h
    | ok cmid =>
      rw [hstep] at h
      unfold insertStep at hstep
      rcases List.mem_cons.mp hp with hpq | hp₂
      · subst hpq
        unfold present at hpres
        cases hg : getPoint st.bucket c p.id with
        | none =>
          rw [hg] at hpres
          cases hpres
        | some cp =>
          rw [hg] at hstep
          cases hstep
      · cases hg : getPoint st.bucket c q.id with
        | some cp =>
          rw [hg] at hstep
          cases hstep
        | none =>
          rw [hg] at hstep
          have hmono : ∀ j, present st.bucket cmid j ↔ j = q.id ∨ present st.bucket c j :=
            (insertSinglePoint_props hstep).2.2.2.1
          exact ih cmid p hp₂ ((hmono p.id).mpr (Or.inr hpres)) c₂ h

theorem aput_aput {α : Type} (l : List (Id × α)) (i : Id) (v₁ v₂ : α) :
    aput (aput l i v₁) i v₂ = aput l i v₂ := by
  induction l with
  | nil => simp [aput]
  | cons e rest ih =>
    by_cases h : e.1 = i
    · simp [aput, h]
    · simp [aput, h, ih]

theorem pruneFilter_subset (alphaN alphaD : Int) (e : DistSetElem) :
    ∀ (items : List DistSetElem) (s : Finset Id), pruneFilter alphaN alphaD e items s ⊆ s := by
  intro items
  induction items with
  | nil => intro s; exact Finset.Subset.refl s
  | cons x rest ih =>
    intro s
    unfold pruneFilter
    rw [List.foldl_cons]
    by_cases hc : x.point.id ∈ s ∧
      alphaN * eucDist e.point.vector x.point.vector ≤ alphaD * x.distance
    · rw [if_pos hc]
      exact (ih (s.erase x.point.id)).trans (Finset.erase_subset _ s)
    · rw [if_neg hc]
      exact ih s

theorem pruneLoop_length (alphaN alphaD : Int) (R : Nat) :
    ∀ (items : List DistSetElem) (s : Finset Id) (acc : List Id),
      acc.length < R → (pruneLoop alphaN alphaD R items s acc).length ≤ R := by
  intro items
  induction items with
  | nil =>
    intro s acc hlt
    exact le_of_lt hlt
  | cons e rest ih =>
    intro s acc hlt
    unfold pruneLoop
    by_cases hm : e.point.id ∈ s
    · rw [if_pos hm]
      by_cases hR : R ≤ (acc ++ [e.point.id]).length
      · rw [if_pos hR]
        rw [List.length_append, List.length_singleton]
        omega
      · rw [if_neg hR]
        refine ih _ _ ?_
        rw [List.length_append, List.length_singleton] at hR ⊢
        omega
    · rw [if_neg hm]
      exact ih s acc hlt

theorem pruneLoop_not_mem (alphaN alphaD : Int) (R : Nat) (x : Id) :
    ∀ (items : List DistSetElem) (s : Finset Id) (acc : List Id),
      x ∉ s → x ∉ acc → x ∉ pruneLoop alphaN alphaD R items s acc := by
  intro items
  induction items with
  | nil =>
    intro s acc _ hacc
    exact hacc
  | cons e rest ih =>
    intro s acc hs hacc
    unfold pruneLoop
    by_cases hm : e.point.id ∈ s
    · rw [if_pos hm]
      have hne : e.point.id ≠ x := by
        intro hc
        rw [hc] at hm
        exact hs hm
      have hacc₂ : x ∉ acc ++ [e.point.id] := by
        rw [List.mem_append, List.mem_singleton]
        rintro (hx | hx)
        · exact hacc hx
        · exact hne hx.symm
      by_cases hR : R ≤ (acc ++ [e.point.id]).length
      · rw [if_pos hR]
        exact hacc₂
      · rw [if_neg hR]
        refine ih _ _ ?_ hacc₂
        intro hx
        have := pruneFilter_subset alphaN alphaD e rest (s.erase e.point.id) hx
        exact hs (Finset.mem_of_mem_erase this)
    · rw [if_neg hm]
      exact ih s acc hs hacc

/-- A successful robustPrune returns at most R edges (for a positive degree
bound) and never the pruned point's own id. -/
theorem robustPruneEdges_sound {b : Bucket} {c : Cache} {d : DistFn}
    {alphaN alphaD : Int} {R : Nat} {nodeId : Id} {cand : DistSet} {es : List Id}
    (hok : robustPruneEdges b c d alphaN alphaD R nodeId cand = Except.ok es)
    (hR : 1 ≤ R) : es.length ≤ R ∧ nodeId ∉ es := by
  unfold robustPruneEdges at hok
  obtain ⟨node, hnode, hok⟩ := except_bind_ok hok
  obtain ⟨nbrs, hnbrs, hok⟩ := except_bind_ok hok
  cases hok
  constructor
  · exact pruneLoop_length alphaN alphaD R _ _ [] (by simp only [List.length_nil]; omega)
  · refine pruneLoop_not_mem alphaN alphaD R nodeId _ _ []
      (Finset.not_mem_erase nodeId _) (List.not_mem_nil nodeId)

theorem getPoint_edges_bounded {R : Nat} {b : Bucket} {c : Cache} {i : Id}
    {cp : CachePoint} (hb : EdgesBoundedB R b) (hc : EdgesBoundedC R c)
    (h : getPoint b c i = some cp) : cp.sp.edges.length ≤ R := by
  rcases getPoint_cases h with hm | ⟨_, hbm, _, _, _⟩
  · exact hc _ hm
  · exact hb _ (aget_eq_some_mem hbm)

theorem insertNeighbourStep_EdgesBounded {b : Bucket} {d : DistFn}
    {alphaN alphaD : Int} {R : Nat} {newPt : ShardPoint} {cc : Cache} {nId : Id}
    {cc₂ : Cache} (hR : 1 ≤ R)
    (h : insertNeighbourStep b d alphaN alphaD R newPt cc nId = Except.ok cc₂)
    (hbound : EdgesBoundedC R cc) : EdgesBoundedC R cc₂ := by
  obtain ⟨n, es, hget, hcc, hcase⟩ := insertNeighbourStep_ok h
  rw [hcc]
  refine EdgesBoundedC_aput hbound ?_
  rcases hcase with ⟨cand, hprune⟩ | ⟨hes, hlen⟩
  · exact (robustPruneEdges_sound hprune hR).1
  · rw [hes]
    rw [List.length_append, List.length_singleton]
    omega

theorem insertSinglePoint_EdgesBounded {b : Bucket} {d : DistFn}
    {alphaN alphaD : Int} {R S : Nat} {startId : Id} {c : Cache} {sp : ShardPoint}
    {fuel : Nat} {c₂ : Cache} (hR : 1 ≤ R)
    (h : insertSinglePoint b d alphaN alphaD R S startId c sp fuel = Except.ok c₂)
    (hbound : EdgesBoundedC R c) : EdgesBoundedC R c₂ := by
  obtain ⟨r, newEdges, hr, hne, hfold⟩ := insertSinglePoint_ok h
  rw [aput_aput] at hfold
  refine foldlM_invariant (EdgesBoundedC R) _ ?_ newEdges _ ?_ c₂ hfold
  · intro cc x cc₂ hp hs
    exact insertNeighbourStep_EdgesBounded hR hs hp
  · exact EdgesBoundedC_aput hbound (robustPruneEdges_sound hne hR).1

theorem pruneDeleteNeighbour_EdgesBounded {b : Bucket} {d : DistFn}
    {alphaN alphaD : Int} {R : Nat} {c : Cache} {i : Id} {deleteSet : List Id}
    {c₂ : Cache} (hR : 1 ≤ R)
    (h : pruneDeleteNeighbour b d alphaN alphaD R c i deleteSet = Except.ok c₂)
    (hbound : EdgesBoundedC R c) : EdgesBoundedC R c₂ := by
  obtain ⟨point, es, hget, hcc, cand, hprune⟩ := pruneDeleteNeighbour_ok h
  subst hcc
  exact EdgesBoundedC_aput hbound (robustPruneEdges_sound hprune hR).1

theorem EdgesBoundedB_flushStep {R : Nat} {b : Bucket} {e : Id × CachePoint}
    (hb : EdgesBoundedB R b) (he : e.2.sp.edges.length ≤ R) :
    EdgesBoundedB R (flushStep b e) := by
  unfold flushStep
  by_cases h1 : e.2.isDeleted = true
  · rw [if_pos h1]
    intro f hf
    have hsub := akeys_aerase_sublist b e.1
    -- membership in aerase is membership in b
    have : f ∈ b := by
      clear hsub
      induction b with
      | nil => simpa [aerase] using hf
      | cons g rest ih =>
        by_cases hg : g.1 = e.1
        · rw [show aerase (g :: rest) e.1 = aerase rest e.1 from by simp [aerase, hg]] at hf
          exact List.mem_cons.mpr (Or.inr (ih (fun f₂ hf₂ => hb f₂ (List.mem_cons.mpr (Or.inr hf₂))) hf))
        · rw [show aerase (g :: rest) e.1 = g :: aerase rest e.1 from by simp [aerase, hg]] at hf
          rcases List.mem_cons.mp hf with h2 | h2
          · exact List.mem_cons.mpr (Or.inl h2)
          · exact List.mem_cons.mpr (Or.inr (ih (fun f₂ hf₂ => hb f₂ (List.mem_cons.mpr (Or.inr hf₂))) h2))
    exact hb f this
  · rw [if_neg h1]
    by_cases h2 : e.2.isDirty = true
    · rw [if_pos h2]
      intro f hf
      rcases mem_aput hf with h3 | h3
      · rw [h3]
        exact he
      · exact hb f h3
    · rw [if_neg h2]
      by_cases h3 : e.2.isEdgeDirty = true
      · rw [if_pos h3]
        unfold bputEdges
        cases hg : aget b e.1 with
        | some sp =>
          intro f hf
          rcases mem_aput hf with h4 | h4
          · rw [h4]
            exact he
          · exact hb f h4
        | none =>
          intro f hf
          rcases mem_aput hf with h4 | h4
          · rw [h4]
            exact he
          · exact hb f h4
      · rw [if_neg h3]
        exact hb

theorem EdgesBoundedB_flush {R : Nat} {c : Cache} {b : Bucket}
    (hb : EdgesBoundedB R b) (hc : EdgesBoundedC R c) :
    EdgesBoundedB R (flush c b) := by
  unfold flush
  refine foldl_invariant_mem (EdgesBoundedB R) flushStep c ?_ b hb
  intro bb e he hbb
  exact EdgesBoundedB_flushStep hbb (hc e he)

theorem deleteCollect_EdgesBounded {R : Nat} {b : Bucket} {deleteSet : List Id}
    (hb : EdgesBoundedB R b) : EdgesBoundedC R (deleteCollect b deleteSet).1 := by
  unfold deleteCollect
  refine foldl_invariant (fun (acc : Cache × List Id × List Id) => EdgesBoundedC R acc.1)
    _ ?_ deleteSet ([], [], []) (fun e he => absurd he (List.not_mem_nil e))
  intro acc i hp
  cases hg : getPoint b acc.1 i with
  | none => exact hp
  | some p =>
    have hbd : p.sp.edges.length ≤ R := getPoint_edges_bounded hb hp hg
    exact EdgesBoundedC_aput hp hbd

theorem insertPointsBody_EdgesBounded {st : ShardState} {d : DistFn}
    {alphaN alphaD : Int} {R S : Nat} {points : List Point} {fuel : Nat} {c : Cache}
    (hR : 1 ≤ R) (h : insertPointsBody st d alphaN alphaD R S points fuel = Except.ok c) :
    EdgesBoundedC R c := by
  unfold insertPointsBody at h
  refine foldlM_invariant (EdgesBoundedC R) _ ?_ points []
    (fun e he => absurd he (List.not_mem_nil e)) c h
  intro cc p cc₂ hp hs
  unfold insertStep at hs
  cases hg : getPoint st.bucket cc p.id with
  | some cp =>
    rw [hg] at hs
    cases hs
  | none =>
    rw [hg] at hs
    exact insertSinglePoint_EdgesBounded hR hs hp

theorem updatePointsBody_EdgesBounded {st : ShardState} {d : DistFn}
    {alphaN alphaD : Int} {R S : Nat} {points : List Point} {fuel : Nat} {c : Cache}
    {ids : List Id} (hR : 1 ≤ R)
    (h : updatePointsBody st d alphaN alphaD R S points fuel = Except.ok (c, ids)) :
    EdgesBoundedC R c := by
  unfold updatePointsBody at h
  have hmain := foldlM_invariant
    (fun (acc : Cache × List Id) => EdgesBoundedC R acc.1) _ ?_
    points ([], []) (fun e he => absurd he (List.not_mem_nil e)) (c, ids) h
  · exact hmain
  · intro acc p acc₂ hp hs
    unfold updateStep at hs
    cases hg : getPoint st.bucket acc.1 p.id with
    | none =>
      rw [hg] at hs
      cases hs
      exact hp
    | some cached =>
      rw [hg] at hs
      obtain ⟨c₁, hc₁, hs⟩ := except_bind_ok hs
      obtain ⟨c₂, hc₂, hs⟩ := except_bind_ok hs
      have hacc := except_pure_ok hs
      rw [← hacc]
      have hcb : EdgesBoundedC R c₁ := by
        refine foldlM_invariant (EdgesBoundedC R) _ ?_ cached.sp.edges acc.1 hp c₁ hc₁
        intro cc x cc₂ hpp hss
        exact pruneDeleteNeighbour_EdgesBounded hR hss hpp
      exact insertSinglePoint_EdgesBounded hR hc₂ hcb

theorem aget_none_of_not_mem {α : Type} {l : List (Id × α)} {i : Id}
    (h : i ∉ akeys l) : aget l i = none := by
  cases hg : aget l i with
  | none => rfl
  | some v =>
    exact absurd ((aget_isSome_iff_mem_akeys l i).mp (by rw [hg]; rfl)) h

theorem aput_of_none {α : Type} {l : List (Id × α)} {i : Id} (v : α)
    (h : aget l i = none) : aput l i v = l ++ [(i, v)] := by
  induction l with
  | nil => rfl
  | cons e rest ih =>
    by_cases he : e.1 = i
    · rw [aget, if_pos he] at h
      cases h
    · rw [aget, if_neg he] at h
      rw [show aput (e :: rest) i v = e :: aput rest i v from by simp [aput, he], ih h,
        List.cons_append]

theorem aerase_of_none {α : Type} {l : List (Id × α)} {i : Id}
    (h : aget l i = none) : aerase l i = l := by
  induction l with
  | nil => rfl
  | cons e rest ih =>
    by_cases he : e.1 = i
    · rw [aget, if_pos he] at h
      cases h
    · rw [aget, if_neg he] at h
      rw [show aerase (e :: rest) i = e :: aerase rest i from by simp [aerase, he], ih h]

theorem ucount_cons (start : Id) (e : Id × ShardPoint) (l : Bucket) :
    ucount start (e :: l) = ucount start l + (if e.1 = start then 0 else 1) := by
  unfold ucount
  rw [List.filter_cons]
  by_cases h : e.1 = start
  · rw [if_pos h]
    simp [h]
  · rw [if_neg h]
    simp [h]

theorem ucount_append (start : Id) (l₁ l₂ : Bucket) :
    ucount start (l₁ ++ l₂) = ucount start l₁ + ucount start l₂ := by
  unfold ucount
  rw [List.filter_append, List.length_append]

theorem ucount_aput_isSome {start i : Id} {b : Bucket} {v : ShardPoint}
    (h : (aget b i).isSome = true) : ucount start (aput b i v) = ucount start b := by
  induction b with
  | nil => simp [aget] at h
  | cons e rest ih =>
    by_cases he : e.1 = i
    · rw [show aput (e :: rest) i v = (i, v) :: rest from by simp [aput, he]]
      rw [ucount_cons, ucount_cons, he]
    · rw [show aput (e :: rest) i v = e :: aput rest i v from by simp [aput, he]]
      rw [aget, if_neg he] at h
      rw [ucount_cons, ucount_cons, ih h]

theorem ucount_aput_none {start i : Id} {b : Bucket} {v : ShardPoint}
    (h : aget b i = none) :
    ucount start (aput b i v) = ucount start b + (if i = start then 0 else 1) := by
  rw [aput_of_none v h, ucount_append, ucount_cons]
  unfold ucount
  simp

theorem ucount_aerase (start i : Id) (b : Bucket) (hnd : BKNodup b) :
    ucount start b = ucount start (aerase b i) +
      (if (aget b i).isSome = true ∧ i ≠ start then 1 else 0) := by
  induction b with
  | nil =>
    rw [show aerase ([] : Bucket) i = [] from rfl]
    rw [show aget ([] : Bucket) i = none from rfl]
    simp
  | cons e rest ih =>
    unfold BKNodup at hnd ih
    rw [akeys_cons] at hnd
    have hnd₂ := (List.nodup_cons.mp hnd).2
    by_cases he : e.1 = i
    · have hnone : aget rest i = none := by
        refine aget_none_of_not_mem ?_
        rw [← he]
        exact (List.nodup_cons.mp hnd).1
      rw [show aerase (e :: rest) i = aerase rest i from by simp [aerase, he],
        aerase_of_none hnone, ucount_cons]
      rw [show aget (e :: rest) i = some e.2 from by rw [aget, if_pos he]]
      by_cases hs : i = start
      · simp [he, hs]
      · simp [he, hs]
    · rw [show aerase (e :: rest) i = e :: aerase rest i from by simp [aerase, he],
        ucount_cons, ucount_cons,
        show aget (e :: rest) i = aget rest i from by rw [aget, if_neg he]]
      rw [ih hnd₂]
      omega

theorem BKNodup_flushStep {b : Bucket} {e : Id × CachePoint}
    (h : BKNodup b) : BKNodup (flushStep b e) := by
  unfold flushStep BKNodup
  by_cases h1 : e.2.isDeleted = true
  · rw [if_pos h1]
    exact akeys_aerase_nodup b e.1 h
  · rw [if_neg h1]
    by_cases h2 : e.2.isDirty = true
    · rw [if_pos h2]
      exact akeys_aput_nodup b e.1 _ h
    · rw [if_neg h2]
      by_cases h3 : e.2.isEdgeDirty = true
      · rw [if_pos h3]
        unfold bputEdges
        cases aget b e.1 with
        | some sp => exact akeys_aput_nodup b e.1 _ h
        | none => exact akeys_aput_nodup b e.1 _ h
      · rw [if_neg h3]
        exact h

theorem ucount_flushStep (start : Id) (b : Bucket) (e : Id × CachePoint)
    (hbk : BKNodup b) :
    ucount start (flushStep b e) +
      (if e.2.isDeleted && (aget b e.1).isSome && ! (e.1 == start) then 1 else 0)
    = ucount start b +
      (if (e.2.isDirty || e.2.isEdgeDirty) && (! e.2.isDeleted) && (aget b e.1).isNone
          && ! (e.1 == start) then 1 else 0) := by
  unfold flushStep
  by_cases hd : e.2.isDeleted = true
  · rw [if_pos hd]
    have haer := ucount_aerase start e.1 b hbk
    by_cases hsome : (aget b e.1).isSome = true
    · by_cases hst : e.1 = start
      · simp only [hd, hsome, hst] at haer ⊢
        simp at haer ⊢
        omega
      · simp only [hd, hsome, hst] at haer ⊢
        simp [hst] at haer ⊢
        omega
    · have hnone : aget b e.1 = none := by
        cases haget : aget b e.1 with
        | none => rfl
        | some sp => rw [haget] at hsome; exact absurd rfl hsome
      rw [aerase_of_none hnone]
      simp [hd, hnone]
  · rw [if_neg hd]
    have hdb : e.2.isDeleted = false := by
      cases hb2 : e.2.isDeleted with
      | false => rfl
      | true => exact absurd hb2 hd
    by_cases hdi : e.2.isDirty = true
    · rw [if_pos hdi]
      by_cases hsome : (aget b e.1).isSome = true
      · rw [ucount_aput_isSome hsome]
        have hnotnone : (aget b e.1).isNone = false := by
          cases haget : aget b e.1 with
          | none => rw [haget] at hsome; simp at hsome
          | some sp => rfl
        simp [hdb, hdi, hnotnone]
      · have hnone : aget b e.1 = none := by
          cases haget : aget b e.1 with
          | none => rfl
          | some sp => rw [haget] at hsome; exact absurd rfl hsome
        rw [ucount_aput_none hnone]
        by_cases hst : e.1 = start <;> simp [hdb, hdi, hnone, hst]
    · rw [if_neg hdi]
      have hdib : e.2.isDirty = false := by
        cases hb2 : e.2.isDirty with
        | false => rfl
        | true => exact absurd hb2 hdi
      by_cases hed : e.2.isEdgeDirty = true
      · rw [if_pos hed]
        unfold bputEdges
        cases haget : aget b e.1 with
        | some sp =>
          rw [ucount_aput_isSome (by rw [haget]; rfl)]
          simp [hdb, hdib, hed, haget]
        | none =>
          rw [ucount_aput_none haget]
          by_cases hst : e.1 = start <;> simp [hdb, hdib, hed, haget, hst]
      · have hedb : e.2.isEdgeDirty = false := by
          cases hb2 : e.2.isEdgeDirty with
          | false => rfl
          | true => exact absurd hb2 hed
        rw [if_neg hed]
        simp [hdb, hdib, hedb]

/-- Accounting identity for flush: the user-point count after flush, plus the
number of cache entries that delete a bucket point other than the entry point,
equals the count before flush plus the number of flagged cache entries that
create a new non-entry point. -/
theorem ucount_flush (start : Id) :
    ∀ (c : Cache) (b : Bucket), CKNodup c → BKNodup b →
    ucount start (flush c b) +
      (c.filter (fun f => f.2.isDeleted && (aget b f.1).isSome && ! (f.1 == start))).length
    = ucount start b +
      (c.filter (fun f => (f.2.isDirty || f.2.isEdgeDirty) && (! f.2.isDeleted)
        && (aget b f.1).isNone && ! (f.1 == start))).length := by
  intro c
  induction c with
  | nil =>
    intro b _ _
    simp [flush]
  | cons e rest ih =>
    intro b hck hbk
    have hck₂ : CKNodup rest := by
      unfold CKNodup at hck ⊢
      rw [akeys_cons] at hck
      exact (List.nodup_cons.mp hck).2
    have hne : ∀ f ∈ rest, e.1 ≠ f.1 := by
      intro f hf hc
      unfold CKNodup at hck
      rw [akeys_cons] at hck
      have := mem_akeys_of_mem hf
      rw [← hc] at this
      exact (List.nodup_cons.mp hck).1 this
    rw [show flush (e :: rest) b = flush rest (flushStep b e) from rfl]
    have IH := ih (flushStep b e) hck₂ (BKNodup_flushStep hbk)
    have hdelcongr : rest.filter
        (fun f => f.2.isDeleted && (aget (flushStep b e) f.1).isSome && ! (f.1 == start))
      = rest.filter (fun f => f.2.isDeleted && (aget b f.1).isSome && ! (f.1 == start)) := by
      refine List.filter_congr ?_
      intro f hf
      rw [aget_flushStep_ne b e f.1 (hne f hf)]
    have hfreshcongr : rest.filter
        (fun f => (f.2.isDirty || f.2.isEdgeDirty) && (! f.2.isDeleted)
          && (aget (flushStep b e) f.1).isNone && ! (f.1 == start))
      = rest.filter (fun f => (f.2.isDirty || f.2.isEdgeDirty) && (! f.2.isDeleted)
          && (aget b f.1).isNone && ! (f.1 == start)) := by
      refine List.filter_congr ?_
      intro f hf
      rw [aget_flushStep_ne b e f.1 (hne f hf)]
    rw [hdelcongr, hfreshcongr] at IH
    rw [List.filter_cons, List.filter_cons]
    have hstep := ucount_flushStep start b e hbk
    by_cases h₁ : (e.2.isDeleted && (aget b e.1).isSome && ! (e.1 == start)) = true
    · by_cases h₂ : ((e.2.isDirty || e.2.isEdgeDirty) && (! e.2.isDeleted)
          && (aget b e.1).isNone && ! (e.1 == start)) = true
      · simp only [h₁, h₂, if_pos, List.length_cons] at hstep ⊢
        simp at hstep ⊢
        omega
      · simp only [h₁, h₂] at hstep ⊢
        simp at hstep ⊢
        omega
    · by_cases h₂ : ((e.2.isDirty || e.2.isEdgeDirty) && (! e.2.isDeleted)
          && (aget b e.1).isNone && ! (e.1 == start)) = true
      · simp only [h₁, h₂] at hstep ⊢
        simp [h₁, h₂] at hstep ⊢
        omega
      · simp only [h₁, h₂] at hstep ⊢
        simp [h₁, h₂] at hstep ⊢
        omega

theorem getPoint_none {b : Bucket} {c : Cache} {i : Id}
    (h : getPoint b c i = none) : aget c i = none ∧ aget b i = none := by
  unfold getPoint at h
  cases hc : aget c i with
  | some cp => rw [hc] at h; cases h
  | none =>
    rw [hc] at h
    cases hb : aget b i with
    | some sp => rw [hb] at h; simp at h
    | none => exact ⟨rfl, rfl⟩

theorem length_filter_key {α : Type} (p : Id → Bool) (l : List (Id × α)) :
    (l.filter (fun e => p e.1)).length = ((akeys l).filter p).length := by
  show (l.filter (fun e => p e.1)).length = ((l.map Prod.fst).filter p).length
  rw [List.filter_map, List.length_map]
  rfl

theorem freshCount_aput_memkey {b : Bucket} {c : Cache} {i : Id} {v : CachePoint}
    (h : i ∈ akeys c) : freshCount b (aput c i v) = freshCount b c := by
  unfold freshCount
  rw [akeys_aput, if_pos h]

theorem freshCount_aput_inBucket {b : Bucket} {c : Cache} {i : Id} {v : CachePoint}
    (h : (aget b i).isSome = true) : freshCount b (aput c i v) = freshCount b c := by
  unfold freshCount
  rw [akeys_aput]
  by_cases hm : i ∈ akeys c
  · rw [if_pos hm]
  · rw [if_neg hm, List.filter_append]
    have hnn : (aget b i).isNone = false := by
      cases hb : aget b i with
      | none => rw [hb] at h; simp at h
      | some sp => rfl
    simp [hnn]

theorem freshCount_aput_fresh {b : Bucket} {c : Cache} {i : Id} {v : CachePoint}
    (hc : aget c i = none) (hb : aget b i = none) :
    freshCount b (aput c i v) = freshCount b c + 1 := by
  unfold freshCount
  have hm : i ∉ akeys c := by
    intro hmem
    have hs := (aget_isSome_iff_mem_akeys c i).mpr hmem
    rw [hc] at hs
    simp at hs
  rw [akeys_aput, if_neg hm, List.filter_append]
  simp [hb]

theorem freshCount_aput_got {b : Bucket} {c : Cache} {i : Id} {cp : CachePoint}
    (h : getPoint b c i = some cp) (v : CachePoint) :
    freshCount b (aput c i v) = freshCount b c := by
  unfold getPoint at h
  cases hc : aget c i with
  | some cp2 =>
    refine freshCount_aput_memkey ?_
    rw [← aget_isSome_iff_mem_akeys, hc]
    rfl
  | none =>
    rw [hc] at h
    cases hb : aget b i with
    | none => rw [hb] at h; simp at h
    | some sp => exact freshCount_aput_inBucket (by rw [hb]; rfl)

theorem insertNeighbourStep_freshCount {b : Bucket} {d : DistFn} {alphaN alphaD : Int}
    {R : Nat} {newPt : ShardPoint} {cc : Cache} {nId : Id} {cc₂ : Cache}
    (h : insertNeighbourStep b d alphaN alphaD R newPt cc nId = Except.ok cc₂) :
    freshCount b cc₂ = freshCount b cc := by
  obtain ⟨n, es, hget, hcc, _⟩ := insertNeighbourStep_ok h
  rw [hcc]
  exact freshCount_aput_got hget _

/-- A successful insertSinglePoint creates exactly one fresh cache key: the new
point's id. -/
theorem insertSinglePoint_freshCount {b : Bucket} {d : DistFn} {alphaN alphaD : Int}
    {R S : Nat} {startId : Id} {c : Cache} {sp : ShardPoint} {fuel : Nat} {c₂ : Cache}
    (hc : aget c sp.id = none) (hb : aget b sp.id = none)
    (h : insertSinglePoint b d alphaN alphaD R S startId c sp fuel = Except.ok c₂) :
    freshCount b c₂ = freshCount b c + 1 := by
  obtain ⟨r, newEdges, hr, hne, hfold⟩ := insertSinglePoint_ok h
  have h2 : freshCount b (aput (aput c sp.id ⟨sp, true, false, false⟩) sp.id
      ⟨{ sp with edges := newEdges }, true, true, false⟩) = freshCount b c + 1 := by
    rw [aput_aput]
    exact freshCount_aput_fresh hc hb
  exact foldlM_invariant (fun cc => freshCount b cc = freshCount b c + 1) _
    (fun cc x cc₃ hP hs => by
      show freshCount b cc₃ = freshCount b c + 1
      rw [insertNeighbourStep_freshCount hs]
      exact hP)
    newEdges _ h2 c₂ hfold

/-- The InsertPoints loop creates exactly one fresh cache key per input point. -/
theorem insertFold_freshCount (st : ShardState) (d : DistFn) (alphaN alphaD : Int)
    (R S fuel : Nat) :
    ∀ (pts : List Point) (c c₂ : Cache),
      pts.foldlM (insertStep st d alphaN alphaD R S fuel) c = Except.ok c₂ →
      freshCount st.bucket c₂ = freshCount st.bucket c + pts.length := by
  intro pts
  induction pts with
  | nil =>
    intro c c₂ h
    simp only [List.foldlM_nil] at h
    cases h
    simp
  | cons p rest ih =>
    intro c c₂ h
    simp only [List.foldlM_cons] at h
    cases hstep : insertStep st d alphaN alphaD R S fuel c p with
    | error e => rw [hstep] at h; cases h
    | ok cc =>
      rw [hstep] at h
      unfold insertStep at hstep
      cases hg : getPoint st.bucket c p.id with
      | some cp => rw [hg] at hstep; cases hstep
      | none =>
        rw [hg] at hstep
        obtain ⟨hca, hba⟩ := getPoint_none hg
        have hone : freshCount st.bucket cc = freshCount st.bucket c + 1 :=
          insertSinglePoint_freshCount hca hba hstep
        rw [ih cc c₂ h, hone, List.length_cons]
        omega

/-- In a cache with no deleted entries the flush deletion filter is empty. -/
theorem del_filter_nil_of_NoDeleted {b : Bucket} {c : Cache} {start : Id}
    (hnd : NoDeleted c) :
    c.filter (fun f => f.2.isDeleted && (aget b f.1).isSome && ! (f.1 == start)) = [] := by
  rw [List.filter_eq_nil_iff]
  intro f hf
  simp [hnd f hf]

/-- When every cache key is present in the bucket the flush creation filter is
empty. -/
theorem fresh_filter_nil_of_KeysInBucket {b : Bucket} {c : Cache} {start : Id}
    (hk : KeysInBucket b c) :
    c.filter (fun f => (f.2.isDirty || f.2.isEdgeDirty) && (! f.2.isDeleted)
      && (aget b f.1).isNone && ! (f.1 == start)) = [] := by
  rw [List.filter_eq_nil_iff]
  intro f hf
  have hs := hk f hf
  have hnn : (aget b f.1).isNone = false := by
    cases hx : aget b f.1 with
    | none => rw [hx] at hs; simp at hs
    | some sp => rfl
  simp [hnn]

/-- For an insert-transaction cache (all entries flagged, none deleted), the
flush creation filter counts exactly the fresh cache keys, provided the entry
point is in the bucket. -/
theorem fresh_filter_eq_freshCount {b : Bucket} {c : Cache} {start : Id}
    (hnd : NoDeleted c) (hfl : Flagged c) (hstart : (aget b start).isSome = true) :
    (c.filter (fun f => (f.2.isDirty || f.2.isEdgeDirty) && (! f.2.isDeleted)
      && (aget b f.1).isNone && ! (f.1 == start))).length = freshCount b c := by
  have hcongr : c.filter (fun f => (f.2.isDirty || f.2.isEdgeDirty) && (! f.2.isDeleted)
      && (aget b f.1).isNone && ! (f.1 == start))
      = c.filter (fun f => (aget b f.1).isNone) := by
    refine List.filter_congr ?_
    intro f hf
    have hd := hnd f hf
    have hflag : (f.2.isDirty || f.2.isEdgeDirty) = true := by
      rcases hfl f hf with h1 | h1 | h1
      · rw [h1]; rfl
      · rw [h1]; simp
      · rw [hd] at h1; cases h1
    cases hbn : (aget b f.1).isNone with
    | false => simp [hflag, hd, hbn]
    | true =>
      have hne : f.1 ≠ start := by
        intro hc
        rw [hc, Option.isNone_iff_eq_none] at hbn
        rw [hbn] at hstart
        simp at hstart
      simp [hflag, hd, hbn, hne]
  rw [hcongr]
  exact length_filter_key (fun k => (aget b k).isNone) c

/-- The UpdatePoints loop only caches points that exist in the bucket. -/
theorem updatePointsBody_KeysInBucket {st : ShardState} {d : DistFn} {alphaN alphaD : Int}
    {R S : Nat} {points : List Point} {fuel : Nat} {c : Cache} {ids : List Id}
    (h : updatePointsBody st d alphaN alphaD R S points fuel = Except.ok (c, ids)) :
    KeysInBucket st.bucket c := by
  have hmain := foldlM_invariant
    (fun (acc : Cache × List Id) => KeysInBucket st.bucket acc.1) _ ?_
    points ([], []) (fun e he => absurd he (List.not_mem_nil e)) (c, ids) h
  · exact hmain
  · intro acc p acc₂ hp hs
    unfold updateStep at hs
    cases hg : getPoint st.bucket acc.1 p.id with
    | none =>
      rw [hg] at hs
      cases hs
      exact hp
    | some cached =>
      rw [hg] at hs
      obtain ⟨c₁, hc₁, hs⟩ := except_bind_ok hs
      obtain ⟨cc₂, hc₂, hs⟩ := except_bind_ok hs
      have hacc := except_pure_ok hs
      have hk₁ : KeysInBucket st.bucket c₁ := (prunesFold_props _ _ _ hc₁).2.2.2.2.1 hp
      have hsp : (aget st.bucket p.id).isSome = true := KeysInBucket_present hp hg
      have hk₂ := (insertSinglePoint_props hc₂).2.2.2.2 hk₁ hsp
      rw [← hacc]
      exact hk₂

theorem filter_length_aput_eq {α : Type} (p : Id × α → Bool) :
    ∀ (l : List (Id × α)) (i : Id) (v cp : α), aget l i = some cp → p (i, v) = p (i, cp) →
    ((aput l i v).filter p).length = (l.filter p).length := by
  intro l
  induction l with
  | nil =>
    intro i v cp h _
    rw [show aget ([] : List (Id × α)) i = none from rfl] at h
    cases h
  | cons e rest ih =>
    intro i v cp h hp
    obtain ⟨a, w⟩ := e
    by_cases ha : a = i
    · rw [show aget ((a, w) :: rest) i = if a = i then some w else aget rest i from rfl,
        if_pos ha] at h
      have hw : w = cp := by cases h; rfl
      rw [show aput ((a, w) :: rest) i v = (i, v) :: rest from by simp [aput, ha]]
      rw [List.filter_cons, List.filter_cons]
      subst hw
      subst ha
      rw [hp]
      cases hpc : p (a, w) <;> simp [hpc]
    · rw [show aget ((a, w) :: rest) i = if a = i then some w else aget rest i from rfl,
        if_neg ha] at h
      rw [show aput ((a, w) :: rest) i v = (a, w) :: aput rest i v from by simp [aput, ha]]
      rw [List.filter_cons, List.filter_cons]
      have hr := ih i v cp h hp
      cases hpa : p (a, w) <;> simp [hpa, hr]

/-- The first pass of DeletePoints maintains its counting invariant, given that
the remaining delete ids are distinct and not yet cached. -/
theorem deleteCollect_go (b : Bucket) (deleteSet : List Id) :
    ∀ (l : List Id) (acc : Cache × List Id × List Id),
      l.Nodup → (∀ i ∈ l, i ∉ akeys acc.1) → (∀ i ∈ l, i ∈ deleteSet) →
      DCInv b deleteSet acc →
      DCInv b deleteSet (l.foldl (fun acc i =>
        match getPoint b acc.1 i with
        | none => acc
        | some p =>
          (aput acc.1 i { p with isDeleted := true },
           acc.2.1 ++ [i],
           p.sp.edges.foldl
             (fun tp e => if e ∈ deleteSet ∨ e ∈ tp then tp else tp ++ [e]) acc.2.2)) acc) := by
  intro l
  induction l with
  | nil =>
    intro acc _ _ _ hinv
    exact hinv
  | cons i rest ih =>
    intro acc hnd hkeys hsub hinv
    have hnd₂ := (List.nodup_cons.mp hnd).2
    have hirest : i ∉ rest := (List.nodup_cons.mp hnd).1
    have hinotkeys : i ∉ akeys acc.1 := hkeys i (List.mem_cons_self i rest)
    have hca : aget acc.1 i = none := aget_none_of_not_mem hinotkeys
    rw [List.foldl_cons]
    cases hg : getPoint b acc.1 i with
    | none =>
      simp only [hg]
      exact ih acc hnd₂ (fun j hj => hkeys j (List.mem_cons.mpr (Or.inr hj)))
        (fun j hj => hsub j (List.mem_cons.mpr (Or.inr hj))) hinv
    | some p =>
      simp only [hg]
      have hsome : (aget b i).isSome = true := by
        unfold getPoint at hg
        rw [hca] at hg
        cases hbb : aget b i with
        | none => rw [hbb] at hg; simp at hg
        | some sp => rfl
      refine ih _ hnd₂ ?_ (fun j hj => hsub j (List.mem_cons.mpr (Or.inr hj))) ?_
      · intro j hj
        rw [show (aput acc.1 i { p with isDeleted := true },
            acc.2.1 ++ [i], _).1 = aput acc.1 i { p with isDeleted := true } from rfl]
        rw [akeys_aput, if_neg hinotkeys]
        intro hmem
        rcases List.mem_append.mp hmem with h1 | h1
        · exact hkeys j (List.mem_cons.mpr (Or.inr hj)) h1
        · rw [List.mem_singleton.mp h1] at hj
          exact hirest hj
      · refine ⟨?_, ?_, ?_⟩
        · intro e he
          rw [show (aput acc.1 i { p with isDeleted := true },
              acc.2.1 ++ [i], _).1 = aput acc.1 i { p with isDeleted := true } from rfl,
            aput_of_none _ hca] at he
          rcases List.mem_append.mp he with h1 | h1
          · exact hinv.1 e h1
          · rw [List.mem_singleton.mp h1]
            exact ⟨rfl, hsome⟩
        · rw [show (aput acc.1 i { p with isDeleted := true },
              acc.2.1 ++ [i], _).1 = aput acc.1 i { p with isDeleted := true } from rfl,
            aput_of_none _ hca]
          have := hinv.2.1
          simp only [List.length_append, List.length_singleton]
          omega
        · intro j hj
          rcases List.mem_append.mp hj with h1 | h1
          · exact hinv.2.2 j h1
          · rw [List.mem_singleton.mp h1]
            exact hsub i (List.mem_cons_self i rest)

/-- The counting invariant holds for the result of the first pass of
DeletePoints, for a duplicate-free delete set. -/
theorem deleteCollect_count (b : Bucket) (deleteSet : List Id) (hnd : deleteSet.Nodup) :
    DCInv b deleteSet (deleteCollect b deleteSet) := by
  unfold deleteCollect
  refine deleteCollect_go b deleteSet deleteSet ([], [], []) hnd ?_ (fun i h => h) ?_
  · intro i hi
    simp [akeys]
  · exact ⟨fun e he => absurd he (List.not_mem_nil e), rfl,
      fun i hi => absurd hi (List.not_mem_nil i)⟩

/-- The neighbour-pruning fold of DeletePoints preserves the number of
deleted-marked cache entries and their presence in the bucket. -/
theorem prunesFold_delCount {b : Bucket} {d : DistFn} {alphaN alphaD : Int} {R : Nat}
    {deleteSet : List Id} (l : List Id) (c c₂ : Cache)
    (h : l.foldlM (fun cc i => pruneDeleteNeighbour b d alphaN alphaD R cc i deleteSet) c
      = Except.ok c₂)
    (hbase : ∀ e ∈ c, e.2.isDeleted = true → (aget b e.1).isSome = true) :
    (c₂.filter (fun e => e.2.isDeleted)).length
      = (c.filter (fun e => e.2.isDeleted)).length ∧
    (∀ e ∈ c₂, e.2.isDeleted = true → (aget b e.1).isSome = true) := by
  refine foldlM_invariant (fun cc =>
    (cc.filter (fun e => e.2.isDeleted)).length
      = (c.filter (fun e => e.2.isDeleted)).length ∧
    (∀ e ∈ cc, e.2.isDeleted = true → (aget b e.1).isSome = true)) _ ?_ l c ⟨rfl, hbase⟩ c₂ h
  intro cc x cc₃ hP hs
  obtain ⟨point, es, hpt, hcc, _⟩ := pruneDeleteNeighbour_ok hs
  have hbx : point.isDeleted = true → (aget b x).isSome = true := by
    intro hpd
    unfold getPoint at hpt
    cases hca : aget cc x with
    | some cp =>
      rw [hca] at hpt
      have hpc : point = cp := by cases hpt; rfl
      refine hP.2 (x, cp) (aget_eq_some_mem hca) ?_
      rw [← hpc]
      exact hpd
    | none =>
      rw [hca] at hpt
      cases hbb : aget b x with
      | none => rw [hbb] at hpt; simp at hpt
      | some sp => rfl
  constructor
  · rw [hcc]
    unfold getPoint at hpt
    cases hca : aget cc x with
    | some cp =>
      rw [hca] at hpt
      have hpc : point = cp := by cases hpt; rfl
      rw [filter_length_aput_eq _ cc x _ cp hca (by rw [hpc]), hP.1]
    | none =>
      rw [hca] at hpt
      cases hbb : aget b x with
      | none => rw [hbb] at hpt; simp at hpt
      | some sp =>
        rw [hbb] at hpt
        have hpt2 : some (⟨sp, false, false, false⟩ : CachePoint) = some point := hpt
        have hpd : point.isDeleted = false := by
          cases hpt2
          rfl
        rw [aput_of_none _ hca, List.filter_append]
        simp [hpd, hP.1]
  · intro e he hdel
    rw [hcc] at he
    rcases mem_aput he with h1 | h1
    · rw [h1] at hdel ⊢
      exact hbx hdel
    · exact hP.2 e h1 hdel

/-- A committed InsertPoints adds exactly the input count both to the stored
pointCount and to the number of user points. -/
theorem insertPoints_count (st : ShardState) (d : DistFn) (alphaN alphaD : Int)
    (R S fuel : Nat) (ps : List Point)
    (hbk : BKNodup st.bucket) (hstart : (aget st.bucket st.startId).isSome = true)
    (hok : (insertPoints st d alphaN alphaD R S ps fuel).2 = none) :
    userPointCount (insertPoints st d alphaN alphaD R S ps fuel).1
      = userPointCount st + ps.length ∧
    (insertPoints st d alphaN alphaD R S ps fuel).1.pointCount
      = st.pointCount + ps.length := by
  unfold insertPoints at hok ⊢
  cases hbody : insertPointsBody st d alphaN alphaD R S ps fuel with
  | error e =>
    rw [hbody] at hok
    simp at hok
  | ok c =>
    obtain ⟨hnd, hck, hfl⟩ := insertPointsBody_props hbody
    have hbody₂ : ps.foldlM (insertStep st d alphaN alphaD R S fuel) [] = Except.ok c := hbody
    have hcount := insertFold_freshCount st d alphaN alphaD R S fuel ps [] c hbody₂
    have h0 : freshCount st.bucket ([] : Cache) = 0 := rfl
    have hflush := ucount_flush st.startId c st.bucket hck hbk
    rw [del_filter_nil_of_NoDeleted hnd,
      fresh_filter_eq_freshCount hnd hfl hstart] at hflush
    simp only [List.length_nil] at hflush
    refine ⟨?_, rfl⟩
    show ucount st.startId (flush c st.bucket) = ucount st.startId st.bucket + ps.length
    omega

/-- A committed UpdatePoints changes neither the stored pointCount nor the
number of user points. -/
theorem updatePoints_count (st : ShardState) (d : DistFn) (alphaN alphaD : Int)
    (R S fuel : Nat) (ps : List Point)
    (hbk : BKNodup st.bucket)
    (hok : (updatePoints st d alphaN alphaD R S ps fuel).2 = none) :
    userPointCount (updatePoints st d alphaN alphaD R S ps fuel).1.1
      = userPointCount st ∧
    (updatePoints st d alphaN alphaD R S ps fuel).1.1.pointCount = st.pointCount := by
  unfold updatePoints at hok ⊢
  cases hbody : updatePointsBody st d alphaN alphaD R S ps fuel with
  | error e =>
    rw [hbody] at hok
    simp at hok
  | ok cr =>
    obtain ⟨c, ids⟩ := cr
    obtain ⟨hnd, hck, hfl⟩ := updatePointsBody_props hbody
    have hkib := updatePointsBody_KeysInBucket hbody
    refine ⟨?_, rfl⟩
    have hflush := ucount_flush st.startId c st.bucket hck hbk
    rw [del_filter_nil_of_NoDeleted hnd, fresh_filter_nil_of_KeysInBucket hkib] at hflush
    simp only [List.length_nil] at hflush
    show ucount st.startId (flush c st.bucket) = ucount st.startId st.bucket
    omega

/-- A committed DeletePoints whose duplicate-free delete set excludes the entry
point removes exactly the returned deleted ids from the user points and
subtracts their number from the stored pointCount. -/
theorem deletePoints_count (st : ShardState) (d : DistFn) (alphaN alphaD : Int)
    (R : Nat) (ids : List Id)
    (hbk : BKNodup st.bucket) (hids : ids.Nodup) (hsni : st.startId ∉ ids)
    (hok : (deletePoints st d alphaN alphaD R ids).2 = none) :
    userPointCount st
      = userPointCount (deletePoints st d alphaN alphaD R ids).1.1
        + (deletePoints st d alphaN alphaD R ids).1.2.length ∧
    (deletePoints st d alphaN alphaD R ids).1.1.pointCount
      = st.pointCount - (deletePoints st d alphaN alphaD R ids).1.2.length := by
  unfold deletePoints at hok ⊢
  rcases hdc : deleteCollect st.bucket ids with ⟨c₁, dIds, tp⟩
  rw [hdc] at hok
  dsimp only at hok ⊢
  have hcount := deleteCollect_count st.bucket ids hids
  rw [hdc] at hcount
  have hprops := deleteCollect_props st.bucket ids
  rw [hdc] at hprops
  cases hfold : tp.foldlM
      (fun cc i => pruneDeleteNeighbour st.bucket d alphaN alphaD R cc i ids) c₁ with
  | error e =>
    rw [hfold] at hok
    simp at hok
  | ok c₂ =>
    obtain ⟨_, hckfun, _, _, hkibfun, hdifun⟩ := prunesFold_props tp c₁ c₂ hfold
    have hck₂ : CKNodup c₂ := hckfun hprops.1
    have hdi₂ : DeletedIn ids c₂ := hdifun hprops.2
    have hinv1 : ∀ e ∈ c₁, e.2.isDeleted = true ∧ (aget st.bucket e.1).isSome = true :=
      hcount.1
    have hkib₂ : KeysInBucket st.bucket c₂ := hkibfun (fun e he => (hinv1 e he).2)
    obtain ⟨hlen, hdsome⟩ := prunesFold_delCount tp c₁ c₂ hfold
      (fun e he _ => (hinv1 e he).2)
    have hfilc₁ : c₁.filter (fun e => e.2.isDeleted) = c₁ :=
      List.filter_eq_self.mpr (fun e he => (hinv1 e he).1)
    have hc₁len : c₁.length = dIds.length := hcount.2.1
    have hlen₂ : (c₂.filter (fun e => e.2.isDeleted)).length = dIds.length := by
      rw [hlen, hfilc₁, hc₁len]
    have hdelcongr : c₂.filter (fun f => f.2.isDeleted && (aget st.bucket f.1).isSome
        && ! (f.1 == st.startId)) = c₂.filter (fun e => e.2.isDeleted) := by
      refine List.filter_congr ?_
      intro f hf
      cases hd : f.2.isDeleted with
      | false => simp [hd]
      | true =>
        have hsome := hdsome f hf hd
        have hne : f.1 ≠ st.startId := by
          intro hceq
          exact hsni (hceq ▸ hdi₂ f hf hd)
        simp [hd, hsome, hne]
    have hflush := ucount_flush st.startId c₂ st.bucket hck₂ hbk
    rw [hdelcongr, fresh_filter_nil_of_KeysInBucket hkib₂, hlen₂] at hflush
    simp only [List.length_nil] at hflush
    constructor
    · show ucount st.startId st.bucket
        = ucount st.startId (flush c₂ st.bucket) + dIds.length
      omega
    · rfl

theorem list_set_get_self {α : Type} :
    ∀ (l : List α) (i : Nat) (h : i < l.length), l.set i (l.get ⟨i, h⟩) = l := by
  intro l
  induction l with
  | nil => intro i h; simp at h
  | cons a l ih =>
    intro i h
    cases i with
    | zero => rfl
    | succ j =>
      have hj : j < l.length := by simpa using h
      show a :: l.set j (l.get ⟨j, hj⟩) = a :: l
      rw [ih j hj]

theorem sorted_set_visited :
    ∀ (l : List DistSetElem) (i : Nat) (e : DistSetElem) (hlen : i < l.length),
      (l.get ⟨i, hlen⟩).distance = e.distance →
      l.Sorted elemLE → (l.set i e).Sorted elemLE := by
  intro l
  induction l with
  | nil => intro i e h; simp at h
  | cons a l ih =>
    intro i e hlen hdist hsort
    obtain ⟨ha, hl⟩ := List.pairwise_cons.mp hsort
    cases i with
    | zero =>
      show (e :: l).Sorted elemLE
      refine List.pairwise_cons.mpr ⟨?_, hl⟩
      intro z hz
      have := ha z hz
      unfold elemLE at this ⊢
      rw [← hdist]
      exact this
    | succ j =>
      have hj : j < l.length := by simpa using hlen
      show (a :: l.set j e).Sorted elemLE
      refine List.pairwise_cons.mpr ⟨?_, ih j e hj hdist hl⟩
      intro z hz
      rcases List.mem_or_eq_of_mem_set hz with h1 | h1
      · exact ha z h1
      · subst h1
        have := ha (l.get ⟨j, hj⟩) (List.get_mem l j hj)
        unfold elemLE at this ⊢
        rw [← hdist]
        exact this

theorem foldl_erase_sdiff :
    ∀ (L : List Id) (s : Finset Id), L.foldl (fun t i => t.erase i) s = s \ L.toFinset := by
  intro L
  induction L with
  | nil => intro s; simp
  | cons a L ih =>
    intro s
    rw [List.foldl_cons, ih]
    ext x
    simp only [Finset.mem_sdiff, Finset.mem_erase, List.mem_toFinset, List.mem_cons]
    tauto

theorem sorted_take_drop_le :
    ∀ (l : List DistSetElem) (S : Nat), l.Sorted elemLE →
      ∀ y ∈ l.take S, ∀ z ∈ l.drop S, elemLE y z := by
  intro l
  induction l with
  | nil => intro S _ y hy; simp at hy
  | cons a l ih =>
    intro S hsort y hy z hz
    obtain ⟨ha, hl⟩ := List.pairwise_cons.mp hsort
    cases S with
    | zero => simp at hy
    | succ S =>
      rw [List.take_succ_cons] at hy
      rw [List.drop_succ_cons] at hz
      rcases List.mem_cons.mp hy with h1 | h1
      · subst h1
        exact ha z (List.drop_subset S l hz)
      · exact ih S hl y h1 z hz

theorem sorted_take_le :
    ∀ (l : List DistSetElem) (S : Nat) (D : Int), l.Sorted elemLE →
      S ≤ l.countP (fun y => decide (y.distance ≤ D)) →
      ∀ y ∈ l.take S, y.distance ≤ D := by
  intro l
  induction l with
  | nil => intro S D _ _ y hy; simp at hy
  | cons a l ih =>
    intro S D hsort hcnt y hy
    obtain ⟨ha, hl⟩ := List.pairwise_cons.mp hsort
    cases S with
    | zero => simp at hy
    | succ S =>
      rw [List.take_succ_cons] at hy
      by_cases haD : a.distance ≤ D
      · rcases List.mem_cons.mp hy with h1 | h1
        · subst h1
          exact haD
        · refine ih S D hl ?_ y h1
          rw [List.countP_cons, if_pos (by simpa using haD)] at hcnt
          omega
      · have hzero : l.countP (fun y => decide (y.distance ≤ D)) = 0 := by
          rw [List.countP_eq_zero]
          intro z hz
          simp only [decide_eq_true_eq]
          intro hzD
          have := ha z hz
          unfold elemLE at this
          exact haD (le_trans this hzD)
        rw [List.countP_cons, if_neg (by simpa using haD), hzero] at hcnt
        omega

theorem sublist_take_bound {α : Type} [DecidableEq α] {Y : List α} {x : α} {l : List α}
    {m : Nat} (hsub : List.Sublist (Y ++ [x]) l) (hcnt : l.count x = 1)
    (hmem : x ∈ l.take m) :
    Y.length + 1 ≤ m := by
  have hdrop : x ∉ l.drop m := by
    intro hd
    have h1 : 0 < (l.take m).count x := List.count_pos_iff.mpr hmem
    have h2 : 0 < (l.drop m).count x := List.count_pos_iff.mpr hd
    have h3 : l.count x = (l.take m).count x + (l.drop m).count x := by
      rw [← List.count_append, List.take_append_drop]
    omega
  have hsub₂ : List.Sublist (Y ++ [x]) (l.take m ++ l.drop m) := by
    rw [List.take_append_drop]
    exact hsub
  rw [List.sublist_append_iff] at hsub₂
  obtain ⟨l₁, l₂, heq, ht, hd⟩ := hsub₂
  rcases List.append_eq_append_iff.mp heq with ⟨t, ht1, ht2⟩ | ⟨t, ht1, ht2⟩
  · cases t with
    | nil =>
      rw [List.nil_append] at ht2
      have hx : x ∈ l₂ := by
        rw [← ht2]
        exact List.mem_singleton_self x
      exact absurd (hd.subset hx) hdrop
    | cons u t =>
      rw [List.cons_append] at ht2
      have hu : x = u ∧ ([] : List α) = t ++ l₂ :=
        ⟨(List.cons.inj ht2).1, (List.cons.inj ht2).2⟩
      have hteq : t = [] := (List.append_eq_nil.mp hu.2.symm).1
      rw [hteq, ← hu.1] at ht1
      have hle : (Y ++ [x]).length ≤ (l.take m).length := by
        rw [← ht1]
        exact ht.length_le
      rw [List.length_append, List.length_singleton, List.length_take] at hle
      omega
  · have hx : x ∈ l₂ := by
      rw [ht2]
      exact List.mem_append_right t (List.mem_singleton_self x)
    exact absurd (hd.subset hx) hdrop

theorem findUnvisitedAux_spec :
    ∀ (l : List DistSetElem) (k i : Nat) (e : DistSetElem),
      findUnvisitedAux l k = some (i, e) →
      ∃ j, i = k + j ∧ ∃ h : j < l.length, l.get ⟨j, h⟩ = e ∧ e.visited = false := by
  intro l
  induction l with
  | nil => intro k i e h; simp [findUnvisitedAux] at h
  | cons a l ih =>
    intro k i e h
    unfold findUnvisitedAux at h
    by_cases hv : a.visited = true
    · rw [if_pos hv] at h
      obtain ⟨j, hij, hlt, hget, hvis⟩ := ih (k + 1) i e h
      refine ⟨j + 1, by omega, by simpa using Nat.succ_lt_succ hlt, ?_, hvis⟩
      show l.get ⟨j, hlt⟩ = e
      exact hget
    · rw [if_neg hv] at h
      have h2 : (k, a) = (i, e) := by
        cases h
        rfl
      have hk : k = i := (Prod.mk.inj h2).1
      have ha : a = e := (Prod.mk.inj h2).2
      refine ⟨0, by omega, by simp, ?_, ?_⟩
      · exact ha
      · rw [← ha]
        cases hav : a.visited with
        | false => rfl
        | true => exact absurd hav hv

theorem findUnvisited_some {ss : DistSet} {i : Nat} {e : DistSetElem}
    (hcard : ss.pset.card = ss.items.length)
    (h : ss.findUnvisited = some (i, e)) :
    ∃ hlt : i < ss.items.length, ss.items.get ⟨i, hlt⟩ = e ∧ e.visited = false := by
  unfold DistSet.findUnvisited at h
  rw [hcard, List.take_length] at h
  obtain ⟨j, hij, hlt, hget, hv⟩ := findUnvisitedAux_spec ss.items 0 i e h
  have hji : j = i := by omega
  subst hji
  exact ⟨hlt, hget, hv⟩

theorem pset_card_eq_length {ds : DistSet} (hnd : (idsOf ds.items).Nodup)
    (hp : ds.pset = (idsOf ds.items).toFinset) : ds.pset.card = ds.items.length := by
  rw [hp, List.card_toFinset, List.dedup_eq_self.mpr hnd, idsOf, List.length_map]

theorem addPoints_spec (d : DistFn) :
    ∀ (ps : List ShardPoint) (ds : DistSet),
    ∃ N, (ds.addPoints d ps).items = ds.items ++ N ∧
      (ds.addPoints d ps).query = ds.query ∧
      (ds.addPoints d ps).pset = ds.pset ∪ (idsOf N).toFinset ∧
      (idsOf N).Nodup ∧
      (∀ x ∈ N, x.visited = false ∧ x.point.id ∉ ds.pset ∧
        ∃ p ∈ ps, x = ⟨p, d p.vector ds.query, false⟩) := by
  intro ps
  induction ps with
  | nil =>
    intro ds
    refine ⟨[], by simp [DistSet.addPoints], rfl, by simp [DistSet.addPoints, idsOf],
      List.nodup_nil, fun x hx => absurd hx (List.not_mem_nil x)⟩
  | cons p ps ih =>
    intro ds
    rw [show ds.addPoints d (p :: ps) = (ds.addOne d p).addPoints d ps from rfl]
    by_cases hmem : p.id ∈ ds.pset
    · have hone : ds.addOne d p = ds := by
        unfold DistSet.addOne
        rw [if_pos hmem]
      rw [hone]
      obtain ⟨N, h1, h2, h3, h4, h5⟩ := ih ds
      refine ⟨N, h1, h2, h3, h4, ?_⟩
      intro x hx
      obtain ⟨hv, hni, pp, hpp, hform⟩ := h5 x hx
      exact ⟨hv, hni, pp, List.mem_cons.mpr (Or.inr hpp), hform⟩
    · have hone : ds.addOne d p = ⟨ds.query, ds.items ++ [⟨p, d p.vector ds.query, false⟩],
          insert p.id ds.pset⟩ := by
        unfold DistSet.addOne
        rw [if_neg hmem]
      rw [hone]
      obtain ⟨N, h1, h2, h3, h4, h5⟩ :=
        ih ⟨ds.query, ds.items ++ [⟨p, d p.vector ds.query, false⟩], insert p.id ds.pset⟩
      refine ⟨⟨p, d p.vector ds.query, false⟩ :: N, ?_, h2, ?_, ?_, ?_⟩
      · rw [h1]
        simp
      · rw [h3]
        ext a
        simp only [Finset.mem_union, Finset.mem_insert, List.mem_toFinset, idsOf,
          List.map_cons, List.mem_cons]
        tauto
      · rw [idsOf, List.map_cons]
        refine List.nodup_cons.mpr ⟨?_, h4⟩
        intro hc
        obtain ⟨x, hx, hxid⟩ := List.mem_map.mp hc
        have := (h5 x hx).2.1
        rw [hxid] at this
        exact this (Finset.mem_insert_self p.id ds.pset)
      · intro x hx
        rcases List.mem_cons.mp hx with h6 | h6
        · subst h6
          exact ⟨rfl, hmem, p, List.mem_cons_self p ps, rfl⟩
        · obtain ⟨hv, hni, pp, hpp, hform⟩ := h5 x h6
          refine ⟨hv, fun hc => hni (Finset.mem_insert_of_mem hc),
            pp, List.mem_cons.mpr (Or.inr hpp), hform⟩

theorem addElem_not_mem {vs : DistSet} {e : DistSetElem} (h : e.point.id ∉ vs.pset) :
    (vs.addElem e).items = vs.items ++ [e] ∧
    (vs.addElem e).pset = insert e.point.id vs.pset ∧
    (vs.addElem e).query = vs.query := by
  unfold DistSet.addElem
  rw [if_neg h]
  exact ⟨rfl, rfl, rfl⟩

theorem keepFirstK_pset (ds : DistSet) (k : Nat)
    (hnd : (idsOf ds.items).Nodup) (hp : ds.pset = (idsOf ds.items).toFinset) :
    (ds.keepFirstK k).pset = (idsOf (ds.items.take k)).toFinset := by
  unfold DistSet.keepFirstK
  show (ds.items.drop k).foldl (fun s e => s.erase e.point.id) ds.pset
    = (idsOf (ds.items.take k)).toFinset
  have hfold : (ds.items.drop k).foldl (fun s e => s.erase e.point.id) ds.pset
      = (idsOf (ds.items.drop k)).foldl (fun s i => s.erase i) ds.pset := by
    rw [idsOf, List.foldl_map]
  rw [hfold, foldl_erase_sdiff, hp]
  have hsplit : idsOf ds.items = idsOf (ds.items.take k) ++ idsOf (ds.items.drop k) := by
    rw [idsOf, idsOf, idsOf, ← List.map_append, List.take_append_drop]
  rw [hsplit] at hnd
  rw [hsplit]
  rw [List.nodup_append] at hnd
  ext a
  simp only [Finset.mem_sdiff, List.mem_toFinset, List.mem_append]
  constructor
  · rintro ⟨h1 | h1, h2⟩
    · exact h1
    · exact absurd h1 h2
  · intro h1
    exact ⟨Or.inl h1, fun hc => hnd.2.2 h1 hc⟩

theorem getPoint_wellKeyed {b : Bucket} {c : Cache} {i : Id} {cp : CachePoint}
    (hwb : WellKeyedB b) (hwc : WellKeyedC c) (h : getPoint b c i = some cp) :
    cp.sp.id = i := by
  unfold getPoint at h
  cases hc : aget c i with
  | some cp2 =>
    rw [hc] at h
    cases h
    exact hwc (i, cp) (aget_eq_some_mem hc)
  | none =>
    rw [hc] at h
    cases hb : aget b i with
    | none => rw [hb] at h; simp at h
    | some sp =>
      rw [hb] at h
      have h2 : some (⟨sp, false, false, false⟩ : CachePoint) = some cp := h
      cases h2
      exact hwb (i, sp) (aget_eq_some_mem hb)

theorem getPointE_ok_getPoint {b : Bucket} {c : Cache} {i : Id} {cp : CachePoint}
    (h : getPointE b c i = Except.ok cp) : getPoint b c i = some cp := by
  unfold getPointE at h
  cases hg : getPoint b c i with
  | some cp2 =>
    rw [hg] at h
    cases h
    rfl
  | none =>
    rw [hg] at h
    cases h

theorem getPointE_error_kind {b : Bucket} {c : Cache} {i : Id} {er : SErr}
    (h : getPointE b c i = Except.error er) : er = SErr.notFound i := by
  unfold getPointE at h
  cases hg : getPoint b c i with
  | some cp2 =>
    rw [hg] at h
    cases h
  | none =>
    rw [hg] at h
    cases h
    rfl

theorem except_bind_ok_eq {α β : Type} (a : α) (f : α → Except SErr β) :
    (Except.ok a >>= f) = f a := rfl

theorem except_bind_error_eq {α β : Type} (er : SErr) (f : α → Except SErr β) :
    ((Except.error er : Except SErr α) >>= f) = Except.error er := rfl

theorem mapM_getPointE_error {b : Bucket} {c : Cache} :
    ∀ (l : List Id) (er : SErr), l.mapM (getPointE b c) = Except.error er →
      ∃ j, er = SErr.notFound j := by
  intro l
  induction l with
  | nil =>
    intro er h
    rw [List.mapM_nil] at h
    cases h
  | cons a l ih =>
    intro er h
    rw [List.mapM_cons] at h
    cases ha : getPointE b c a with
    | error e2 =>
      rw [ha, except_bind_error_eq] at h
      have h2 : e2 = er := by
        cases h
        rfl
      exact ⟨a, by rw [← h2]; exact getPointE_error_kind ha⟩
    | ok x =>
      rw [ha, except_bind_ok_eq] at h
      cases hrest : l.mapM (getPointE b c) with
      | error e3 =>
        rw [hrest, except_bind_error_eq] at h
        have h2 : e3 = er := by
          cases h
          rfl
        rw [← h2]
        exact ih e3 hrest
      | ok xs =>
        rw [hrest, except_bind_ok_eq] at h
        cases h

theorem mapM_getPointE_mem {b : Bucket} {c : Cache} :
    ∀ (l : List Id) (r : List CachePoint), l.mapM (getPointE b c) = Except.ok r →
      ∀ cp ∈ r, ∃ j, getPoint b c j = some cp := by
  intro l
  induction l with
  | nil =>
    intro r h cp hcp
    rw [List.mapM_nil] at h
    cases h
    exact absurd hcp (List.not_mem_nil cp)
  | cons a l ih =>
    intro r h cp hcp
    rw [List.mapM_cons] at h
    cases ha : getPointE b c a with
    | error e2 =>
      rw [ha, except_bind_error_eq] at h
      cases h
    | ok x =>
      rw [ha, except_bind_ok_eq] at h
      cases hrest : l.mapM (getPointE b c) with
      | error e3 =>
        rw [hrest, except_bind_error_eq] at h
        cases h
      | ok xs =>
        rw [hrest, except_bind_ok_eq] at h
        have h2 : x :: xs = r := by
          cases h
          rfl
        rw [← h2] at hcp
        rcases List.mem_cons.mp hcp with h3 | h3
        · subst h3
          exact ⟨a, getPointE_ok_getPoint ha⟩
        · exact ih xs hrest cp h3

theorem nodup_map_get_ne {α β : Type} (f : α → β) :
    ∀ (l : List α) (i j : Nat) (hi : i < l.length) (hj : j < l.length),
      (l.map f).Nodup → i ≠ j → f (l.get ⟨i, hi⟩) ≠ f (l.get ⟨j, hj⟩) := by
  intro l
  induction l with
  | nil => intro i j hi; simp at hi
  | cons a l ih =>
    intro i j hi hj hnd hij
    obtain ⟨hna, hnl⟩ := List.nodup_cons.mp (by rw [List.map_cons] at hnd; exact hnd)
    cases i with
    | zero =>
      cases j with
      | zero => exact absurd rfl hij
      | succ j2 =>
        have hj2 : j2 < l.length := by simpa using hj
        show f a ≠ f (l.get ⟨j2, hj2⟩)
        intro hc
        exact hna (hc ▸ List.mem_map_of_mem f (List.get_mem l j2 hj2))
    | succ i2 =>
      have hi2 : i2 < l.length := by simpa using hi
      cases j with
      | zero =>
        show f (l.get ⟨i2, hi2⟩) ≠ f a
        intro hc
        exact hna (hc ▸ List.mem_map_of_mem f (List.get_mem l i2 hi2))
      | succ j2 =>
        have hj2 : j2 < l.length := by simpa using hj
        exact ih i2 j2 hi2 hj2 hnl (fun hc => hij (by rw [hc]))

/-- Two elements linked to the store that carry the same id carry the same
distance. -/
theorem linked_same_id {b : Bucket} {c : Cache} {d : DistFn} {q : Vec}
    {x y : DistSetElem} (hx : Linked b c d q x) (hy : Linked b c d q y)
    (hid : x.point.id = y.point.id) : x.distance = y.distance := by
  obtain ⟨cx, hcx, hcxs, hcxd⟩ := hx
  obtain ⟨cy, hcy, hcys, hcyd⟩ := hy
  rw [hid, hcy] at hcx
  cases hcx
  have hp : x.point = y.point := by rw [← hcxs, ← hcys]
  rw [hcxd, hcyd, hp]

/-- One expansion of the greedy-search loop preserves the loop invariant, adds
the expanded id to the visited set, and that id was not visited before. -/
theorem gsInv_step {b : Bucket} {c : Cache} {d : DistFn} {q : Vec} {S : Nat}
    {ss vs : DistSet} {i : Nat} {e : DistSetElem} {node : CachePoint}
    {nbrs : List CachePoint}
    (hwb : WellKeyedB b) (hwc : WellKeyedC c)
    (hinv : GsInv b c d q S ss vs)
    (hfu : ss.findUnvisited = some (i, e))
    (hnode : getPointE b c e.point.id = Except.ok node)
    (hnbrs : getNeighbours b c node.sp = Except.ok nbrs) :
    GsInv b c d q S
      (if S < ((({ ss with items := ss.items.set i { e with visited := true } }
            : DistSet).addPoints d (nbrs.map (fun cp => cp.sp))).sortItems).len
       then ((({ ss with items := ss.items.set i { e with visited := true } }
            : DistSet).addPoints d (nbrs.map (fun cp => cp.sp))).sortItems).keepFirstK S
       else ((({ ss with items := ss.items.set i { e with visited := true } }
            : DistSet).addPoints d (nbrs.map (fun cp => cp.sp))).sortItems))
      (vs.addElem { e with visited := true }) ∧
    e.point.id ∉ vs.pset ∧
    (vs.addElem { e with visited := true }).pset = insert e.point.id vs.pset := by
  obtain ⟨hsq, hvq, hnd, hpc, hvc, hsl, hvl, hvis, hhist, hsorted⟩ := hinv
  have hcard : ss.pset.card = ss.items.length := pset_card_eq_length hnd hpc
  obtain ⟨hlt, hget, hvfalse⟩ := findUnvisited_some hcard hfu
  have hmem_e : e ∈ ss.items := hget ▸ List.get_mem ss.items i hlt
  have heid_ids : e.point.id ∈ idsOf ss.items := List.mem_map_of_mem _ hmem_e
  have heid_pset : e.point.id ∈ ss.pset := by
    rw [hpc]
    exact List.mem_toFinset.mpr heid_ids
  have hnotvs : e.point.id ∉ vs.pset := by
    intro hin
    have h2 := (hvis e hmem_e).mpr hin
    rw [hvfalse] at h2
    cases h2
  set M : DistSetElem := { e with visited := true } with hM
  obtain ⟨hv1items, hv1pset, hv1q⟩ := @addElem_not_mem vs M hnotvs
  set X₁ : List DistSetElem := ss.items.set i M with hX₁
  -- facts about the working set with the expanded element marked
  have hids₁ : idsOf X₁ = idsOf ss.items := by
    show (ss.items.set i M).map (fun x => x.point.id) = ss.items.map (fun x => x.point.id)
    rw [List.map_set]
    show (ss.items.map fun x => x.point.id).set i e.point.id
      = ss.items.map fun x => x.point.id
    have hgm : (ss.items.map (fun x => x.point.id)).get ⟨i, by simpa using hlt⟩
        = e.point.id := by
      rw [List.get_map, hget]
    rw [← hgm, list_set_get_self]
  have hnd₁ : (idsOf X₁).Nodup := by
    rw [hids₁]
    exact hnd
  have hlen₁ : X₁.length = ss.items.length := by
    simp [hX₁]
  have hsorted₁ : X₁.Sorted elemLE := by
    refine sorted_set_visited ss.items i M hlt ?_ hsorted
    rw [hget]
  have hmem₁ : ∀ x ∈ X₁, x ∈ ss.items ∨ x = M := fun x hx => List.mem_or_eq_of_mem_set hx
  have hsl₁ : ∀ x ∈ X₁, Linked b c d q x := by
    intro x hx
    rcases hmem₁ x hx with h1 | h1
    · exact hsl x h1
    · rw [h1]
      exact hsl e hmem_e
  have hdist₁ : ∀ x ∈ X₁, ∃ y ∈ ss.items, x.distance = y.distance := by
    intro x hx
    rcases hmem₁ x hx with h1 | h1
    · exact ⟨x, h1, rfl⟩
    · rw [h1]
      exact ⟨e, hmem_e, rfl⟩
  have hvis₁ : ∀ x ∈ X₁, x.visited = true ↔ x.point.id ∈ insert e.point.id vs.pset := by
    intro x hx
    obtain ⟨⟨j, hj⟩, hxget⟩ := List.mem_iff_get.mp hx
    by_cases hji : j = i
    · subst hji
      have hxm : x = M := by
        rw [← hxget]
        exact List.get_set_eq hj
      rw [hxm]
      constructor
      · intro _
        exact Finset.mem_insert_self _ _
      · intro _
        rfl
    · have hj₂ : j < ss.items.length := by
        have := hj
        rw [hX₁] at this
        simpa using this
      have hxold : x = ss.items.get ⟨j, hj₂⟩ := by
        rw [← hxget]
        exact List.get_set_ne (fun hc => hji hc.symm) hj
      have hxmem : x ∈ ss.items := hxold ▸ List.get_mem ss.items j hj₂
      have hxid : x.point.id ≠ e.point.id := by
        rw [hxold, ← hget]
        exact nodup_map_get_ne (fun z => z.point.id) ss.items j i hj₂ hlt
          (show (ss.items.map (fun z => z.point.id)).Nodup from hnd) hji
      rw [Finset.mem_insert]
      constructor
      · intro hv
        exact Or.inr ((hvis x hxmem).mp hv)
      · rintro (h2 | h2)
        · exact absurd h2 hxid
        · exact (hvis x hxmem).mpr h2
  -- the neighbours appended by AddPoint
  obtain ⟨N, hNitems, hNq, hNpset, hNnd, hNprops⟩ :=
    addPoints_spec d (nbrs.map (fun cp => cp.sp)) ({ ss with items := X₁ } : DistSet)
  have hNitems' : (({ ss with items := X₁ } : DistSet).addPoints d
      (nbrs.map (fun cp => cp.sp))).items = X₁ ++ N := hNitems
  have hNq' : (({ ss with items := X₁ } : DistSet).addPoints d
      (nbrs.map (fun cp => cp.sp))).query = ss.query := hNq
  have hNpset' : (({ ss with items := X₁ } : DistSet).addPoints d
      (nbrs.map (fun cp => cp.sp))).pset = ss.pset ∪ (idsOf N).toFinset := hNpset
  have hNprops' : ∀ x ∈ N, x.visited = false ∧ x.point.id ∉ ss.pset ∧
      ∃ p ∈ nbrs.map (fun cp => cp.sp), x = ⟨p, d p.vector ss.query, false⟩ := hNprops
  have hNlinked : ∀ x ∈ N, Linked b c d q x := by
    intro x hx
    obtain ⟨_, _, p, hp, hform⟩ := hNprops' x hx
    obtain ⟨cp, hcp, hpeq⟩ := List.mem_map.mp hp
    have hresolve : ∃ j, getPoint b c j = some cp := by
      unfold getNeighbours at hnbrs
      exact mapM_getPointE_mem node.sp.edges nbrs hnbrs cp hcp
    obtain ⟨j, hj⟩ := hresolve
    have hkey : cp.sp.id = j := getPoint_wellKeyed hwb hwc hj
    subst hform
    refine ⟨cp, ?_, ?_, ?_⟩
    · show getPoint b c p.id = some cp
      rw [← hpeq, hkey]
      exact hj
    · show cp.sp = p
      exact hpeq
    · show d p.vector ss.query = d p.vector q
      rw [hsq]
  set X₂ : List DistSetElem := X₁ ++ N with hX₂
  have hX₂nd : (idsOf X₂).Nodup := by
    rw [hX₂]
    show ((X₁ ++ N).map (fun x => x.point.id)).Nodup
    rw [List.map_append, List.nodup_append]
    refine ⟨hnd₁, hNnd, ?_⟩
    intro a ha hc
    obtain ⟨x, hx, hxa⟩ := List.mem_map.mp hc
    have h2 := (hNprops' x hx).2.1
    rw [hxa] at h2
    apply h2
    rw [hpc]
    apply List.mem_toFinset.mpr
    rw [← hids₁]
    exact ha
  have hX₂linked : ∀ x ∈ X₂, Linked b c d q x := by
    intro x hx
    rcases List.mem_append.mp hx with h1 | h1
    · exact hsl₁ x h1
    · exact hNlinked x h1
  have hperm : List.Perm (X₂.insertionSort elemLE) X₂ := List.perm_insertionSort elemLE X₂
  have hsorted₃ : (X₂.insertionSort elemLE).Sorted elemLE :=
    List.sorted_insertionSort elemLE X₂
  have hidsperm : List.Perm (idsOf (X₂.insertionSort elemLE)) (idsOf X₂) := hperm.map _
  have hnd₃ : (idsOf (X₂.insertionSort elemLE)).Nodup := hidsperm.nodup_iff.mpr hX₂nd
  have htf₃ : (idsOf (X₂.insertionSort elemLE)).toFinset = (idsOf X₂).toFinset := by
    ext a
    simp only [List.mem_toFinset]
    exact hidsperm.mem_iff
  set ss₃ : DistSet := (({ ss with items := X₁ } : DistSet).addPoints d
    (nbrs.map (fun cp => cp.sp))).sortItems with hss₃
  have hss₃items : ss₃.items = X₂.insertionSort elemLE := by
    show (({ ss with items := X₁ } : DistSet).addPoints d
      (nbrs.map (fun cp => cp.sp))).items.insertionSort elemLE = X₂.insertionSort elemLE
    rw [hNitems']
  have hss₃q : ss₃.query = q := by
    show (({ ss with items := X₁ } : DistSet).addPoints d
      (nbrs.map (fun cp => cp.sp))).query = q
    rw [hNq', hsq]
  have hpc₃ : ss₃.pset = (idsOf ss₃.items).toFinset := by
    show (({ ss with items := X₁ } : DistSet).addPoints d
      (nbrs.map (fun cp => cp.sp))).pset = (idsOf ss₃.items).toFinset
    rw [hNpset', hss₃items, htf₃, hpc]
    rw [hX₂]
    show (idsOf ss.items).toFinset ∪ (idsOf N).toFinset
      = ((X₁ ++ N).map (fun x => x.point.id)).toFinset
    rw [List.map_append, List.toFinset_append]
    have : (X₁.map (fun x => x.point.id)).toFinset = (idsOf ss.items).toFinset := by
      rw [show X₁.map (fun x => x.point.id) = idsOf X₁ from rfl, hids₁]
    rw [this]
    rfl
  have hnd₃' : (idsOf ss₃.items).Nodup := by
    rw [hss₃items]
    exact hnd₃
  have hsorted₃' : ss₃.items.Sorted elemLE := by
    rw [hss₃items]
    exact hsorted₃
  have hlen₃ : ss₃.len = ss₃.items.length := pset_card_eq_length hnd₃' hpc₃
  have hlen₂ : ss₃.items.length = X₁.length + N.length := by
    rw [hss₃items, hperm.length_eq, hX₂, List.length_append]
  have hmem₃ : ∀ x ∈ ss₃.items, x ∈ X₂ := by
    intro x hx
    rw [hss₃items] at hx
    exact hperm.mem_iff.mp hx
  have hsl₃ : ∀ x ∈ ss₃.items, Linked b c d q x := fun x hx => hX₂linked x (hmem₃ x hx)
  have hsub_ids : ∀ a, a ∈ idsOf ss.items → a ∈ idsOf ss₃.items := by
    intro a ha
    rw [hss₃items]
    show a ∈ (X₂.insertionSort elemLE).map (fun x => x.point.id)
    refine hidsperm.mem_iff.mpr ?_
    rw [hX₂]
    show a ∈ (X₁ ++ N).map (fun x => x.point.id)
    rw [List.map_append]
    refine List.mem_append_left _ ?_
    rw [show X₁.map (fun x => x.point.id) = idsOf X₁ from rfl, hids₁]
    exact ha
  -- facts about the visited set with the expanded element recorded
  have hvl₁ : ∀ x ∈ (vs.addElem M).items, Linked b c d q x := by
    intro x hx
    rw [hv1items] at hx
    rcases List.mem_append.mp hx with h1 | h1
    · exact hvl x h1
    · rw [List.mem_singleton.mp h1]
      exact hsl e hmem_e
  have hvc₁ : (vs.addElem M).pset = (idsOf (vs.addElem M).items).toFinset := by
    rw [hv1pset, hv1items]
    show insert e.point.id vs.pset = ((vs.items ++ [M]).map (fun x => x.point.id)).toFinset
    rw [List.map_append, List.toFinset_append, hvc]
    ext a
    simp only [Finset.mem_insert, Finset.mem_union, List.mem_toFinset, List.map_cons,
      List.map_nil, List.mem_cons, List.not_mem_nil, or_false]
    show a = e.point.id ∨ a ∈ idsOf vs.items ↔ a ∈ idsOf vs.items ∨ a = e.point.id
    tauto
  have hvq₁ : (vs.addElem M).query = q := by
    rw [hv1q, hvq]
  -- the membership set of a ve dropped from the working set
  have hdropped : ∀ ve ∈ (vs.addElem M).items, ve.point.id ∉ idsOf ss₃.items →
      ve ∈ vs.items ∧ ve.point.id ∉ idsOf ss.items := by
    intro ve hve hnotin
    have hnotss : ve.point.id ∉ idsOf ss.items := fun hc => hnotin (hsub_ids _ hc)
    rw [hv1items] at hve
    rcases List.mem_append.mp hve with h1 | h1
    · exact ⟨h1, hnotss⟩
    · rw [List.mem_singleton.mp h1] at hnotss
      exact absurd heid_ids hnotss
  by_cases hS : S < ss₃.len
  · rw [if_pos hS]
    have hS' : S < ss₃.items.length := by
      rw [← hlen₃]
      exact hS
    have hitems₄ : (ss₃.keepFirstK S).items = ss₃.items.take S := rfl
    have hpset₄ : (ss₃.keepFirstK S).pset = (idsOf (ss₃.items.take S)).toFinset :=
      keepFirstK_pset ss₃ S hnd₃' hpc₃
    have hnd₄ : (idsOf (ss₃.items.take S)).Nodup := by
      show ((ss₃.items.take S).map (fun x => x.point.id)).Nodup
      rw [List.map_take]
      exact List.Nodup.sublist (List.take_sublist S _) hnd₃'
    have hvis₄ : ∀ x ∈ ss₃.items.take S,
        x.visited = true ↔ x.point.id ∈ insert e.point.id vs.pset := by
      intro x hx
      have hx₃ : x ∈ ss₃.items := List.take_subset S _ hx
      rcases List.mem_append.mp (hmem₃ x hx₃) with h1 | h1
      · exact hvis₁ x h1
      · obtain ⟨hxvf, hxnotss, _⟩ := hNprops' x h1
        rw [hxvf]
        constructor
        · intro h2
          cases h2
        · intro h2
          exfalso
          rw [Finset.mem_insert] at h2
          rcases h2 with h2 | h2
          · rw [h2] at hxnotss
            exact hxnotss heid_pset
          · have h2v : x.point.id ∈ (idsOf vs.items).toFinset := by
              rw [← hvc]
              exact h2
            obtain ⟨ve, hve, hveid⟩ := List.mem_map.mp (List.mem_toFinset.mp h2v)
            have hvenotss : ve.point.id ∉ idsOf ss.items := by
              rw [hveid]
              intro hc
              apply hxnotss
              rw [hpc]
              exact List.mem_toFinset.mpr hc
            obtain ⟨hSlen, hdle⟩ := hhist ve hve hvenotss
            have hxd : x.distance = ve.distance :=
              linked_same_id (hNlinked x h1) (hvl ve hve) hveid.symm
            have hpairw : (X₁ ++ [x]).Pairwise elemLE := by
              rw [List.pairwise_append]
              refine ⟨hsorted₁, List.pairwise_singleton _ _, ?_⟩
              intro y hy z hz
              rw [List.mem_singleton.mp hz]
              obtain ⟨y₀, hy₀, hyd⟩ := hdist₁ y hy
              unfold elemLE
              rw [hyd, hxd]
              exact hdle y₀ hy₀
            have hsubl : List.Sublist (X₁ ++ [x]) X₂ := by
              rw [hX₂]
              exact List.Sublist.append_left (List.singleton_sublist.mpr h1) X₁
            have hstab : List.Sublist (X₁ ++ [x]) (X₂.insertionSort elemLE) :=
              List.sublist_insertionSort hpairw hsubl
            have hX₃nde : (X₂.insertionSort elemLE).Nodup := List.Nodup.of_map _ hnd₃
            have hxX₃ : x ∈ X₂.insertionSort elemLE := by
              refine hperm.mem_iff.mpr ?_
              rw [hX₂]
              exact List.mem_append_right X₁ h1
            have hcnt : (X₂.insertionSort elemLE).count x = 1 :=
              List.count_eq_one_of_mem hX₃nde hxX₃
            have hxtake : x ∈ (X₂.insertionSort elemLE).take S := by
              rw [← hss₃items]
              exact hx
            have hbound := sublist_take_bound hstab hcnt hxtake
            rw [hlen₁] at hbound
            omega
    refine ⟨GsInv.mk ?_ hvq₁ hnd₄ hpset₄ hvc₁ ?_ hvl₁ ?_ ?_ ?_, hnotvs, hv1pset⟩
    · show ss₃.query = q
      exact hss₃q
    · intro x hx
      exact hsl₃ x (List.take_subset S _ hx)
    · intro x hx
      rw [hv1pset]
      exact hvis₄ x hx
    · intro ve hve hnotin
      have hnotin' : ve.point.id ∉ idsOf (ss₃.items.take S) := hnotin
      have hlen₄ : (ss₃.items.take S).length = S := by
        rw [List.length_take]
        exact Nat.min_eq_left (le_of_lt hS')
      refine ⟨by rw [hitems₄, hlen₄], ?_⟩
      intro y hy
      by_cases hin₃ : ve.point.id ∈ idsOf ss₃.items
      · obtain ⟨w, hw, hwid⟩ := List.mem_map.mp hin₃
        have hwsplit : w ∈ ss₃.items.take S ++ ss₃.items.drop S := by
          rw [List.take_append_drop]
          exact hw
        rcases List.mem_append.mp hwsplit with h1 | h1
        · exfalso
          apply hnotin'
          rw [← hwid]
          exact List.mem_map_of_mem _ h1
        · have hyw : elemLE y w := sorted_take_drop_le ss₃.items S hsorted₃' y hy w h1
          have hwd : w.distance = ve.distance :=
            linked_same_id (hsl₃ w hw) (hvl₁ ve hve) hwid
          unfold elemLE at hyw
          rw [← hwd]
          exact hyw
      · obtain ⟨hvemem, hvenotss⟩ := hdropped ve hve hin₃
        obtain ⟨hSlen, hdle⟩ := hhist ve hvemem hvenotss
        have hcountX₁ : X₁.countP (fun z => decide (z.distance ≤ ve.distance))
            = X₁.length := by
          rw [List.countP_eq_length]
          intro z hz
          obtain ⟨z₀, hz₀, hzd⟩ := hdist₁ z hz
          simp only [decide_eq_true_eq]
          rw [hzd]
          exact hdle z₀ hz₀
        have hcount : S ≤ ss₃.items.countP (fun z => decide (z.distance ≤ ve.distance)) := by
          rw [hss₃items, hperm.countP_eq, hX₂, List.countP_append, hcountX₁]
          rw [← hlen₁] at hSlen
          omega
        exact sorted_take_le ss₃.items S ve.distance hsorted₃' hcount y hy
    · show List.Sorted elemLE (ss₃.items.take S)
      exact List.Pairwise.sublist (List.take_sublist S ss₃.items) hsorted₃'
  · rw [if_neg hS]
    have hlenle : ss₃.items.length ≤ S := by
      rw [← hlen₃]
      omega
    have hvis₃ : ∀ x ∈ ss₃.items,
        x.visited = true ↔ x.point.id ∈ insert e.point.id vs.pset := by
      intro x hx
      rcases List.mem_append.mp (hmem₃ x hx) with h1 | h1
      · exact hvis₁ x h1
      · obtain ⟨hxvf, hxnotss, _⟩ := hNprops' x h1
        rw [hxvf]
        constructor
        · intro h2
          cases h2
        · intro h2
          exfalso
          rw [Finset.mem_insert] at h2
          rcases h2 with h2 | h2
          · rw [h2] at hxnotss
            exact hxnotss heid_pset
          · have h2v : x.point.id ∈ (idsOf vs.items).toFinset := by
              rw [← hvc]
              exact h2
            obtain ⟨ve, hve, hveid⟩ := List.mem_map.mp (List.mem_toFinset.mp h2v)
            have hvenotss : ve.point.id ∉ idsOf ss.items := by
              rw [hveid]
              intro hc
              apply hxnotss
              rw [hpc]
              exact List.mem_toFinset.mpr hc
            obtain ⟨hSlen, _⟩ := hhist ve hve hvenotss
            have hNpos : 1 ≤ N.length := by
              cases hN0 : N with
              | nil => rw [hN0] at h1; exact absurd h1 (List.not_mem_nil x)
              | cons u t => simp [hN0]
            rw [← hlen₁] at hSlen
            omega
    have hhist₃ : ∀ ve ∈ (vs.addElem M).items, ve.point.id ∉ idsOf ss₃.items →
        S ≤ ss₃.items.length ∧ ∀ x ∈ ss₃.items, x.distance ≤ ve.distance := by
      intro ve hve hnotin
      obtain ⟨hvemem, hvenotss⟩ := hdropped ve hve hnotin
      obtain ⟨hSlen, hdle⟩ := hhist ve hvemem hvenotss
      have hN0 : N.length = 0 := by
        rw [← hlen₁] at hSlen
        omega
      have hNnil : N = [] := List.length_eq_zero.mp hN0
      refine ⟨by omega, ?_⟩
      intro x hx
      have hx₂ := hmem₃ x hx
      rw [hX₂, hNnil, List.append_nil] at hx₂
      obtain ⟨y₀, hy₀, hyd⟩ := hdist₁ x hx₂
      rw [hyd]
      exact hdle y₀ hy₀
    refine ⟨GsInv.mk hss₃q hvq₁ hnd₃' hpc₃ hvc₁ hsl₃ hvl₁ ?_ hhist₃ hsorted₃',
      hnotvs, hv1pset⟩
    intro x hx
    rw [hv1pset]
    exact hvis₃ x hx

theorem getPoint_mem_universe {b : Bucket} {c : Cache} {i : Id} {cp : CachePoint}
    (h : getPoint b c i = some cp) : i ∈ gsUniverse b c := by
  unfold getPoint at h
  unfold gsUniverse
  rw [List.mem_toFinset, List.mem_append]
  cases hc : aget c i with
  | some cp2 =>
    right
    exact (aget_isSome_iff_mem_akeys c i).mp (by rw [hc]; rfl)
  | none =>
    rw [hc] at h
    cases hb : aget b i with
    | none => rw [hb] at h; simp at h
    | some sp =>
      left
      exact (aget_isSome_iff_mem_akeys b i).mp (by rw [hb]; rfl)

theorem measure_decrease {U s : Finset Id} {a : Id} (ha : a ∈ U) (hna : a ∉ s) :
    (U \ insert a s).card < (U \ s).card := by
  have h1 : U \ insert a s = (U \ s).erase a := by
    ext x
    simp only [Finset.mem_sdiff, Finset.mem_erase, Finset.mem_insert]
    tauto
  rw [h1]
  refine Finset.card_erase_lt_of_mem ?_
  rw [Finset.mem_sdiff]
  exact ⟨ha, hna⟩

theorem gsLoop_succ (b : Bucket) (c : Cache) (d : DistFn) (S fuel : Nat)
    (ss vs : DistSet) :
    gsLoop b c d S (fuel + 1) ss vs =
      (match ss.findUnvisited with
      | none => Except.ok (ss, vs.sortItems)
      | some (i, e) => do
        let marked : DistSetElem := { e with visited := true }
        let ss₁ : DistSet := { ss with items := ss.items.set i marked }
        let vs₁ := vs.addElem marked
        let node ← getPointE b c e.point.id
        let nbrs ← getNeighbours b c node.sp
        let ss₂ := ss₁.addPoints d (nbrs.map (fun cp => cp.sp))
        let ss₃ := ss₂.sortItems
        let ss₄ := if S < ss₃.len then ss₃.keepFirstK S else ss₃
        gsLoop b c d S fuel ss₄ vs₁) := rfl

/-- The greedy-search loop never runs out of fuel when the fuel exceeds the
number of resolvable ids not yet visited: each expansion visits a fresh
resolvable id. -/
theorem gsLoop_no_fuelOut (b : Bucket) (c : Cache) (d : DistFn) (S : Nat) (q : Vec)
    (hwb : WellKeyedB b) (hwc : WellKeyedC c) :
    ∀ (fuel : Nat) (ss vs : DistSet), GsInv b c d q S ss vs →
      (gsUniverse b c \ vs.pset).card < fuel →
      gsLoop b c d S fuel ss vs ≠ Except.error SErr.fuelOut := by
  intro fuel
  induction fuel with
  | zero =>
    intro ss vs _ hm
    exact absurd hm (Nat.not_lt_zero _)
  | succ f ih =>
    intro ss vs hinv hm
    rw [gsLoop_succ]
    cases hfu : ss.findUnvisited with
    | none =>
      intro hc
      cases hc
    | some pr =>
      obtain ⟨i, e⟩ := pr
      dsimp only
      cases hnode : getPointE b c e.point.id with
      | error er =>
        rw [except_bind_error_eq]
        intro hc
        have her : er = SErr.notFound e.point.id := getPointE_error_kind hnode
        rw [her] at hc
        cases hc
      | ok node =>
        simp only [except_bind_ok_eq]
        cases hnbrs : getNeighbours b c node.sp with
        | error er =>
          rw [except_bind_error_eq]
          intro hc
          have her : ∃ j, er = SErr.notFound j := by
            unfold getNeighbours at hnbrs
            exact mapM_getPointE_error node.sp.edges er hnbrs
          obtain ⟨j, hj⟩ := her
          rw [hj] at hc
          cases hc
        | ok nbrs =>
          simp only [except_bind_ok_eq]
          obtain ⟨hstep, hnot, hpset⟩ := gsInv_step hwb hwc hinv hfu hnode hnbrs
          refine ih _ _ hstep ?_
          rw [hpset]
          have hmemu : e.point.id ∈ gsUniverse b c :=
            getPoint_mem_universe (getPointE_ok_getPoint hnode)
          have hdec := measure_decrease hmemu hnot
          omega

/-- The invariant holds for the seeded search set and the empty visited set. -/
theorem gsInv_init {b : Bucket} {c : Cache} {d : DistFn} {q : Vec} {S : Nat}
    {startId : Id} {sp : CachePoint}
    (hwb : WellKeyedB b) (hwc : WellKeyedC c)
    (hsp : getPointE b c startId = Except.ok sp) :
    GsInv b c d q S ((DistSet.empty q).addPoints d [sp.sp]) (DistSet.empty q) := by
  have hg : getPoint b c startId = some sp := getPointE_ok_getPoint hsp
  have hkey : sp.sp.id = startId := getPoint_wellKeyed hwb hwc hg
  have hone : (DistSet.empty q).addPoints d [sp.sp]
      = ⟨q, [⟨sp.sp, d sp.sp.vector q, false⟩], insert sp.sp.id ∅⟩ := by
    unfold DistSet.addPoints
    rw [List.foldl_cons, List.foldl_nil]
    unfold DistSet.addOne DistSet.empty
    rw [if_neg (Finset.not_mem_empty _)]
    rfl
  rw [hone]
  refine GsInv.mk rfl rfl ?_ ?_ ?_ ?_ ?_ ?_ ?_ ?_
  · simp [idsOf]
  · show insert sp.sp.id ∅ = (idsOf [⟨sp.sp, d sp.sp.vector q, false⟩]).toFinset
    simp [idsOf]
  · show (∅ : Finset Id) = (idsOf (DistSet.empty q).items).toFinset
    simp [DistSet.empty, idsOf]
  · intro elem hel
    rw [List.mem_singleton.mp hel]
    refine ⟨sp, ?_, rfl, rfl⟩
    show getPoint b c sp.sp.id = some sp
    rw [hkey]
    exact hg
  · intro elem hel
    exact absurd hel (List.not_mem_nil elem)
  · intro elem hel
    rw [List.mem_singleton.mp hel]
    show false = true ↔ sp.sp.id ∈ (∅ : Finset Id)
    constructor
    · intro hc
      cases hc
    · intro hc
      exact absurd hc (Finset.not_mem_empty _)
  · intro ve hve
    exact absurd hve (List.not_mem_nil ve)
  · simp

/-! ## Claim theorems -/

/-- C1: the claim states that SearchPoints truncates the search set to its first
k+1 elements so that, whenever the shard holds at least k user points reachable
from the entry point, exactly k results are returned. The code (shard.go line
328) truncates to k instead, so the entry point occupies one of the k kept
slots: on a shard with one reachable user point, a query at the entry point's
own vector with k = 1 returns no results at all. This theorem evaluates the
code at that failing input: the shard stores user point 1, reachable from the
entry point 0, and SearchPoints returns the empty list. -/
theorem C1_searchPoints_missingResult :
    searchPoints twoPointShard eucDist 2 [0, 0] 1 100 = Except.ok [] ∧
    aget twoPointShard.bucket 1 = some ⟨1, [10, 0], none, [0]⟩ ∧
    (aget twoPointShard.bucket twoPointShard.startId).map ShardPoint.edges = some [1] := by
  refine ⟨by decide, by decide, by decide⟩

/-- C3 counterexample: the claim states that opening a shard with a metric other
than euclidean or cosine is a fatal open error. The code (shard.go lines 95-98)
never inspects unknown metrics: opening with metric "manhattan" selects the
euclidean distance function and yields a fully usable shard, into which a point
can then be inserted successfully. -/
theorem C3_unknownMetricOpens :
    (newShard none 7 [1, 0] "manhattan").2 = DistKind.euclidean ∧
    (insertPoints (newShard none 7 [1, 0] "manhattan").1 eucDist 6 5 3 2
      [⟨1, [2, 0], none⟩] 50).2 = none := by
  refine ⟨by decide, by decide⟩

/-- C3 amended: NewShard performs no validation of the distance metric; every
metric other than the string "cosine" (including unknown values such as
"manhattan") silently selects the euclidean distance function and the open
succeeds. -/
theorem C3_amended_metricFallback (prior : Option ShardState) (randId : Id)
    (randVec : Vec) (metric : String) (h : metric ≠ "cosine") :
    (newShard prior randId randVec metric).2 = DistKind.euclidean := by
  cases prior <;> simp [newShard, selectDistKind, h]

/-- Witness for C3 amended: opening with metric "manhattan" selects euclidean. -/
theorem C3_amended_metricFallback_witness :
    (newShard none 7 [1, 0] "manhattan").2 = DistKind.euclidean :=
  C3_amended_metricFallback none 7 [1, 0] "manhattan" (by decide)

/-- C9: ClusterWrite classifies the replica outcomes exactly as the claim
states: any stale-data replica yields Conflict; otherwise if every replica
timed out, Timeout; otherwise if no replica succeeded, NoSuccess; if every
replica succeeded, success; and in every remaining case (some but not all
replicas succeeded) PartialSuccess. The code's count-based classification
(placement.go lines 63-97) equals the specification's classification on every
outcome list. -/
theorem C9_clusterWrite_classification (rs : List WriteOutcome) :
    clusterWrite rs = clusterWriteSpec rs := by
  unfold clusterWrite clusterWriteSpec
  by_cases h1 : WriteOutcome.staleData ∈ rs
  · rw [if_pos (List.count_pos_iff.mpr h1), if_pos h1]
  · rw [if_neg (by rw [List.count_pos_iff]; exact h1), if_neg h1]
    by_cases h2 : ∀ r ∈ rs, r = WriteOutcome.timeout
    · rw [if_pos (List.count_eq_length.mpr (fun b hb => (h2 b hb).symm)), if_pos h2]
    · rw [if_neg (fun hc => h2 (fun b hb => (List.count_eq_length.mp hc b hb).symm)), if_neg h2]
      by_cases h3 : ∀ r ∈ rs, r ≠ WriteOutcome.success
      · rw [if_pos (List.count_eq_zero.mpr (fun hc => h3 _ hc rfl)), if_pos h3]
      · rw [if_neg (fun hc => h3 (fun b hb hbe => by
          subst hbe; exact (List.count_eq_zero.mp hc) hb)), if_neg h3]
        by_cases h4 : ∀ r ∈ rs, r = WriteOutcome.success
        · rw [if_pos (List.count_eq_length.mpr (fun b hb => (h4 b hb).symm)), if_pos h4]
        · rw [if_neg (fun hc => h4 (fun b hb => (List.count_eq_length.mp hc b hb).symm)), if_neg h4]

/-- C10: the Count field of the DeletePoints RPC response equals the number of
distinct ids in the request (rpchandlers.go line 306 sets it to the size of the
deduplicated delete set), not the number of points actually found and deleted:
on a shard holding only its entry point, requesting deletion of the absent id 5
still reports Count 1 while nothing is deleted. -/
theorem C10_rpcDeleteCount :
    (∀ (st : ShardState) (d : DistFn) (alphaN alphaD : Int) (R : Nat) (ids : List Id),
      (rpcDeletePoints st d alphaN alphaD R ids).1 = ids.toFinset.card) ∧
    (rpcDeletePoints freshShard eucDist 1 1 1 [5]).1 = 1 ∧
    (rpcDeletePoints freshShard eucDist 1 1 1 [5]).2.1.2 = [] := by
  refine ⟨fun st d alphaN alphaD R ids => dedupFirst_length ids, by decide, by decide⟩

/-- C7 counterexample: the claim states the entry point is never deleted,
whatever the delete set contains. DeletePoints (shard.go lines 404-451) has no
guard: deleting the entry point's own id on a fresh shard commits successfully
and removes the entry point from the points bucket. -/
theorem C7_entryPointDeleted :
    (deletePoints freshShard eucDist 6 5 3 [0]).2 = none ∧
    aget (deletePoints freshShard eucDist 6 5 3 [0]).1.1.bucket freshShard.startId = none := by
  refine ⟨by decide, by decide⟩

/-- C4 counterexample: the claim states that after every committed operation the
persisted pointCount equals the number of user points. Deleting the entry
point's id decrements pointCount for a point that was never a user point: on a
fresh shard the committed delete leaves pointCount at -1 while the shard holds
0 user points. -/
theorem C4_pointCountBroken :
    (deletePoints freshShard eucDist 6 5 3 [0]).2 = none ∧
    (deletePoints freshShard eucDist 6 5 3 [0]).1.1.pointCount = -1 ∧
    userPointCount (deletePoints freshShard eucDist 6 5 3 [0]).1.1 = 0 := by
  refine ⟨by decide, by decide, by decide⟩

/-- C7 amended: the entry point is never returned to callers, and it is never
deleted provided the delete set does not contain the entry point's id (the code
has no guard of its own, so the unrestricted claim fails; see the
counterexample). Every SearchPoints result omits the entry point id, and after
InsertPoints, UpdatePoints, or a DeletePoints call whose delete set excludes the
entry point id, the entry point is still present in the points bucket, whether
the transaction committed or rolled back. -/
theorem C7_amended_entryPointProtected (st : ShardState) (d : DistFn)
    (alphaN alphaD : Int) (R S k fuel : Nat) (q : Vec) (ids : List Id)
    (ps qs : List Point) (res : List SearchPoint)
    (hni : st.startId ∉ ids)
    (hb : (aget st.bucket st.startId).isSome = true) :
    (searchPoints st d S q k fuel = Except.ok res → ∀ r ∈ res, r.point.id ≠ st.startId) ∧
    (aget ((insertPoints st d alphaN alphaD R S ps fuel).1).bucket st.startId).isSome = true ∧
    (aget ((updatePoints st d alphaN alphaD R S qs fuel).1.1).bucket st.startId).isSome = true ∧
    (aget ((deletePoints st d alphaN alphaD R ids).1.1).bucket st.startId).isSome = true := by
  refine ⟨?_, ?_, ?_, ?_⟩
  · intro hok r hr
    unfold searchPoints at hok
    obtain ⟨gr, hg, hok⟩ := except_bind_ok hok
    cases hok
    exact collectResults_no_start st.bucket st.startId k _ []
      (fun r₂ hr₂ => absurd hr₂ (List.not_mem_nil r₂)) r hr
  · unfold insertPoints
    cases hbody : insertPointsBody st d alphaN alphaD R S ps fuel with
    | error e => exact hb
    | ok c =>
      obtain ⟨hnd, hck, _⟩ := insertPointsBody_props hbody
      exact isSome_aget_flush_of_bucket hck hnd hb
  · unfold updatePoints
    cases hbody : updatePointsBody st d alphaN alphaD R S qs fuel with
    | error e => exact hb
    | ok cr =>
      obtain ⟨c, ids₂⟩ := cr
      obtain ⟨hnd, hck, _⟩ := updatePointsBody_props hbody
      exact isSome_aget_flush_of_bucket hck hnd hb
  · unfold deletePoints
    rcases hdc : deleteCollect st.bucket ids with ⟨c₁, dIds, tp⟩
    dsimp only
    have hprops := deleteCollect_props st.bucket ids
    rw [hdc] at hprops
    cases hfold : tp.foldlM
      (fun cc i => pruneDeleteNeighbour st.bucket d alphaN alphaD R cc i ids) c₁ with
    | error e => exact hb
    | ok c₂ =>
      obtain ⟨_, hck, _, _, _, hdi⟩ := prunesFold_props tp c₁ c₂ hfold
      refine isSome_aget_flush_at (hck hprops.1) ?_ hb
      intro cp hmem
      cases hd : cp.isDeleted with
      | false => rfl
      | true =>
        have hin := (hdi hprops.2) (st.startId, cp) hmem hd
        exact absurd hin hni

/-- Witness for C7 amended, on the two-point shard with delete set {1}. -/
theorem C7_amended_entryPointProtected_witness :
    (searchPoints twoPointShard eucDist 2 [0, 0] 1 100 = Except.ok [] →
      ∀ r ∈ ([] : List SearchPoint), r.point.id ≠ twoPointShard.startId) ∧
    (aget ((insertPoints twoPointShard eucDist 6 5 3 2 [⟨2, [1, 1], none⟩] 100).1).bucket
      twoPointShard.startId).isSome = true ∧
    (aget ((updatePoints twoPointShard eucDist 6 5 3 2 [⟨2, [1, 1], none⟩] 100).1.1).bucket
      twoPointShard.startId).isSome = true ∧
    (aget ((deletePoints twoPointShard eucDist 6 5 3 [1]).1.1).bucket
      twoPointShard.startId).isSome = true :=
  C7_amended_entryPointProtected twoPointShard eucDist 6 5 3 2 1 100 [0, 0] [1]
    [⟨2, [1, 1], none⟩] [⟨2, [1, 1], none⟩] [] (by decide) (by decide)

/-- C6: UpdatePoints skips without error each input point whose id is not
present in the shard, returns exactly the ids of the present input points in
input order, and does not change pointCount (whether the transaction commits or
rolls back). -/
theorem C6_updateSkipsAbsent (st : ShardState) (d : DistFn) (alphaN alphaD : Int)
    (R S fuel : Nat) (pts : List Point) :
    (updatePoints st d alphaN alphaD R S pts fuel).1.1.pointCount = st.pointCount ∧
    ((updatePoints st d alphaN alphaD R S pts fuel).2 = none →
      (updatePoints st d alphaN alphaD R S pts fuel).1.2 =
        (pts.filter (fun p => (aget st.bucket p.id).isSome)).map Point.id) := by
  unfold updatePoints
  cases hbody : updatePointsBody st d alphaN alphaD R S pts fuel with
  | error e =>
    refine ⟨rfl, ?_⟩
    intro hc
    cases hc
  | ok cr =>
    obtain ⟨c, ids⟩ := cr
    refine ⟨rfl, ?_⟩
    intro _
    unfold updatePointsBody at hbody
    have h := updateFold_ids st d alphaN alphaD R S fuel pts ([], [])
      (fun j => Iff.rfl) c ids hbody
    simpa using h.1

/-- Witness for C6: on the two-point shard, updating present point 1 and absent
point 9 returns exactly [1] and keeps pointCount at 1. -/
theorem C6_updateSkipsAbsent_witness :
    (updatePoints twoPointShard eucDist 6 5 3 2
      [⟨1, [3, 0], none⟩, ⟨9, [1, 1], none⟩] 100).1.1.pointCount = 1 ∧
    (updatePoints twoPointShard eucDist 6 5 3 2
      [⟨1, [3, 0], none⟩, ⟨9, [1, 1], none⟩] 100).1.2 = [1] := by
  have h := C6_updateSkipsAbsent twoPointShard eucDist 6 5 3 2 100
    [⟨1, [3, 0], none⟩, ⟨9, [1, 1], none⟩]
  refine ⟨by rw [h.1]; decide, ?_⟩
  rw [h.2 (by decide)]
  decide

/-- C2: if any input point's id already exists in the shard, the whole
InsertPoints transaction fails and no mutation escapes: the committed shard
state (bucket and pointCount) is exactly the input state. Moreover, when the
duplicate is reached by the loop (stated here for a duplicate at the head, where
no earlier insertion can intervene), the error is the "point already exists"
error carrying that id. -/
theorem C2_insertDuplicateAborts (st : ShardState) (d : DistFn) (alphaN alphaD : Int)
    (R S fuel : Nat) (pts : List Point) (p : Point)
    (hp : p ∈ pts) (hpresent : (aget st.bucket p.id).isSome = true) :
    (insertPoints st d alphaN alphaD R S pts fuel).1 = st ∧
    (insertPoints st d alphaN alphaD R S pts fuel).2.isSome = true ∧
    (∀ q rest, pts = q :: rest → (aget st.bucket q.id).isSome = true →
      (insertPoints st d alphaN alphaD R S pts fuel).2 =
        some (SErr.alreadyExists q.id)) := by
  unfold insertPoints
  cases hbody : insertPointsBody st d alphaN alphaD R S pts fuel with
  | ok c =>
    exact absurd hbody (insertFold_error st d alphaN alphaD R S fuel pts [] p hp
      ((present_nil st.bucket p.id).mpr hpresent) c)
  | error e =>
    refine ⟨rfl, rfl, ?_⟩
    intro q rest hpts hq
    subst hpts
    unfold insertPointsBody at hbody
    simp only [List.foldlM_cons] at hbody
    have hqpres : present st.bucket [] q.id := (present_nil st.bucket q.id).mpr hq
    unfold present at hqpres
    cases hg : getPoint st.bucket [] q.id with
    | none =>
      rw [hg] at hqpres
      cases hqpres
    | some cp =>
      rw [show insertStep st d alphaN alphaD R S fuel [] q =
        Except.error (SErr.alreadyExists q.id) from by
          unfold insertStep
          rw [hg]] at hbody
      cases hbody
      rfl

/-- Witness for C2: re-inserting the existing point 1 of the two-point shard
fails with "point already exists" and leaves the shard unchanged. -/
theorem C2_insertDuplicateAborts_witness :
    (insertPoints twoPointShard eucDist 6 5 3 2 [⟨1, [5, 5], none⟩] 100).1 = twoPointShard ∧
    (insertPoints twoPointShard eucDist 6 5 3 2 [⟨1, [5, 5], none⟩] 100).2 =
      some (SErr.alreadyExists 1) := by
  have h := C2_insertDuplicateAborts twoPointShard eucDist 6 5 3 2 100
    [⟨1, [5, 5], none⟩] ⟨1, [5, 5], none⟩ (List.mem_singleton.mpr rfl) (by decide)
  exact ⟨h.1, h.2.2 ⟨1, [5, 5], none⟩ [] rfl (by decide)⟩

/-- C4 amended: after every committed shard operation whose delete set (if any)
is duplicate-free and excludes the entry point's id, the persisted pointCount
equals the number of user points stored in the shard (bucket entries other than
the entry point), provided it did before: inserts increment it by the number of
inserted points, updates leave it unchanged, and deletes decrement it by the
number of points actually found and deleted. Without the delete-set restriction
the claim fails: DeletePoints has no guard for the entry point, and deleting it
decrements pointCount for a point that was never a user point (see the
counterexample). -/
theorem C4_amended_pointCountMatches (st : ShardState) (d : DistFn) (alphaN alphaD : Int)
    (R S fuel : Nat) (op : ShardOp)
    (hpc : st.pointCount = (userPointCount st : Int))
    (hbk : BKNodup st.bucket)
    (hstart : (aget st.bucket st.startId).isSome = true)
    (hdel : ∀ ids, op = ShardOp.delete ids → ids.Nodup ∧ st.startId ∉ ids)
    (hok : (applyOp st d alphaN alphaD R S fuel op).2 = none) :
    (applyOp st d alphaN alphaD R S fuel op).1.pointCount
      = (userPointCount (applyOp st d alphaN alphaD R S fuel op).1 : Int) ∧
    (∀ ps, op = ShardOp.insert ps →
      (applyOp st d alphaN alphaD R S fuel op).1.pointCount
        = st.pointCount + ps.length) ∧
    (∀ ps, op = ShardOp.update ps →
      (applyOp st d alphaN alphaD R S fuel op).1.pointCount = st.pointCount) ∧
    (∀ ids, op = ShardOp.delete ids →
      (applyOp st d alphaN alphaD R S fuel op).1.pointCount
        = st.pointCount - (deletePoints st d alphaN alphaD R ids).1.2.length) := by
  cases op with
  | insert ps =>
    have hok₂ : (insertPoints st d alphaN alphaD R S ps fuel).2 = none := hok
    obtain ⟨hu, hp⟩ := insertPoints_count st d alphaN alphaD R S fuel ps hbk hstart hok₂
    refine ⟨?_, ?_, ?_, ?_⟩
    · show (insertPoints st d alphaN alphaD R S ps fuel).1.pointCount
        = (userPointCount (insertPoints st d alphaN alphaD R S ps fuel).1 : Int)
      rw [hp, hu]
      omega
    · intro qs hqs
      cases hqs
      exact hp
    · intro qs hqs
      exact ShardOp.noConfusion hqs
    · intro jds hjds
      exact ShardOp.noConfusion hjds
  | update ps =>
    have hok₂ : (updatePoints st d alphaN alphaD R S ps fuel).2 = none := hok
    obtain ⟨hu, hp⟩ := updatePoints_count st d alphaN alphaD R S fuel ps hbk hok₂
    refine ⟨?_, ?_, ?_, ?_⟩
    · show (updatePoints st d alphaN alphaD R S ps fuel).1.1.pointCount
        = (userPointCount (updatePoints st d alphaN alphaD R S ps fuel).1.1 : Int)
      rw [hp, hu]
      exact hpc
    · intro qs hqs
      exact ShardOp.noConfusion hqs
    · intro qs hqs
      cases hqs
      exact hp
    · intro jds hjds
      exact ShardOp.noConfusion hjds
  | delete ids =>
    obtain ⟨hids, hsni⟩ := hdel ids rfl
    have hok₂ : (deletePoints st d alphaN alphaD R ids).2 = none := hok
    obtain ⟨hu, hp⟩ := deletePoints_count st d alphaN alphaD R ids hbk hids hsni hok₂
    refine ⟨?_, ?_, ?_, ?_⟩
    · show (deletePoints st d alphaN alphaD R ids).1.1.pointCount
        = (userPointCount (deletePoints st d alphaN alphaD R ids).1.1 : Int)
      rw [hp]
      omega
    · intro qs hqs
      exact ShardOp.noConfusion hqs
    · intro qs hqs
      exact ShardOp.noConfusion hqs
    · intro jds hjds
      cases hjds
      exact hp

/-- Witness for C4 amended: deleting user point 1 from the two-point shard
commits with pointCount 0 and zero remaining user points. -/
theorem C4_amended_pointCountMatches_witness :
    (applyOp twoPointShard eucDist 6 5 3 2 100 (ShardOp.delete [1])).1.pointCount
      = (userPointCount (applyOp twoPointShard eucDist 6 5 3 2 100
          (ShardOp.delete [1])).1 : Int) ∧
    (applyOp twoPointShard eucDist 6 5 3 2 100 (ShardOp.delete [1])).1.pointCount
      = twoPointShard.pointCount
        - (deletePoints twoPointShard eucDist 6 5 3 [1]).1.2.length := by
  have h := C4_amended_pointCountMatches twoPointShard eucDist 6 5 3 2 100
    (ShardOp.delete [1]) (by decide)
    (by show (akeys twoPointShard.bucket).Nodup; decide) (by decide)
    (fun ids hids => by
      cases hids
      exact ⟨by decide, by decide⟩)
    (by decide)
  exact ⟨h.1, h.2.2.2 [1] rfl⟩

/-- C8: greedySearch terminates in finitely many steps for every query vector
and every finite graph. The graph is any finite points bucket and cache whose
values are keyed by their own ids (the shard always stores points under their
id); the loop is embedded on explicit fuel, and termination is the existence of
a fuel bound (one more than the number of resolvable ids) beyond which the loop
never runs out: each iteration either returns, fails on a missing point, or
expands the first unvisited element, which the invariant shows carries an id
never visited before, while elements re-entering the working set with an
already-visited id are cut by the truncation to the search size S. -/
theorem C8_greedySearch_terminates (b : Bucket) (c : Cache) (d : DistFn)
    (startId : Id) (q : Vec) (k S : Nat)
    (hwb : WellKeyedB b) (hwc : WellKeyedC c) :
    ∃ fuel, greedySearch b c d startId q k S fuel ≠ Except.error SErr.fuelOut := by
  refine ⟨(gsUniverse b c).card + 1, ?_⟩
  unfold greedySearch
  by_cases hk : S < k
  · rw [if_pos hk]
    intro hc
    cases hc
  · rw [if_neg hk]
    cases hsp : getPointE b c startId with
    | error er =>
      rw [except_bind_error_eq]
      intro hc
      have her : er = SErr.notFound startId := getPointE_error_kind hsp
      rw [her] at hc
      cases hc
    | ok sp =>
      simp only [except_bind_ok_eq]
      refine gsLoop_no_fuelOut b c d S q hwb hwc ((gsUniverse b c).card + 1) _ _
        (gsInv_init hwb hwc hsp) ?_
      show (gsUniverse b c \ (DistSet.empty q).pset).card < (gsUniverse b c).card + 1
      rw [show (DistSet.empty q).pset = ∅ from rfl, Finset.sdiff_empty]
      omega

/-- Witness for C8 on the two-point shard: the greedy search from the entry
point admits a finite fuel bound. -/
theorem C8_greedySearch_terminates_witness :
    ∃ fuel, greedySearch twoPointShard.bucket [] eucDist 0 [0, 0] 1 2 fuel
      ≠ Except.error SErr.fuelOut :=
  C8_greedySearch_terminates twoPointShard.bucket [] eucDist 0 [0, 0] 1 2
    (by show ∀ e ∈ twoPointShard.bucket, e.2.id = e.1; decide)
    (by show ∀ e ∈ ([] : Cache), e.2.sp.id = e.1; decide)

/-- C5 amended: for a positive degree bound R, robustPrune returns an edge list
of length at most R that never contains the pruned point's own id, and every
shard write operation (insert, update, delete), whether it commits or rolls
back, preserves the invariant that every stored point has at most R edges. For
R = 0 the claim fails (see the counterexample): the loop appends the first
candidate before checking the bound. -/
theorem C5_amended_degreeBound (st : ShardState) (d : DistFn) (alphaN alphaD : Int)
    (R S fuel : Nat) (op : ShardOp) (b₂ : Bucket) (c₂ : Cache) (nodeId : Id)
    (cand : DistSet) (es : List Id)
    (hR : 1 ≤ R) (hb : EdgesBoundedB R st.bucket) :
    (robustPruneEdges b₂ c₂ d alphaN alphaD R nodeId cand = Except.ok es →
      es.length ≤ R ∧ nodeId ∉ es) ∧
    EdgesBoundedB R (applyOp st d alphaN alphaD R S fuel op).1.bucket := by
  refine ⟨fun hok => robustPruneEdges_sound hok hR, ?_⟩
  cases op with
  | insert ps =>
    show EdgesBoundedB R (insertPoints st d alphaN alphaD R S ps fuel).1.bucket
    unfold insertPoints
    cases hbody : insertPointsBody st d alphaN alphaD R S ps fuel with
    | error e => exact hb
    | ok c => exact EdgesBoundedB_flush hb (insertPointsBody_EdgesBounded hR hbody)
  | update ps =>
    show EdgesBoundedB R (updatePoints st d alphaN alphaD R S ps fuel).1.1.bucket
    unfold updatePoints
    cases hbody : updatePointsBody st d alphaN alphaD R S ps fuel with
    | error e => exact hb
    | ok cr =>
      obtain ⟨c, ids⟩ := cr
      exact EdgesBoundedB_flush hb (updatePointsBody_EdgesBounded hR hbody)
  | delete ids =>
    show EdgesBoundedB R (deletePoints st d alphaN alphaD R ids).1.1.bucket
    unfold deletePoints
    rcases hdc : deleteCollect st.bucket ids with ⟨c₁, dIds, tp⟩
    dsimp only
    have hc₁ : EdgesBoundedC R c₁ := by
      have := @deleteCollect_EdgesBounded R st.bucket ids hb
      rw [hdc] at this
      exact this
    cases hfold : tp.foldlM
      (fun cc i => pruneDeleteNeighbour st.bucket d alphaN alphaD R cc i ids) c₁ with
    | error e => exact hb
    | ok cc₂ =>
      refine EdgesBoundedB_flush hb ?_
      refine foldlM_invariant (EdgesBoundedC R) _ ?_ tp c₁ hc₁ cc₂ hfold
      intro cc x ccx hp hs
      exact pruneDeleteNeighbour_EdgesBounded hR hs hp

/-- Witness for C5 amended: with R = 1 on the fresh shard, robustPrune returns
the single closest candidate (not the node itself), and an insert keeps every
stored edge list within the bound. -/
theorem C5_amended_degreeBound_witness :
    (([1] : List Id).length ≤ 1 ∧ (0 : Id) ∉ ([1] : List Id)) ∧
    EdgesBoundedB 1 (applyOp freshShard eucDist 6 5 1 2 100
      (ShardOp.insert [⟨1, [1, 1], none⟩])).1.bucket := by
  have h := C5_amended_degreeBound freshShard eucDist 6 5 1 2 100
    (ShardOp.insert [⟨1, [1, 1], none⟩]) pruneBucket [] 0 pruneCand [1]
    (by decide) (by decide)
  exact ⟨h.1 (by decide), h.2⟩

/-- C5 counterexample: the claim states robustPrune writes an edge list of
length at most R. With degree bound R = 0 the loop appends the closest
candidate before checking the bound (part_001 lines 82-85), producing an edge
list of length 1 > 0. -/
theorem C5_degreeBoundZero :
    robustPruneEdges pruneBucket [] eucDist 1 1 0 0 pruneCand = Except.ok [1] ∧
    ¬ (([1] : List Id).length ≤ 0) := by
  refine ⟨by decide, by decide⟩

end SemaDB
